import Mathlib

/-!
Shallow embedding of the `bptree` Go repository (an in-memory B+ tree) and
proofs about the claims of its specification.

The repository carries two versions of the engine: the named file
`src/bptree.go` (together with `src/recordpath.go` and the iterator/leaf-list
files) and an alternate version in `src/unnamed/part_003`.  The embedding
below follows `src/bptree.go`; the places where `part_003` differs
(`Init` threshold, the internal-node `IsSparse` threshold, and the
internal-node split point) are embedded alongside under `P3`-prefixed names.

Translation conventions:
* Go `interface{}` keys are `GKey K`: either one of the two `keyMinMax`
  sentinels or an ordinary key of type `K`.
* The caller-supplied `KeyComparer` is a parameter `cmp : K → K → Int`;
  applying it to a sentinel (which a comparer such as the one in the tests
  would reject with a type-assertion panic) is modelled as failure.
* Go panics (including slice accesses out of range and bad pointer casts)
  are modelled by `Option`: an operation that panics returns `none` and
  produces no new state.
* The record path of `src/recordpath.go` stores `(node pointer, index)`
  frames; since a frame's node is the node reached from the root by the
  indices of the frames above it, the embedding stores the path as the
  list of indices and re-derives each frame's node from the root.
* The doubly linked leaf list of the source is maintained exactly in leaf
  order, so the embedding derives it from the tree (`leavesOf`); the list
  is circular, which the iterator embedding mirrors by wrapping positions.
-/

set_option linter.unusedVariables false

/-- Go `interface{}` key: a `keyMinMax` sentinel or an ordinary key. -/
inductive GKey (K : Type) where
  | sent (s : Int)
  | ord (k : K)
  deriving DecidableEq, Repr

/-- The `KeyMin` sentinel (`keyMinMax(-1)` in the source). -/
def KeyMin {K : Type} : GKey K := .sent (-1)

/-- The `KeyMax` sentinel (`keyMinMax(1)` in the source). -/
def KeyMax {K : Type} : GKey K := .sent 1

/-- A record : a key/value pair held in a leaf (`type record` in the source). -/
structure Rec (K V : Type) where
  key : GKey K
  val : V
  deriving DecidableEq, Repr

/-- A tree node: a leaf holding records, or a non-leaf holding child entries
`(separator key or dummy, child)` (`type leaf` / `type nonLeaf`). -/
inductive BNode (K V : Type) where
  | lf (recs : List (Rec K V))
  | nl (children : List (Option (GKey K) × BNode K V))

/-- Applying the Go key comparer to two `interface{}` keys: the comparer is
only defined on ordinary keys; handing it a sentinel is a panic. -/
def cmpG {K : Type} (cmp : K → K → Int) : GKey K → GKey K → Option Int
  | .ord a, .ord b => some (cmp a b)
  | _, _ => none

/-- Applying the comparer to a child entry's separator key (which may also be
the `nil` dummy) and a search key. -/
def cmpS {K : Type} (cmp : K → K → Int) : Option (GKey K) → GKey K → Option Int
  | some a, b => cmpG cmp a b
  | none, _ => none

/-- Binary-search loop of `records.LocateRecord`: narrows `[i, j]` to the
least index whose key is `≥ key`. -/
def bsearchRecs {K V : Type} (cmp : K → K → Int) (rs : List (Rec K V))
    (key : GKey K) : Nat → Nat → Nat → Option Nat
  | 0, _, _ => none
  | fuel + 1, i, j =>
    if i < j then
      let k := (i + j) / 2
      match rs.get? k with
      | none => none
      | some r =>
        match cmpG cmp r.key key with
        | none => none
        | some d =>
          if d < 0 then bsearchRecs cmp rs key fuel (k + 1) j
          else bsearchRecs cmp rs key fuel i k
    else
      some i

/-- Go `records.LocateRecord`: locate `key` in a leaf's record list, giving
the slot and whether it is an exact hit (insertion slot otherwise). -/
def locateRecord {K V : Type} (cmp : K → K → Int) (rs : List (Rec K V))
    (key : GKey K) : Option (Nat × Bool) :=
  let n := rs.length
  if n = 0 then some (0, false)
  else
    match key with
    | .sent s => some (if s = -1 then 0 else n - 1, true)
    | .ord _ => do
      let i ← bsearchRecs cmp rs key (n + 1) 0 (n - 1)
      let r ← rs.get? i
      let d ← cmpG cmp r.key key
      if d = 0 then some (i, true)
      else if d < 0 ∧ i = n - 1 then some (n, false)
      else some (i, false)

/-- Binary-search loop of `nodeChildren.LocateNodeChild` (over the child
entries, starting at slot 1 to skip the dummy separator). -/
def bsearchChildren {K V : Type} (cmp : K → K → Int)
    (nc : List (Option (GKey K) × BNode K V)) (key : GKey K) :
    Nat → Nat → Nat → Option Nat
  | 0, _, _ => none
  | fuel + 1, i, j =>
    if i < j then
      let k := (i + j) / 2
      match nc.get? k with
      | none => none
      | some c =>
        match cmpS cmp c.1 key with
        | none => none
        | some d =>
          if d < 0 then bsearchChildren cmp nc key fuel (k + 1) j
          else bsearchChildren cmp nc key fuel i k
    else
      some i

/-- Go `nodeChildren.LocateNodeChild`: locate the child entry for `key`.
On a single-entry node an ordinary key reads entry 1, which is out of
range (the Go code panics there). -/
def locateNodeChild {K V : Type} (cmp : K → K → Int)
    (nc : List (Option (GKey K) × BNode K V)) (key : GKey K) :
    Option (Nat × Bool) :=
  let n := nc.length
  match key with
  | .sent s => some (if s = -1 then 0 else n - 1, true)
  | .ord _ => do
    let i ← bsearchChildren cmp nc key (n + 1) 1 (n - 1)
    let c ← nc.get? i
    let d ← cmpS cmp c.1 key
    if d = 0 then some (i, true)
    else if d < 0 ∧ i = n - 1 then some (n, false)
    else some (i, false)

/-- Go `records.IsSparse` (also `part_003`'s, which is identical for leaves):
`len(rs)*2 <= maxDegree`. -/
def recsIsSparse (count maxDegree : Nat) : Bool :=
  count * 2 ≤ maxDegree

/-- Go `records.IsFull`: `len(rs) == maxDegree`. -/
def recsIsFull (count maxDegree : Nat) : Bool :=
  count = maxDegree

/-- Go `nodeChildren.IsSparse` in `src/bptree.go`:
`len(nc)*2 <= maxDegree-1`. -/
def childrenIsSparse (count maxDegree : Nat) : Bool :=
  count * 2 ≤ maxDegree - 1

/-- Go `nodeChildren.IsFull`: `len(nc) == maxDegree`. -/
def childrenIsFull (count maxDegree : Nat) : Bool :=
  count = maxDegree

/-- Go `nodeChildren.IsSparse` in `src/unnamed/part_003` (lines 819-821):
`len(nc)*2 <= maxDegree`, without the `- 1` of `src/bptree.go`. -/
def P3childrenIsSparse (count maxDegree : Nat) : Bool :=
  count * 2 ≤ maxDegree

/-- Read the node reached from `node` by following the child indices of
`path` (a record-path prefix). -/
def getNode {K V : Type} : BNode K V → List Nat → Option (BNode K V)
  | node, [] => some node
  | .nl cs, ix :: p =>
    match cs.get? ix with
    | some c => getNode c.2 p
    | none => none
  | .lf _, _ :: _ => none

/-- Replace the node reached by `path` with `new` (functional write-back of
an in-place mutation through the record path's node pointers). -/
def setNode {K V : Type} : BNode K V → List Nat → BNode K V → Option (BNode K V)
  | _, [], new => some new
  | .nl cs, ix :: p, new =>
    match cs.get? ix with
    | some c =>
      match setNode c.2 p new with
      | some sub => some (.nl (cs.set ix (c.1, sub)))
      | none => none
    | none => none
  | .lf _, _ :: _, _ => none

/-- Go `BPTree` (the comparer is passed to each operation instead of being
stored; the leaf list is derived from the tree). -/
structure BPT (K V : Type) where
  maxDegree : Nat
  root : BNode K V
  height : Nat

/-- Go `BPTree.Init` of `src/bptree.go`: panics for `maxDegree < 3`,
otherwise yields the one-empty-leaf tree of height 1. -/
def BPT.Init (K V : Type) (maxDegree : Nat) : Option (BPT K V) :=
  if maxDegree < 3 then none
  else some ⟨maxDegree, .lf [], 1⟩

/-- Go `BPTree.Init` of `src/unnamed/part_003`: identical except that it
panics for `maxDegree < 4`. -/
def P3Init (K V : Type) (maxDegree : Nat) : Option (BPT K V) :=
  if maxDegree < 4 then none
  else some ⟨maxDegree, .lf [], 1⟩

/-- Go `BPTree.IsEmpty`. -/
def BPT.isEmpty {K V : Type} (t : BPT K V) : Bool :=
  decide (t.height = 1) &&
    match t.root with
    | .lf rs => decide (rs.length = 0)
    | .nl _ => false

/-- Descent loop of Go `BPTree.findRecord`; the fuel argument stands for the
`for` loop running until the leaf depth is reached (the Go loop would chase
bad casts forever only on malformed trees, which here returns `none`). -/
def findRecordLoop {K V : Type} (cmp : K → K → Int) (height : Nat)
    (key : GKey K) : Nat → BNode K V → List Nat → Option (List Nat × Bool)
  | 0, _, _ => none
  | fuel + 1, node, path =>
    if path.length + 1 = height then
      match node with
      | .lf rs => do
        let (i, ok) ← locateRecord cmp rs key
        some (path ++ [i], ok)
      | .nl _ => none
    else
      match node with
      | .lf _ => none
      | .nl cs => do
        let (i0, ok) ← locateNodeChild cmp cs key
        let i ← if ok then some i0 else if i0 = 0 then none else some (i0 - 1)
        let c ← cs.get? i
        findRecordLoop cmp height key fuel c.2 (path ++ [i])

/-- Go `BPTree.findRecord`: returns the record path (as indices) and whether
the key was found. -/
def findRecord {K V : Type} (cmp : K → K → Int) (t : BPT K V) (key : GKey K) :
    Option (List Nat × Bool) :=
  findRecordLoop cmp t.height key (t.height + 1) t.root []

/-- Go `BPTree.increaseHeight`: wrap the root in a new non-leaf whose single
child entry is `(dummy, old root)`. -/
def increaseHeight {K V : Type} (st : BPT K V) : BPT K V :=
  ⟨st.maxDegree, .nl [(none, st.root)], st.height + 1⟩

/-- Go `BPTree.decreaseHeight`: replace the root by its first child. -/
def decreaseHeight {K V : Type} (st : BPT K V) : Option (BPT K V) :=
  match st.root with
  | .nl cs =>
    match cs.get? 0 with
    | some c => some ⟨st.maxDegree, c.2, st.height - 1⟩
    | none => none
  | .lf _ => none

/-- Go `BPTree.trySplitLeaf` (which calls `leaf.Split`): split the full leaf
at frame `i` of the record path, inserting the new right sibling after it in
the parent, keyed by the sibling's first record; the record path is
redirected into the sibling when the located slot moved there. -/
def trySplitLeaf {K V : Type} (st : BPT K V) (path : List Nat) (i : Nat) :
    Option (BPT K V × List Nat × Nat) := do
  let leafN ← getNode st.root (path.take i)
  match leafN with
  | .nl _ => none
  | .lf rs =>
    let recordIndex ← path.get? i
    if recsIsFull rs.length st.maxDegree then
      let k := st.maxDegree / 2
      let (st, path, i) :=
        if i = 0 then (increaseHeight st, 0 :: path, 1) else (st, path, i)
      let parentN ← getNode st.root (path.take (i - 1))
      match parentN with
      | .lf _ => none
      | .nl pcs => do
        let leafIndex ← path.get? (i - 1)
        let entry ← pcs.get? leafIndex
        let left := rs.take k
        let right := rs.drop k
        match right.head? with
        | none => none
        | some r0 => do
          let newcs := pcs.take leafIndex ++
            [(entry.1, BNode.lf left), (some r0.key, BNode.lf right)] ++
            pcs.drop (leafIndex + 1)
          let root' ← setNode st.root (path.take (i - 1)) (.nl newcs)
          let st := ⟨st.maxDegree, root', st.height⟩
          if recordIndex ≥ k then
            some (st, (path.set i (recordIndex - k)).set (i - 1) (leafIndex + 1), i)
          else
            some (st, path, i)
    else
      some (st, path, i)

/-- Go `BPTree.trySplitNonLeaf` (which calls `nonLeaf.Split`): split the full
non-leaf at frame `i`, keeping `(maxDegree-1)/2` child entries on the left;
the right sibling's first separator key is promoted into the parent and its
own slot-0 separator cleared to the dummy. -/
def trySplitNonLeaf {K V : Type} (st : BPT K V) (path : List Nat) (i : Nat) :
    Option (BPT K V × List Nat × Nat) := do
  let nodeN ← getNode st.root (path.take i)
  match nodeN with
  | .lf _ => none
  | .nl cs0 =>
    let childIndex ← path.get? i
    if childrenIsFull cs0.length st.maxDegree then
      let k := (st.maxDegree - 1) / 2
      let (st, path, i) :=
        if i = 0 then (increaseHeight st, 0 :: path, 1) else (st, path, i)
      let parentN ← getNode st.root (path.take (i - 1))
      match parentN with
      | .lf _ => none
      | .nl pcs => do
        let idx ← path.get? (i - 1)
        let entry ← pcs.get? idx
        let left := cs0.take k
        let right := cs0.drop k
        match right.head? with
        | none => none
        | some r0 => do
          let right' := (none, r0.2) :: right.tail
          let newpcs := pcs.take idx ++
            [(entry.1, BNode.nl left), (r0.1, BNode.nl right')] ++
            pcs.drop (idx + 1)
          let root' ← setNode st.root (path.take (i - 1)) (.nl newpcs)
          let st := ⟨st.maxDegree, root', st.height⟩
          if childIndex ≥ k then
            some (st, (path.set i (childIndex - k)).set (i - 1) (idx + 1), i)
          else
            some (st, path, i)
    else
      some (st, path, i)

/-- The splitting walk of Go `BPTree.insertRecord` (its `for i := 0; ; i++`
loop); the fuel stands for the loop's finitely many iterations. -/
def insertLoop {K V : Type} :
    Nat → BPT K V → List Nat → Nat → Option (BPT K V × List Nat)
  | 0, _, _, _ => none
  | fuel + 1, st, path, i =>
    if i ≥ path.length then some (st, path)
    else do
      let (st, path, i) ←
        if i = path.length - 1 then trySplitLeaf st path i
        else trySplitNonLeaf st path i
      insertLoop fuel st path (i + 1)

/-- The upward separator fix-up walk of Go `trySyncKey`: `j` counts the
frames left to scan, so frame `j - 1` is examined next. -/
def syncWalk {K V : Type} (path : List Nat) (k0 : GKey K) :
    Nat → BPT K V → Option (BPT K V)
  | 0, st => some st
  | j + 1, st => do
    let ix ← path.get? j
    if ix ≥ 1 then
      let nodeN ← getNode st.root (path.take j)
      match nodeN with
      | .lf _ => none
      | .nl cs => do
        let entry ← cs.get? ix
        let root' ← setNode st.root (path.take j) (.nl (cs.set ix (some k0, entry.2)))
        some ⟨st.maxDegree, root', st.height⟩
    else
      syncWalk path k0 j st

/-- Go `trySyncKey`: after an insert or removal at slot 0 of the path's leaf,
update the nearest ancestor separator (the deepest frame with child index
`≥ 1`) to the leaf's new first key. -/
def trySyncKey {K V : Type} (st : BPT K V) (path : List Nat) :
    Option (BPT K V) := do
  let leafN ← getNode st.root path.dropLast
  match leafN with
  | .nl _ => none
  | .lf rs => do
    let ri ← path.getLast?
    if ri = 0 ∧ rs.length ≥ 1 then
      match rs.head? with
      | none => none
      | some r0 => syncWalk path r0.key (path.length - 1) st
    else
      some st

/-- Go `BPTree.insertRecord`: walk the path splitting full nodes, insert the
record at the leaf frame's slot, then run the separator fix-up. -/
def insertRecord {K V : Type} (st : BPT K V) (r : Rec K V) (path : List Nat) :
    Option (BPT K V) := do
  let (st, path) ← insertLoop (path.length + 3) st path 0
  let leafN ← getNode st.root path.dropLast
  match leafN with
  | .nl _ => none
  | .lf rs => do
    let ri ← path.getLast?
    if ri ≤ rs.length then
      let root' ← setNode st.root path.dropLast (.lf (rs.take ri ++ r :: rs.drop ri))
      trySyncKey ⟨st.maxDegree, root', st.height⟩ path
    else
      none

/-- Go `BPTree.tryMergeLeaf` (calling `leaf.MergeRight`, `StealRecordRight`,
`MergeToLeft`, `StealRecordLeft`): rebalance the sparse leaf at frame `i`
with its right or left sibling; afterwards, if the parent was left with one
child entry, the root is demoted (`decreaseHeight`) and the path shortened. -/
def tryMergeLeaf {K V : Type} (st : BPT K V) (path : List Nat) (i : Nat) :
    Option (BPT K V × List Nat × Nat) := do
  let leafN ← getNode st.root (path.take i)
  match leafN with
  | .nl _ => none
  | .lf rs =>
    let recordIndex ← path.get? i
    if recsIsSparse rs.length st.maxDegree then
      if i = 0 then none
      else do
        let parentN ← getNode st.root (path.take (i - 1))
        match parentN with
        | .lf _ => none
        | .nl pcs => do
          let leafIndex ← path.get? (i - 1)
          let (newcs, path) ←
            if leafIndex < pcs.length - 1 then do
              let entry ← pcs.get? leafIndex
              let rc ← pcs.get? (leafIndex + 1)
              match rc.2 with
              | .nl _ => none
              | .lf rrs =>
                if recsIsSparse rrs.length st.maxDegree then
                  -- leaf.MergeRight
                  some (pcs.take leafIndex ++
                    [(entry.1, BNode.lf (rs ++ rrs))] ++
                    pcs.drop (leafIndex + 2), path)
                else
                  -- leaf.StealRecordRight
                  match rrs with
                  | [] => none
                  | stolen :: rrs2 =>
                    match rrs2.head? with
                    | none => none
                    | some r2 =>
                      some (pcs.take leafIndex ++
                        [(entry.1, BNode.lf (rs ++ [stolen])),
                         (some r2.key, BNode.lf rrs2)] ++
                        pcs.drop (leafIndex + 2), path)
            else do
              if leafIndex = 0 then none
              else do
                let lc ← pcs.get? (leafIndex - 1)
                match lc.2 with
                | .nl _ => none
                | .lf lrs =>
                  if recsIsSparse lrs.length st.maxDegree then
                    -- leaf.MergeToLeft
                    some (pcs.take (leafIndex - 1) ++
                      [(lc.1, BNode.lf (lrs ++ rs))] ++
                      pcs.drop (leafIndex + 1),
                      (path.set i ((lrs.length + rs.length) -
                        (rs.length - recordIndex))).set (i - 1) (leafIndex - 1))
                  else
                    -- leaf.StealRecordLeft
                    match lrs.getLast? with
                    | none => none
                    | some stolen =>
                      some (pcs.take (leafIndex - 1) ++
                        [(lc.1, BNode.lf lrs.dropLast),
                         (some stolen.key, BNode.lf (stolen :: rs))] ++
                        pcs.drop (leafIndex + 1),
                        path.set i (recordIndex + 1))
          let root' ← setNode st.root (path.take (i - 1)) (.nl newcs)
          let st : BPT K V := ⟨st.maxDegree, root', st.height⟩
          if newcs.length = 1 then do
            let st ← decreaseHeight st
            some (st, path.drop 1, i - 1)
          else
            some (st, path, i)
    else
      some (st, path, i)

/-- Go `BPTree.tryMergeNonLeaf` (calling `nonLeaf.MergeRight`,
`StealChildRight`, `MergeToLeft`, `StealChildLeft`): the non-leaf analogue of
`tryMergeLeaf`, rotating separator keys through the parent. -/
def tryMergeNonLeaf {K V : Type} (st : BPT K V) (path : List Nat) (i : Nat) :
    Option (BPT K V × List Nat × Nat) := do
  let nodeN ← getNode st.root (path.take i)
  match nodeN with
  | .lf _ => none
  | .nl cs0 =>
    let childIndex ← path.get? i
    if childrenIsSparse cs0.length st.maxDegree then
      if i = 0 then none
      else do
        let parentN ← getNode st.root (path.take (i - 1))
        match parentN with
        | .lf _ => none
        | .nl pcs => do
          let idx ← path.get? (i - 1)
          let (newpcs, path) ←
            if idx < pcs.length - 1 then do
              let entry ← pcs.get? idx
              let rc ← pcs.get? (idx + 1)
              match rc.2 with
              | .lf _ => none
              | .nl rcs =>
                if childrenIsSparse rcs.length st.maxDegree then
                  -- nonLeaf.MergeRight: right sibling's slot-0 key takes the
                  -- parent separator, then the right sibling is absorbed
                  match rcs.head? with
                  | none => none
                  | some rc0 =>
                    some (pcs.take idx ++
                      [(entry.1, BNode.nl (cs0 ++ (rc.1, rc0.2) :: rcs.tail))] ++
                      pcs.drop (idx + 2), path)
                else
                  -- nonLeaf.StealChildRight
                  match rcs with
                  | [] => none
                  | stolen :: rcs2 =>
                    match rcs2.head? with
                    | none => none
                    | some r2 =>
                      some (pcs.take idx ++
                        [(entry.1, BNode.nl (cs0 ++ [(rc.1, stolen.2)])),
                         (r2.1, BNode.nl ((none, r2.2) :: rcs2.tail))] ++
                        pcs.drop (idx + 2), path)
            else do
              if idx = 0 then none
              else do
                let entry ← pcs.get? idx
                let lc ← pcs.get? (idx - 1)
                match lc.2 with
                | .lf _ => none
                | .nl lcs =>
                  if childrenIsSparse lcs.length st.maxDegree then
                    -- nonLeaf.MergeToLeft
                    match cs0.head? with
                    | none => none
                    | some c0 =>
                      some (pcs.take (idx - 1) ++
                        [(lc.1, BNode.nl (lcs ++ (entry.1, c0.2) :: cs0.tail))] ++
                        pcs.drop (idx + 1),
                        (path.set i ((lcs.length + cs0.length) -
                          (cs0.length - childIndex))).set (i - 1) (idx - 1))
                  else
                    -- nonLeaf.StealChildLeft
                    match lcs.getLast? with
                    | none => none
                    | some stolen =>
                      match cs0.head? with
                      | none => none
                      | some c0 =>
                        some (pcs.take (idx - 1) ++
                          [(lc.1, BNode.nl lcs.dropLast),
                           (stolen.1, BNode.nl ((none, stolen.2) ::
                             (entry.1, c0.2) :: cs0.tail))] ++
                          pcs.drop (idx + 1),
                          path.set i (childIndex + 1))
          let root' ← setNode st.root (path.take (i - 1)) (.nl newpcs)
          let st : BPT K V := ⟨st.maxDegree, root', st.height⟩
          if newpcs.length = 1 then do
            let st ← decreaseHeight st
            some (st, path.drop 1, i - 1)
          else
            some (st, path, i)
    else
      some (st, path, i)

/-- The merging walk of Go `BPTree.removeRecord` (its `for i := 1; ; i++`
loop). -/
def removeLoop {K V : Type} :
    Nat → BPT K V → List Nat → Nat → Option (BPT K V × List Nat)
  | 0, _, _, _ => none
  | fuel + 1, st, path, i =>
    if i ≥ path.length then some (st, path)
    else do
      let (st, path, i) ←
        if i = path.length - 1 then tryMergeLeaf st path i
        else tryMergeNonLeaf st path i
      removeLoop fuel st path (i + 1)

/-- Go `BPTree.removeRecord`: walk the path merging sparse nodes, remove the
record at the leaf frame's slot, then run the separator fix-up. -/
def removeRecord {K V : Type} (st : BPT K V) (path : List Nat) :
    Option (BPT K V) := do
  let (st, path) ← removeLoop (path.length + 3) st path 1
  let leafN ← getNode st.root path.dropLast
  match leafN with
  | .nl _ => none
  | .lf rs => do
    let ri ← path.getLast?
    if ri < rs.length then
      let root' ← setNode st.root path.dropLast (.lf (rs.take ri ++ rs.drop (ri + 1)))
      trySyncKey ⟨st.maxDegree, root', st.height⟩ path
    else
      none

/-- Read the leaf and slot designated by a record path
(Go `recordPath.LocateRecord`). -/
def pathRecord {K V : Type} (st : BPT K V) (path : List Nat) :
    Option (Rec K V) := do
  let leafN ← getNode st.root path.dropLast
  match leafN with
  | .nl _ => none
  | .lf rs => do
    let ri ← path.getLast?
    rs.get? ri

/-- Go `BPTree.AddRecord`: result is the new tree together with the returned
`(value, bool)` pair (`none` plays Go's `nil`). -/
def addRecord {K V : Type} (cmp : K → K → Int) (t : BPT K V) (key : GKey K)
    (value : V) : Option (BPT K V × Option V × Bool) := do
  let (path, ok) ← findRecord cmp t key
  if ok then do
    let r ← pathRecord t path
    some (t, some r.val, false)
  else do
    let t' ← insertRecord t ⟨key, value⟩ path
    some (t', none, true)

/-- Go `BPTree.UpdateRecord`. -/
def updateRecord {K V : Type} (cmp : K → K → Int) (t : BPT K V) (key : GKey K)
    (value : V) : Option (BPT K V × Option V × Bool) := do
  let (path, ok) ← findRecord cmp t key
  if ok then do
    let leafN ← getNode t.root path.dropLast
    match leafN with
    | .nl _ => none
    | .lf rs => do
      let ri ← path.getLast?
      let r ← rs.get? ri
      let root' ← setNode t.root path.dropLast
        (.lf (rs.take ri ++ ⟨r.key, value⟩ :: rs.drop (ri + 1)))
      some (⟨t.maxDegree, root', t.height⟩, some r.val, true)
  else
    some (t, none, false)

/-- Go `BPTree.AddOrUpdateRecord`. -/
def addOrUpdateRecord {K V : Type} (cmp : K → K → Int) (t : BPT K V)
    (key : GKey K) (value : V) : Option (BPT K V × Option V × Bool) := do
  let (path, ok) ← findRecord cmp t key
  if ok then do
    let leafN ← getNode t.root path.dropLast
    match leafN with
    | .nl _ => none
    | .lf rs => do
      let ri ← path.getLast?
      let r ← rs.get? ri
      let root' ← setNode t.root path.dropLast
        (.lf (rs.take ri ++ ⟨r.key, value⟩ :: rs.drop (ri + 1)))
      some (⟨t.maxDegree, root', t.height⟩, some r.val, false)
  else do
    let t' ← insertRecord t ⟨key, value⟩ path
    some (t', none, true)

/-- Go `BPTree.DeleteRecord`. -/
def deleteRecord {K V : Type} (cmp : K → K → Int) (t : BPT K V) (key : GKey K) :
    Option (BPT K V × Option V × Bool) := do
  let (path, ok) ← findRecord cmp t key
  if ok then do
    let r ← pathRecord t path
    let t' ← removeRecord t path
    some (t', some r.val, true)
  else
    some (t, none, false)

/-- Go `BPTree.HasRecord` (read-only, so only the `(value, bool)` result). -/
def hasRecord {K V : Type} (cmp : K → K → Int) (t : BPT K V) (key : GKey K) :
    Option (Option V × Bool) := do
  let (path, ok) ← findRecord cmp t key
  if ok then do
    let r ← pathRecord t path
    some (some r.val, true)
  else
    some (none, false)

mutual
/-- The leaves of the tree in key order: this is the doubly linked leaf list
of `src/unnamed/part_001` derived from the tree (splits insert the new
sibling right after the split leaf and merges remove the absorbed leaf, so
the list always holds exactly the tree's leaves in order). -/
def leavesOf {K V : Type} : BNode K V → List (List (Rec K V))
  | .lf rs => [rs]
  | .nl cs => leavesOfL cs

/-- Helper of `leavesOf` for a child-entry list. -/
def leavesOfL {K V : Type} :
    List (Option (GKey K) × BNode K V) → List (List (Rec K V))
  | [] => []
  | c :: cs => leavesOf c.2 ++ leavesOfL cs
end

/-- All records of the tree in leaf order. -/
def flattenT {K V : Type} (t : BPT K V) : List (Rec K V) :=
  (leavesOf t.root).flatten

/-- Position of the leaf designated by a record path's child indices within
`leavesOf` (the Go code identifies the leaf by its pointer; the embedding
identifies it by its position in the leaf list). -/
def leafPos {K V : Type} : BNode K V → List Nat → Option Nat
  | .lf _, [] => some 0
  | .nl cs, ix :: p => do
    let c ← cs.get? ix
    let sub ← leafPos c.2 p
    some ((leavesOfL (cs.take ix)).length + sub)
  | .lf _, _ :: _ => none
  | .nl _, [] => none

/-- Go `BPTree.findAndLocateRecords(minKey, maxKey)`: compute the inclusive
leaf/slot range of the records with keys in the realized interval; the final
`Bool` is Go's `ok` (`false` means the range is empty).  Leaves are
identified by their position in the leaf list.  The commented-out step-back
across leaves of the source is absent: when locating the high bound yields
insertion slot 0, the slot decrement would reach `-1` and the recomparison
that follows would read `Records[-1]`, a panic (`none`). -/
def findAndLocateRecords {K V : Type} (cmp : K → K → Int) (t : BPT K V)
    (minKey maxKey : GKey K) : Option (Nat × Nat × Nat × Nat × Bool) :=
  let leaves := leavesOf t.root
  let dStep : Option (Option Int) :=
    match minKey, maxKey with
    | .sent x, .sent y => some (some (if x = y then 0 else -1))
    | .sent _, .ord _ => some (some (-1))
    | .ord _, .sent _ => some (some (-1))
    | .ord a, .ord b =>
      let d := cmp a b
      if d > 0 then some none else some (some d)
  match dStep with
  | none => none
  | some none => some (0, 0, 0, 0, false)
  | some (some d) =>
    (findRecord cmp t minKey).bind fun (minPath, ok3) =>
    (leafPos t.root minPath.dropLast).bind fun minLeaf0 =>
    (minPath.getLast?).bind fun minIdx0 =>
    (leaves.get? minLeaf0).bind fun minRecs0 =>
    (if !ok3 && decide (minIdx0 = minRecs0.length) then
       if minLeaf0 = leaves.length - 1 then none
       else some (minLeaf0 + 1, 0)
     else some (minLeaf0, minIdx0)).elim (some (0, 0, 0, 0, false)) fun (minLeaf, minIdx) =>
    if d = 0 then some (minLeaf, minIdx, minLeaf, minIdx, true)
    else
      let ok1 := match minKey with | .sent _ => true | .ord _ => false
      let ok2 := match maxKey with | .sent _ => true | .ord _ => false
      let minStep : Option (GKey K × Option Int) :=
        if ok1 || !ok3 then
          (leaves.get? minLeaf).bind fun recs =>
          (recs.get? minIdx).bind fun r =>
          if !ok2 then
            (cmpG cmp r.key maxKey).bind fun d' => some (r.key, some d')
          else some (r.key, none)
        else some (minKey, none)
      match minStep with
      | none => none
      | some (minKeyC, dOpt) =>
        match dOpt with
        | some d' =>
          if d' = 0 then some (minLeaf, minIdx, minLeaf, minIdx, true)
          else if d' > 0 then some (0, 0, 0, 0, false)
          else findAndLocateMax cmp t leaves minKeyC maxKey minLeaf minIdx
        | none => findAndLocateMax cmp t leaves minKeyC maxKey minLeaf minIdx

where
  /-- The high-bound half of `findAndLocateRecords` (from the second
  `findRecord` call on). -/
  findAndLocateMax (cmp : K → K → Int) (t : BPT K V)
      (leaves : List (List (Rec K V))) (minKeyC maxKey : GKey K)
      (minLeaf minIdx : Nat) : Option (Nat × Nat × Nat × Nat × Bool) :=
    (findRecord cmp t maxKey).bind fun (maxPath, ok4) =>
    (leafPos t.root maxPath.dropLast).bind fun maxLeaf =>
    (maxPath.getLast?).bind fun maxIdx0 =>
    (if ok4 then some maxIdx0
     else if maxIdx0 = 0 then none else some (maxIdx0 - 1)).bind fun maxIdx =>
    let ok2 := match maxKey with | .sent _ => true | .ord _ => false
    if ok2 || !ok4 then
      (leaves.get? maxLeaf).bind fun recs =>
      (recs.get? maxIdx).bind fun r =>
      (cmpG cmp minKeyC r.key).bind fun d' =>
      if d' = 0 then some (minLeaf, minIdx, minLeaf, minIdx, true)
      else if d' > 0 then some (0, 0, 0, 0, false)
      else some (minLeaf, minIdx, maxLeaf, maxIdx, true)
    else
      some (minLeaf, minIdx, maxLeaf, maxIdx, true)

/-- The iterator state of `src/unnamed/part_000` (`type iterator`); leaves
are identified by their position in the leaf list. -/
structure IterSt where
  curLeaf : Nat
  curIdx : Nat
  lastLeaf : Nat
  lastIdx : Nat
  isAtEnd : Bool
  deriving DecidableEq, Repr

/-- Go `iterator.Record`: the current record, a panic when the iteration is
done (`i.isAtEnd`) or the position is out of range. -/
def iterRecord {K V : Type} (leaves : List (List (Rec K V))) (it : IterSt) :
    Option (GKey K × V) :=
  if it.isAtEnd then none
  else do
    let recs ← leaves.get? it.curLeaf
    let r ← recs.get? it.curIdx
    some (r.key, r.val)

/-- Go `iterator.advance`: when the current position reaches the stop
position the iterator becomes the zero iterator with `isAtEnd` set. -/
def iterStop (it : IterSt) : IterSt :=
  if it.curLeaf = it.lastLeaf ∧ it.curIdx = it.lastIdx then ⟨0, 0, 0, 0, true⟩
  else it

/-- Go `forwardIterator.Advance`: step to the next slot, or to slot 0 of the
next leaf (the leaf list is circular, hence the wrap). -/
def iterAdvanceF {K V : Type} (leaves : List (List (Rec K V))) (it : IterSt) :
    Option IterSt :=
  let it := iterStop it
  if it.isAtEnd then some it
  else do
    let recs ← leaves.get? it.curLeaf
    if it.curIdx < recs.length - 1 then
      some { it with curIdx := it.curIdx + 1 }
    else
      some { it with curLeaf := (it.curLeaf + 1) % leaves.length, curIdx := 0 }

/-- Go `backwardIterator.Advance`: step to the previous slot, or to the last
slot of the previous leaf (wrapping, as the leaf list is circular). -/
def iterAdvanceB {K V : Type} (leaves : List (List (Rec K V))) (it : IterSt) :
    Option IterSt :=
  let it := iterStop it
  if it.isAtEnd then some it
  else
    if it.curIdx ≥ 1 then
      some { it with curIdx := it.curIdx - 1 }
    else do
      let prev := if it.curLeaf = 0 then leaves.length - 1 else it.curLeaf - 1
      let recs ← leaves.get? prev
      some { it with curLeaf := prev, curIdx := recs.length - 1 }

/-- Go `BPTree.SearchForward(maxKey, minKey)`: note that the first argument
is passed into `findAndLocateRecords`'s `minKey` parameter. -/
def searchForward {K V : Type} (cmp : K → K → Int) (t : BPT K V)
    (maxKey minKey : GKey K) : Option IterSt := do
  let (minLeaf, minIdx, maxLeaf, maxIdx, ok) ←
    findAndLocateRecords cmp t maxKey minKey
  some ⟨minLeaf, minIdx, maxLeaf, maxIdx, !ok⟩

/-- Go `BPTree.SearchBackward(maxKey, minKey)`: the backward iterator starts
at the located high position. -/
def searchBackward {K V : Type} (cmp : K → K → Int) (t : BPT K V)
    (maxKey minKey : GKey K) : Option IterSt := do
  let (minLeaf, minIdx, maxLeaf, maxIdx, ok) ←
    findAndLocateRecords cmp t maxKey minKey
  some ⟨maxLeaf, maxIdx, minLeaf, minIdx, !ok⟩

/-- Drain a forward iterator: the list of records produced by reading and
advancing until `IsAtEnd` (the fuel bounds the finitely many steps). -/
def iterListF {K V : Type} (leaves : List (List (Rec K V))) :
    Nat → IterSt → Option (List (GKey K × V))
  | 0, _ => none
  | fuel + 1, it =>
    if it.isAtEnd then some []
    else do
      let r ← iterRecord leaves it
      let it' ← iterAdvanceF leaves it
      let rest ← iterListF leaves fuel it'
      some (r :: rest)

/-- Drain a backward iterator. -/
def iterListB {K V : Type} (leaves : List (List (Rec K V))) :
    Nat → IterSt → Option (List (GKey K × V))
  | 0, _ => none
  | fuel + 1, it =>
    if it.isAtEnd then some []
    else do
      let r ← iterRecord leaves it
      let it' ← iterAdvanceB leaves it
      let rest ← iterListB leaves fuel it'
      some (r :: rest)

/-- The records enumerated by `SearchForward(a, b)` on `t` (drained with
ample fuel). -/
def forwardList {K V : Type} (cmp : K → K → Int) (t : BPT K V)
    (a b : GKey K) : Option (List (GKey K × V)) := do
  let it ← searchForward cmp t a b
  iterListF (leavesOf t.root) ((flattenT t).length + 2) it

/-- The records enumerated by `SearchBackward(a, b)` on `t`. -/
def backwardList {K V : Type} (cmp : K → K → Int) (t : BPT K V)
    (a b : GKey K) : Option (List (GKey K × V)) := do
  let it ← searchBackward cmp t a b
  iterListB (leavesOf t.root) ((flattenT t).length + 2) it

/-- The integer comparer used to instantiate concrete runs (the tests use
`strings.Compare`; any lawful comparer is interchangeable). -/
def intCmp (a b : Int) : Int := if a < b then -1 else if a = b then 0 else 1

/-- A public mutating or point operation of the tree, for running
operation sequences. -/
inductive Op (K V : Type) where
  | add (k : GKey K) (v : V)
  | update (k : GKey K) (v : V)
  | addOrUpdate (k : GKey K) (v : V)
  | del (k : GKey K)

/-- Apply one public operation (the Go method receiving the tree). -/
def applyOp {K V : Type} (cmp : K → K → Int) (t : BPT K V) :
    Op K V → Option (BPT K V × Option V × Bool)
  | .add k v => addRecord cmp t k v
  | .update k v => updateRecord cmp t k v
  | .addOrUpdate k v => addOrUpdateRecord cmp t k v
  | .del k => deleteRecord cmp t k

/-- Run a sequence of public operations, keeping the final tree. -/
def runOps {K V : Type} (cmp : K → K → Int) (t : BPT K V) :
    List (Op K V) → Option (BPT K V)
  | [] => some t
  | op :: rest => do
    let (t', _, _) ← applyOp cmp t op
    runOps cmp t' rest

/-- Run a sequence of public operations, collecting each `(value, bool)`
result. -/
def runOpsResults {K V : Type} (cmp : K → K → Int) (t : BPT K V) :
    List (Op K V) → Option (BPT K V × List (Option V × Bool))
  | [] => some (t, [])
  | op :: rest => do
    let (t', v, b) ← applyOp cmp t op
    let (tf, rs) ← runOpsResults cmp t' rest
    some (tf, (v, b) :: rs)

/-- Shape invariant: at height 1 the node is a leaf; otherwise a non-leaf
with at least one child entry, all of the same shape one level down. -/
def shapeOKb {K V : Type} (h : Nat) (n : BNode K V) : Bool :=
  match h, n with
  | 1, .lf _ => true
  | h + 2, .nl cs => !cs.isEmpty && cs.all (fun c => shapeOKb (h + 1) c.2)
  | _, _ => false

mutual
/-- Separator invariant (spec §8.2): in every non-leaf, the slot-0 separator
is the dummy and the separator of each entry `i ≥ 1` equals the first record
key of that entry's subtree (its minimum, once records are sorted). -/
def sepOKb {K V : Type} [DecidableEq K] : BNode K V → Bool
  | .lf _ => true
  | .nl [] => false
  | .nl (c0 :: rest) => c0.1.isNone && sepOKb c0.2 && sepOKRest rest

/-- Helper of `sepOKb` for the entries at slots `≥ 1`. -/
def sepOKRest {K V : Type} [DecidableEq K] :
    List (Option (GKey K) × BNode K V) → Bool
  | [] => true
  | c :: rest =>
    (match c.1, ((leavesOf c.2).flatten).head? with
     | some k, some r => k = r.key
     | _, _ => false) &&
    sepOKb c.2 && sepOKRest rest
end

/-- Occupancy invariant (spec §8.3, stated with the `IsSparse`/`IsFull`
predicates of `src/bptree.go`): every non-root node is neither sparse nor
full; the root leaf holds at most `maxDegree - 1` records; an internal root
has between 2 and `maxDegree` child entries. -/
def occOKb {K V : Type} (d : Nat) (h : Nat) (isRoot : Bool) (n : BNode K V) :
    Bool :=
  match h, n with
  | 1, .lf rs =>
    if isRoot then decide (rs.length ≤ d - 1)
    else !recsIsSparse rs.length d && !recsIsFull rs.length d
  | h + 2, .nl cs =>
    (if isRoot then decide (2 ≤ cs.length ∧ cs.length ≤ d)
     else !childrenIsSparse cs.length d && !childrenIsFull cs.length d) &&
    cs.all (fun c => occOKb d (h + 1) false c.2)
  | _, _ => false

/-- Strict comparer order between two records (false unless both keys are
ordinary). -/
def recLt {K V : Type} (cmp : K → K → Int) (a b : Rec K V) : Bool :=
  match a.key, b.key with
  | .ord x, .ord y => cmp x y < 0
  | _, _ => false

/-- Adjacent records are strictly increasing. -/
def chainLt {K V : Type} (cmp : K → K → Int) : List (Rec K V) → Bool
  | a :: b :: rest => recLt cmp a b && chainLt cmp (b :: rest)
  | _ => true

/-- All record keys are ordinary (sentinels are never stored). -/
def keysOrdb {K V : Type} (rs : List (Rec K V)) : Bool :=
  rs.all fun r => match r.key with | .ord _ => true | .sent _ => false

/-- The structural invariants of spec §8 for a tree (shape, separator
correspondence, occupancy, order, no stored sentinels; the sibling-list
invariant holds by construction, the leaf list being derived). -/
def WFb {K V : Type} [DecidableEq K] (cmp : K → K → Int) (t : BPT K V) :
    Bool :=
  decide (3 ≤ t.maxDegree) && shapeOKb t.height t.root && sepOKb t.root &&
  occOKb t.maxDegree t.height true t.root &&
  keysOrdb (flattenT t) && chainLt cmp (flattenT t)

/-- A lawful comparer: the sign of `cmp a b` reflects a linear order. -/
structure LawCmp {K : Type} [LinearOrder K] (cmp : K → K → Int) : Prop where
  lt_iff : ∀ a b, cmp a b < 0 ↔ a < b
  eq_iff : ∀ a b, cmp a b = 0 ↔ a = b

/-- Membership of an ordinary key in the closed interval `[lo, hi]`, judged
by the comparer. -/
def recInClosed {K V : Type} (cmp : K → K → Int) (lo hi : K) (r : Rec K V) :
    Bool :=
  match r.key with
  | .ord x => decide (cmp lo x ≤ 0) && decide (cmp x hi ≤ 0)
  | .sent _ => false

/-- The realized bound for a range end: an ordinary key stands for itself,
`KEY_MIN`/`KEY_MAX` for the first/last record key of the tree. -/
def realBound {K V : Type} (t : BPT K V) (x : GKey K) : Option (GKey K) :=
  match x with
  | .ord _ => some x
  | .sent s =>
    if s = -1 then ((flattenT t).head?).map (·.key)
    else ((flattenT t).getLast?).map (·.key)

/-- A record lies in the realized interval `[a, b]` of the two range bounds
(false when a bound does not realize, e.g. on the empty tree). -/
def inRealRange {K V : Type} (cmp : K → K → Int) (t : BPT K V)
    (a b : GKey K) (r : Rec K V) : Bool :=
  match realBound t a, realBound t b with
  | some ka, some kb =>
    (match cmpG cmp ka r.key with | some d => decide (d ≤ 0) | none => false) &&
    (match cmpG cmp r.key kb with | some d => decide (d ≤ 0) | none => false)
  | _, _ => false

/-- Every leaf below a non-leaf is non-empty (the root leaf of a height-1
tree may be empty). -/
def leavesNEb {K V : Type} (h : Nat) (isRoot : Bool) (n : BNode K V) : Bool :=
  match h, n with
  | 1, .lf rs => isRoot || !rs.isEmpty
  | h + 2, .nl cs => cs.all (fun c => leavesNEb (h + 1) false c.2)
  | _, _ => false

/-- The degenerate tree produced by adding a sentinel key to the empty tree
(`records.LocateRecord` reports not-found on an empty leaf before its
sentinel check, so the sentinel is stored): a height-1 root leaf holding
exactly one sentinel-keyed record. -/
def sentDegb {K V : Type} (t : BPT K V) : Bool :=
  decide (t.height = 1) &&
    match t.root with
    | .lf [r] => (match r.key with | .sent _ => true | .ord _ => false)
    | _ => false

/-- The inductive invariant maintained by every completed public mutating
operation: shape, separator correspondence, non-empty leaves, order, and
ordinary keys (or the sentinel-degenerate tree). -/
def InvB {K V : Type} [DecidableEq K] (cmp : K → K → Int) (t : BPT K V) :
    Bool :=
  decide (3 ≤ t.maxDegree) && shapeOKb t.height t.root && sepOKb t.root &&
  leavesNEb t.height true t.root && chainLt cmp (flattenT t) &&
  (keysOrdb (flattenT t) || sentDegb t)

/-- The trees reachable from a freshly initialized tree through completed
public mutating operations. -/
inductive Reachable {K V : Type} (cmp : K → K → Int) (d : Nat) :
    BPT K V → Prop where
  | init : ∀ t, BPT.Init K V d = some t → Reachable cmp d t
  | step : ∀ t t' op v b, Reachable cmp d t →
      applyOp cmp t op = some (t', v, b) → Reachable cmp d t'

/-- A record's (ordinary) key is below `k` according to the comparer. -/
def recKeyLtb {K V : Type} (cmp : K → K → Int) (r : Rec K V) (k : K) : Bool :=
  match r.key with
  | .ord x => cmp x k < 0
  | .sent _ => false

/-- A record's (ordinary) key is at most `k` according to the comparer. -/
def recKeyLEb {K V : Type} (cmp : K → K → Int) (r : Rec K V) (k : K) : Bool :=
  match r.key with
  | .ord x => cmp x k ≤ 0
  | .sent _ => false

/-- Number of records with key strictly below `k`: on a sorted record list
this is the lower-bound insertion slot for `k`. -/
def countLt {K V : Type} (cmp : K → K → Int) (rs : List (Rec K V)) (k : K) :
    Nat :=
  rs.countP (recKeyLtb cmp · k)

/-- Number of records with key at most `k`. -/
def countLE {K V : Type} (cmp : K → K → Int) (rs : List (Rec K V)) (k : K) :
    Nat :=
  rs.countP (recKeyLEb cmp · k)

/-- Number of records held by the first `lp` leaves: converts a leaf
position and slot into a global record position. -/
def leavesBefore {K V : Type} (leaves : List (List (Rec K V))) (lp : Nat) :
    Nat :=
  ((leaves.take lp).map List.length).sum

/-- All records below a node in leaf order. -/
def flattenN {K V : Type} (n : BNode K V) : List (Rec K V) :=
  (leavesOf n).flatten

/-! ## Claim theorems -/

/-- C1: the claim says that after any sequence of adds/updates/deletes with
ordinary keys on a freshly initialized tree, `HasRecord(k)` returns the last
written value with `true` exactly for the live keys.  The code violates it:
on a tree initialized with `maxDegree = 4` (a degree both the constructor
and the spec accept), ten plain `AddRecord` calls all succeed, yet
`HasRecord(10)` panics — the internal-node split leaves a one-child internal
node and `nodeChildren.LocateNodeChild` reads entry 1 of its single-entry
child list, out of range — instead of returning `(10, true)` for the live
key 10. -/
theorem C1_hasRecord_panics_after_valid_adds :
    ((BPT.Init Int Int 4).bind fun t0 =>
      (runOpsResults intCmp t0
        [.add (.ord 10) 10, .add (.ord 20) 20, .add (.ord 30) 30,
         .add (.ord 40) 40, .add (.ord 50) 50, .add (.ord 60) 60,
         .add (.ord 70) 70, .add (.ord 80) 80, .add (.ord 90) 90,
         .add (.ord 100) 100]).map (·.2)) =
      some (List.replicate 10 ((none : Option Int), true)) ∧
    ((BPT.Init Int Int 4).bind fun t0 =>
      (runOps intCmp t0
        [.add (.ord 10) 10, .add (.ord 20) 20, .add (.ord 30) 30,
         .add (.ord 40) 40, .add (.ord 50) 50, .add (.ord 60) 60,
         .add (.ord 70) 70, .add (.ord 80) 80, .add (.ord 90) 90,
         .add (.ord 100) 100]).bind fun t =>
        hasRecord intCmp t (.ord 10)) = none := by
  constructor
  · rfl
  · rfl

/-- C9: the claim says sentinels used as data keys are never stored.  The
code violates it on the empty tree: `records.LocateRecord` reports
not-found for the empty leaf before its sentinel check, so
`AddRecord(KEY_MIN, 99)` inserts a record whose key is the `KEY_MIN`
sentinel (and returns `(nil, true)` as for a successful add). -/
theorem C9_sentinel_stored_on_empty_tree :
    ((BPT.Init Int Int 5).bind fun t0 =>
      (addRecord intCmp t0 KeyMin 99).map fun r =>
        (flattenT r.1, keysOrdb (flattenT r.1), r.2.1, r.2.2)) =
      some ([⟨KeyMin, 99⟩], false, none, true) := by
  rfl

/-- C8 counterexample: the claim says construction with `maxDegree` below 4
fails loudly and no tree is constructed, but `BPTree.Init` in
`src/bptree.go` accepts `maxDegree = 3` and yields an empty tree of
height 1. -/
theorem C8_counterexample_init_three_succeeds :
    ∃ t : BPT Int Int, BPT.Init Int Int 3 = some t ∧
      t.height = 1 ∧ t.isEmpty = true :=
  ⟨⟨3, .lf [], 1⟩, rfl, rfl, rfl⟩

/-- C8 amended: in `src/bptree.go` the constructor panics exactly for
`maxDegree < 3` and otherwise yields the empty height-1 tree, while the
engine of `src/unnamed/part_003` panics exactly for `maxDegree < 4`; a
successfully constructed tree is empty with height 1. -/
theorem C8_amended_init_thresholds (K V : Type) (d : Nat) :
    BPT.Init K V d = (if d < 3 then none else some ⟨d, .lf [], 1⟩) ∧
    P3Init K V d = (if d < 4 then none else some ⟨d, .lf [], 1⟩) ∧
    (⟨d, .lf [], 1⟩ : BPT K V).height = 1 ∧
    (⟨d, .lf [], 1⟩ : BPT K V).isEmpty = true := by
  refine ⟨rfl, rfl, rfl, ?_⟩
  simp [BPT.isEmpty]

/-- C5 counterexample: the claim says an internal node's child-entry
sequence is sparse exactly when `2·count ≤ maxDegree − 1`, but the
`nodeChildren.IsSparse` of `src/unnamed/part_003` classifies a 2-entry
child list as sparse at `maxDegree = 4` even though `2·2 ≤ 4 − 1` fails
(it uses the threshold `maxDegree`, not `maxDegree − 1`). -/
theorem C5_counterexample_p3_internal_sparse :
    P3childrenIsSparse
      ([(none, BNode.lf ([] : List (Rec Int Int))),
        (some (GKey.ord 1), BNode.lf [])].length) 4 = true ∧
    childrenIsSparse
      ([(none, BNode.lf ([] : List (Rec Int Int))),
        (some (GKey.ord 1), BNode.lf [])].length) 4 = false ∧
    ¬ (2 * 2 ≤ 4 - 1) := by
  refine ⟨rfl, rfl, by omega⟩

/-- C5 amended: the occupancy predicates of `src/bptree.go` classify a leaf
record list as full exactly at `count = maxDegree` and sparse exactly at
`2·count ≤ maxDegree`, and an internal child-entry list as full exactly at
`count = maxDegree` and sparse exactly at `2·count ≤ maxDegree − 1`; the
`part_003` engine instead classifies internal child-entry lists as sparse
exactly at `2·count ≤ maxDegree`. -/
theorem C5_amended_occupancy_thresholds (c d : Nat) :
    (recsIsFull c d = decide (c = d)) ∧
    (recsIsSparse c d = decide (2 * c ≤ d)) ∧
    (childrenIsFull c d = decide (c = d)) ∧
    (childrenIsSparse c d = decide (2 * c ≤ d - 1)) ∧
    (P3childrenIsSparse c d = decide (2 * c ≤ d)) := by
  refine ⟨rfl, ?_, rfl, ?_, ?_⟩ <;>
    simp [recsIsSparse, childrenIsSparse, P3childrenIsSparse, Nat.mul_comm]

/-- C6 counterexample: the claim says an internal-node split keeps
`⌊(maxDegree−1)/2⌋ + 1` child entries on the left, which is 3 at
`maxDegree = 5`; but after thirteen ascending adds (the thirteenth forces
the internal root split) the left node holds only 2 child entries —
`src/bptree.go` splits at `(maxDegree−1)/2` without the `+ 1`.  The
promoted separator (50) and the cleared slot-0 separator of the right
sibling are as claimed. -/
theorem C6_counterexample_left_count :
    ((BPT.Init Int Int 5).bind fun t0 =>
      (runOps intCmp t0
        [.add (.ord 10) 10, .add (.ord 20) 20, .add (.ord 30) 30,
         .add (.ord 40) 40, .add (.ord 50) 50, .add (.ord 60) 60,
         .add (.ord 70) 70, .add (.ord 80) 80, .add (.ord 90) 90,
         .add (.ord 100) 100, .add (.ord 110) 110, .add (.ord 120) 120,
         .add (.ord 130) 130]).map fun t =>
        match t.root with
        | .nl [c0, c1] =>
          match c0.2, c1.2 with
          | .nl lcs, .nl rcs =>
            some (t.height, c0.1, lcs.length, c1.1, rcs.length,
              rcs.head?.map (·.1))
          | _, _ => none
        | _ => none) =
      some (some (3, none, 2, some (.ord 50), 3, some none)) ∧
    ¬ ((2 : Nat) = (5 - 1) / 2 + 1) := by
  exact ⟨by rfl, by omega⟩

/-- C2 counterexample: on the two-record tree `{10, 20}`, the claim says
`SearchBackward(KEY_MAX, KEY_MIN)` enumerates both records in descending
order; the iterator is instead immediately done (the call realizes the
interval `[max-record, min-record]`, which re-compares as empty), so it
enumerates nothing. -/
theorem C2_counterexample_backward_maxmin_empty :
    ((BPT.Init Int Int 5).bind fun t0 =>
      (runOps intCmp t0 [.add (.ord 10) 1, .add (.ord 20) 2]).bind fun t =>
        backwardList intCmp t KeyMax KeyMin) = some [] ∧
    ((BPT.Init Int Int 5).bind fun t0 =>
      (runOps intCmp t0 [.add (.ord 10) 1, .add (.ord 20) 2]).map fun t =>
        (flattenT t).map (·.key)) = some [.ord 10, .ord 20] := by
  exact ⟨rfl, rfl⟩

/-- C3 counterexample: the claim says `SearchForward(hi, lo)` — larger key
passed first, per the documented parameter order — enumerates the records
in `[lo, hi]` ascending.  On the tree `{10, 20}` with `lo = 10`,
`hi = 20`, `SearchForward(20, 10)` enumerates nothing (the implementation
treats its first argument as the low bound, sees `compare(20, 10) > 0` and
returns the empty range), although both records lie in `[10, 20]`. -/
theorem C3_counterexample_forward_documented_order :
    intCmp 10 20 ≤ 0 ∧
    ((BPT.Init Int Int 5).bind fun t0 =>
      (runOps intCmp t0 [.add (.ord 10) 1, .add (.ord 20) 2]).bind fun t =>
        forwardList intCmp t (.ord 20) (.ord 10)) = some [] ∧
    ((BPT.Init Int Int 5).bind fun t0 =>
      (runOps intCmp t0 [.add (.ord 10) 1, .add (.ord 20) 2]).map fun t =>
        ((flattenT t).filter (recInClosed intCmp 10 20)).length) = some 2 := by
  refine ⟨by decide, rfl, rfl⟩

/-! ## Infrastructure lemmas -/

theorem leavesOfL_eq {K V : Type}
    (cs : List (Option (GKey K) × BNode K V)) :
    leavesOfL cs = (cs.map (fun c => leavesOf c.2)).flatten := by
  induction cs with
  | nil => rfl
  | cons c cs ih => simp [leavesOfL, ih]

theorem leavesOf_nl {K V : Type}
    (cs : List (Option (GKey K) × BNode K V)) :
    leavesOf (BNode.nl cs) = (cs.map (fun c => leavesOf c.2)).flatten := by
  rw [leavesOf, leavesOfL_eq]

theorem chainLt_iff {K V : Type} (cmp : K → K → Int) (rs : List (Rec K V)) :
    chainLt cmp rs = true ↔ List.Chain' (fun a b => recLt cmp a b = true) rs := by
  induction rs with
  | nil => simp [chainLt]
  | cons a rest ih =>
    cases rest with
    | nil => simp [chainLt]
    | cons b rest' =>
      rw [chainLt, List.chain'_cons, Bool.and_eq_true, ih]

theorem keysOrdb_mem {K V : Type} {rs : List (Rec K V)} {r : Rec K V}
    (h : keysOrdb rs = true) (hm : r ∈ rs) : ∃ x, r.key = .ord x := by
  have := List.all_eq_true.mp h r hm
  cases hk : r.key with
  | ord x => exact ⟨x, rfl⟩
  | sent s => rw [hk] at this; simp at this

theorem recLt_trans {K : Type} [LinearOrder K] {V : Type}
    {cmp : K → K → Int} (hc : LawCmp cmp) {a b c : Rec K V}
    (h1 : recLt cmp a b = true) (h2 : recLt cmp b c = true) :
    recLt cmp a c = true := by
  cases ha : a.key with
  | sent s => rw [recLt, ha] at h1; cases b.key <;> simp at h1
  | ord x =>
    cases hb : b.key with
    | sent s => rw [recLt, hb] at h2; cases c.key <;> simp at h2
    | ord y =>
      cases hcc : c.key with
      | sent s => rw [recLt, hb, hcc] at h2; simp at h2
      | ord z =>
        rw [recLt, ha, hb] at h1
        rw [recLt, hb, hcc] at h2
        rw [recLt, ha, hcc]
        simp only [decide_eq_true_eq] at *
        exact (hc.lt_iff x z).mpr (lt_trans ((hc.lt_iff x y).mp h1) ((hc.lt_iff y z).mp h2))

theorem sorted_pairwise {K : Type} [LinearOrder K] {V : Type}
    {cmp : K → K → Int} (hc : LawCmp cmp) {rs : List (Rec K V)}
    (h : List.Chain' (fun a b => recLt cmp a b = true) rs) :
    List.Pairwise (fun a b => recLt cmp a b = true) rs := by
  haveI : IsTrans (Rec K V) (fun a b => recLt cmp a b = true) :=
    ⟨fun _ _ _ => recLt_trans hc⟩
  exact List.chain'_iff_pairwise.mp h

theorem LawCmp.gt_iff {K : Type} [LinearOrder K] {cmp : K → K → Int}
    (hc : LawCmp cmp) (a b : K) : 0 < cmp a b ↔ b < a := by
  constructor
  · intro h
    rcases lt_trichotomy a b with hlt | heq | hgt
    · have := (hc.lt_iff a b).mpr hlt; omega
    · have := (hc.eq_iff a b).mpr heq; omega
    · exact hgt
  · intro h
    have h1 : ¬ cmp a b < 0 := fun hx => absurd ((hc.lt_iff a b).mp hx) (not_lt.mpr h.le)
    have h2 : ¬ cmp a b = 0 := fun hx => absurd ((hc.eq_iff a b).mp hx) (ne_of_gt h)
    omega

theorem LawCmp.le_iff {K : Type} [LinearOrder K] {cmp : K → K → Int}
    (hc : LawCmp cmp) (a b : K) : cmp a b ≤ 0 ↔ a ≤ b := by
  constructor
  · intro h
    exact not_lt.mp fun hba => absurd ((hc.gt_iff a b).mpr hba) (by omega)
  · intro h
    by_contra hpos
    exact absurd ((hc.gt_iff a b).mp (by omega)) (not_lt.mpr h)

theorem countP_prefix_closed {α : Type} (p : α → Bool) (l : List α)
    (hmono : ∀ i j a b, i ≤ j → l.get? i = some a → l.get? j = some b →
      p b = true → p a = true) :
    ∀ i a, l.get? i = some a → (p a = true ↔ i < l.countP p) := by
  induction l with
  | nil => intro i a hi; simp at hi
  | cons x rest ih =>
    intro i a hi
    by_cases hx : p x = true
    · cases i with
      | zero =>
        simp at hi; subst hi
        simp [List.countP_cons, hx]
      | succ i' =>
        simp only [List.get?_cons_succ] at hi
        have ih' := ih (fun i j a b hij ha hb hpb =>
          hmono (i + 1) (j + 1) a b (by omega)
            (by simpa using ha) (by simpa using hb) hpb) i' a hi
        simp only [List.countP_cons, hx, if_true, ih']
        omega
    · have hall : ∀ j b, rest.get? j = some b → p b = false := by
        intro j b hb
        by_contra hcon
        have hpb : p b = true := by
          cases hpb : p b
          · exact absurd hpb hcon
          · rfl
        have := hmono 0 (j + 1) x b (by omega) (by simp) (by simpa using hb) hpb
        exact hx this
      have hcz : rest.countP p = 0 := by
        rw [List.countP_eq_zero]
        intro b hb
        obtain ⟨j, hj⟩ := List.get_of_mem hb
        have := hall j b (by rw [← hj]; exact (List.get?_eq_get _).symm ▸ rfl)
        simp [this]
      rw [List.countP_cons, if_neg hx, hcz]
      cases i with
      | zero => simp at hi; subst hi; simp [hx]
      | succ i' =>
        simp only [List.get?_cons_succ] at hi
        have := hall i' a hi
        simp [this]

theorem pairwise_get {α : Type} {R : α → α → Prop} {l : List α}
    (hp : List.Pairwise R l) {i j : Nat} {a b : α} (hij : i < j)
    (ha : l.get? i = some a) (hb : l.get? j = some b) : R a b := by
  rw [List.get?_eq_some] at ha hb
  obtain ⟨hi, ha⟩ := ha
  obtain ⟨hj, hb⟩ := hb
  subst ha hb
  exact List.pairwise_iff_get.mp hp ⟨i, hi⟩ ⟨j, hj⟩ hij

theorem recKeyLtb_of_lt_of_lt {K : Type} [LinearOrder K] {V : Type}
    {cmp : K → K → Int} (hc : LawCmp cmp) {a b : Rec K V} {k : K}
    (hab : recLt cmp a b = true) (hbk : recKeyLtb cmp b k = true) :
    recKeyLtb cmp a k = true := by
  cases ha : a.key with
  | sent s => rw [recLt, ha] at hab; cases b.key <;> simp at hab
  | ord x =>
    cases hb : b.key with
    | sent s => rw [recKeyLtb, hb] at hbk; simp at hbk
    | ord y =>
      rw [recLt, ha, hb] at hab
      rw [recKeyLtb, hb] at hbk
      rw [recKeyLtb, ha]
      simp only [decide_eq_true_eq] at *
      exact (hc.lt_iff x k).mpr (lt_trans ((hc.lt_iff x y).mp hab) ((hc.lt_iff y k).mp hbk))

theorem recKeyLtb_of_ge_of_lt {K : Type} [LinearOrder K] {V : Type}
    {cmp : K → K → Int} (hc : LawCmp cmp) {a b : Rec K V} {k : K}
    (hak : recKeyLtb cmp a k = false) (hax : ∃ x, a.key = .ord x)
    (hab : recLt cmp a b = true) : recKeyLtb cmp b k = false := by
  obtain ⟨x, hx⟩ := hax
  cases hb : b.key with
  | sent s => rw [recKeyLtb, hb]
  | ord y =>
    rw [recLt, hx, hb] at hab
    rw [recKeyLtb, hx] at hak
    rw [recKeyLtb, hb]
    simp only [decide_eq_true_eq, decide_eq_false_iff_not] at *
    intro hyk
    have hxy := (hc.lt_iff x y).mp hab
    exact hak ((hc.lt_iff x k).mpr (lt_trans hxy ((hc.lt_iff y k).mp hyk)))

theorem sorted_lt_iff_pos {K : Type} [LinearOrder K] {V : Type}
    {cmp : K → K → Int} (hc : LawCmp cmp) {rs : List (Rec K V)}
    (hpw : List.Pairwise (fun a b => recLt cmp a b = true) rs) {k : K}
    {i : Nat} {r : Rec K V} (hi : rs.get? i = some r) :
    recKeyLtb cmp r k = true ↔ i < countLt cmp rs k := by
  rw [countLt]
  refine countP_prefix_closed (recKeyLtb cmp · k) rs ?_ i r hi
  intro i' j' a b hij ha hb hpb
  rcases Nat.lt_or_ge i' j' with hlt | hge
  · exact recKeyLtb_of_lt_of_lt hc (pairwise_get hpw hlt ha hb) hpb
  · have : i' = j' := by omega
    subst this
    rw [ha] at hb
    cases hb
    exact hpb

theorem bsearchRecs_loop {K : Type} [LinearOrder K] {V : Type}
    {cmp : K → K → Int} (hc : LawCmp cmp) {rs : List (Rec K V)} {k : K}
    (hpw : List.Pairwise (fun a b => recLt cmp a b = true) rs)
    (hord : keysOrdb rs = true) :
    ∀ fuel i j, i ≤ j → j < rs.length → j - i < fuel →
    (∀ idx a, idx < i → rs.get? idx = some a → recKeyLtb cmp a k = true) →
    (j = rs.length - 1 ∨ ∃ a, rs.get? j = some a ∧ recKeyLtb cmp a k = false) →
    (∀ idx a, j < idx → rs.get? idx = some a → recKeyLtb cmp a k = false) →
    ∃ res, bsearchRecs cmp rs (.ord k) fuel i j = some res ∧ i ≤ res ∧
      res ≤ j ∧
      (∀ idx a, idx < res → rs.get? idx = some a → recKeyLtb cmp a k = true) ∧
      (res = rs.length - 1 ∨
        ∃ a, rs.get? res = some a ∧ recKeyLtb cmp a k = false) ∧
      (∀ idx a, res < idx → rs.get? idx = some a → recKeyLtb cmp a k = false)
  | 0, i, j => by omega
  | fuel + 1, i, j => by
    intro hij hjlen hfuel hlow hjdis hhigh
    rw [bsearchRecs]
    by_cases hlt : i < j
    · rw [if_pos hlt]
      have hmlt : (i + j) / 2 < rs.length := by omega
      have hmj : (i + j) / 2 < j := by omega
      have him : i ≤ (i + j) / 2 := by omega
      have hr : rs.get? ((i + j) / 2) = some (rs.get ⟨(i + j) / 2, hmlt⟩) :=
        List.get?_eq_get hmlt
      obtain ⟨x, hx⟩ := keysOrdb_mem hord (rs.get_mem ((i + j) / 2) hmlt)
      dsimp only
      rw [hr]
      simp only [cmpG, hx]
      by_cases hd : cmp x k < 0
      · rw [if_pos hd]
        have hrlt : recKeyLtb cmp (rs.get ⟨(i + j) / 2, hmlt⟩) k = true := by
          rw [recKeyLtb, hx]; simp [hd]
        have hlow' : ∀ idx a, idx < (i + j) / 2 + 1 → rs.get? idx = some a →
            recKeyLtb cmp a k = true := by
          intro idx a hidx ha
          rcases Nat.lt_or_ge idx i with hii | hii
          · exact hlow idx a hii ha
          · rcases Nat.lt_or_ge idx ((i + j) / 2) with hmm | hmm
            · exact recKeyLtb_of_lt_of_lt hc (pairwise_get hpw hmm ha hr) hrlt
            · have : idx = (i + j) / 2 := by omega
              subst this
              rw [ha] at hr; cases hr; exact hrlt
        obtain ⟨res, hres, h1, h2, h3, h4, h5⟩ :=
          bsearchRecs_loop hc hpw hord fuel ((i + j) / 2 + 1) j (by omega)
            hjlen (by omega) hlow' hjdis hhigh
        exact ⟨res, hres, by omega, h2, h3, h4, h5⟩
      · rw [if_neg hd]
        have hrge : recKeyLtb cmp (rs.get ⟨(i + j) / 2, hmlt⟩) k = false := by
          rw [recKeyLtb, hx]; simp [hd]
        have hhigh' : ∀ idx a, (i + j) / 2 < idx → rs.get? idx = some a →
            recKeyLtb cmp a k = false := by
          intro idx a hidx ha
          exact recKeyLtb_of_ge_of_lt hc hrge ⟨x, hx⟩
            (pairwise_get hpw hidx hr ha)
        obtain ⟨res, hres, h1, h2, h3, h4, h5⟩ :=
          bsearchRecs_loop hc hpw hord fuel i ((i + j) / 2) him
            (by omega) (by omega) hlow
            (Or.inr ⟨rs.get ⟨(i + j) / 2, hmlt⟩, hr, hrge⟩) hhigh'
        exact ⟨res, hres, h1, by omega, h3, h4, h5⟩
    · rw [if_neg hlt]
      have : i = j := by omega
      subst this
      exact ⟨i, rfl, le_refl i, le_refl i, hlow, hjdis, hhigh⟩

theorem locateRecord_ord_spec {K : Type} [LinearOrder K] {V : Type}
    {cmp : K → K → Int} (hc : LawCmp cmp) {rs : List (Rec K V)}
    (hch : List.Chain' (fun a b => recLt cmp a b = true) rs)
    (hord : keysOrdb rs = true) (k : K) :
    locateRecord cmp rs (.ord k) =
      some (countLt cmp rs k, rs.any fun r => decide (r.key = GKey.ord k)) := by
  have hpw := sorted_pairwise hc hch
  by_cases hn0 : rs.length = 0
  · rw [List.length_eq_zero] at hn0
    subst hn0
    simp [locateRecord, countLt]
  · obtain ⟨res, hres, hge0, hlen, hlow, hdis, hhigh⟩ :=
      @bsearchRecs_loop _ _ _ _ hc _ k hpw hord (rs.length + 1) 0 (rs.length - 1)
        (by omega) (by omega) (by omega)
        (by intro idx a h; omega)
        (Or.inl rfl)
        (by
          intro idx a h ha
          obtain ⟨hlt, -⟩ := List.get?_eq_some.mp ha
          omega)
    have hreslt : res < rs.length := by omega
    have hr : rs.get? res = some (rs[res]) := List.get?_eq_get hreslt
    obtain ⟨x, hx⟩ := keysOrdb_mem hord (rs.get_mem res hreslt)
    simp only [List.get_eq_getElem] at hr hx
    rw [locateRecord]
    rw [if_neg hn0]
    rw [hres]
    dsimp only [Option.bind_eq_bind, Option.some_bind]
    rw [hr]
    dsimp only [Option.some_bind]
    rw [hx]
    simp only [cmpG]
    dsimp only [Option.some_bind]
    rcases lt_trichotomy (cmp x k) 0 with hd | hd | hd
    · -- record at res is still below k: the loop ended at the last slot
      have hrlt : recKeyLtb cmp (rs[res]) k = true := by
        rw [recKeyLtb, hx]; simp [hd]
      have hresl : res = rs.length - 1 := by
        rcases hdis with h | ⟨a, ha, hfa⟩
        · exact h
        · rw [hr] at ha; cases ha; rw [hrlt] at hfa; cases hfa
      have hcall : countLt cmp rs k = rs.length := by
        rw [countLt, List.countP_eq_length]
        intro a hma
        obtain ⟨⟨ia, hia⟩, hga⟩ := List.get_of_mem hma
        have hga' : rs.get? ia = some a := by
          rw [List.get?_eq_get hia, hga]
        rcases Nat.lt_or_ge ia res with hlt | hge
        · exact hlow ia a hlt hga'
        · have : ia = res := by omega
          subst this
          rw [hr] at hga'; cases hga'; exact hrlt
      have hany : (rs.any fun r => decide (r.key = GKey.ord k)) = false := by
        rw [List.any_eq_false]
        intro a hma
        have hlta : recKeyLtb cmp a k = true :=
          List.countP_eq_length.mp (hcall : rs.countP (recKeyLtb cmp · k) = rs.length) a hma
        cases hay : a.key with
        | sent s => simp [hay]
        | ord y =>
          rw [recKeyLtb, hay] at hlta
          simp only [decide_eq_true_eq] at hlta
          have : y ≠ k := ne_of_lt ((hc.lt_iff y k).mp hlta)
          simp [hay, this]
      rw [if_neg (by omega), if_pos ⟨hd, hresl⟩, hcall, hany]
    · -- exact hit at res
      have hxk : x = k := (hc.eq_iff x k).mp hd
      have hrge : recKeyLtb cmp (rs[res]) k = false := by
        rw [recKeyLtb, hx]; simp [hd]
      have hcr : countLt cmp rs k = res := by
        have h1 : ¬ res < countLt cmp rs k := by
          rw [← sorted_lt_iff_pos hc hpw hr]
          simp [hrge]
        have h2 : res ≤ countLt cmp rs k := by
          rcases Nat.eq_zero_or_pos res with h0 | hpos
          · omega
          · have hm1 : res - 1 < rs.length := by omega
            have hgm : rs.get? (res - 1) = some (rs.get ⟨res - 1, hm1⟩) :=
              List.get?_eq_get hm1
            have := hlow (res - 1) _ (by omega) hgm
            rw [sorted_lt_iff_pos hc hpw hgm] at this
            omega
        omega
      have hany : (rs.any fun r => decide (r.key = GKey.ord k)) = true := by
        rw [List.any_eq_true]
        exact ⟨rs[res], rs.get_mem res hreslt, by
          simp [hx, hxk]⟩
      rw [if_pos hd, hcr, hany]
    · -- record at res already above k
      have hrge : recKeyLtb cmp (rs[res]) k = false := by
        rw [recKeyLtb, hx]
        simp only [decide_eq_false_iff_not]
        omega
      have hcr : countLt cmp rs k = res := by
        have h1 : ¬ res < countLt cmp rs k := by
          rw [← sorted_lt_iff_pos hc hpw hr]
          simp [hrge]
        have h2 : res ≤ countLt cmp rs k := by
          rcases Nat.eq_zero_or_pos res with h0 | hpos
          · omega
          · have hm1 : res - 1 < rs.length := by omega
            have hgm : rs.get? (res - 1) = some (rs.get ⟨res - 1, hm1⟩) :=
              List.get?_eq_get hm1
            have := hlow (res - 1) _ (by omega) hgm
            rw [sorted_lt_iff_pos hc hpw hgm] at this
            omega
        omega
      have hany : (rs.any fun r => decide (r.key = GKey.ord k)) = false := by
        rw [List.any_eq_false]
        intro a hma
        obtain ⟨⟨ia, hia⟩, hga⟩ := List.get_of_mem hma
        have hga' : rs.get? ia = some a := by
          rw [List.get?_eq_get hia, hga]
        rcases lt_trichotomy ia res with hlt | heq | hgt
        · have := hlow ia a hlt hga'
          cases hay : a.key with
          | sent s => simp [hay]
          | ord y =>
            rw [recKeyLtb, hay] at this
            simp only [decide_eq_true_eq] at this
            simp [hay, ne_of_lt ((hc.lt_iff y k).mp this)]
        · subst heq
          rw [hr] at hga'; cases hga'
          have : k < x := (hc.gt_iff x k).mp hd
          simp [hx, ne_of_gt this]
        · have hrel := pairwise_get hpw hgt hr hga'
          cases hay : a.key with
          | sent s => simp [hay]
          | ord y =>
            rw [recLt, hx, hay] at hrel
            simp only [decide_eq_true_eq] at hrel
            have hky : k < y :=
              lt_trans ((hc.gt_iff x k).mp hd) ((hc.lt_iff x y).mp hrel)
            simp [hay, ne_of_gt hky]
      rw [if_neg (by omega), if_neg (by
          intro ⟨h1, _⟩
          omega), hcr, hany]

theorem bsearchChildren_loop {K : Type} [LinearOrder K] {V : Type}
    {cmp : K → K → Int} (hc : LawCmp cmp)
    {cs : List (Option (GKey K) × BNode K V)} {k : K}
    (hkeys : ∀ idx c, 1 ≤ idx → idx ≤ cs.length - 1 → cs.get? idx = some c →
      ∃ x, c.1 = some (GKey.ord x))
    (hsort : ∀ i j ci cj xi xj, 1 ≤ i → i < j → j ≤ cs.length - 1 →
      cs.get? i = some ci → cs.get? j = some cj →
      ci.1 = some (GKey.ord xi) → cj.1 = some (GKey.ord xj) →
      cmp xi xj < 0) :
    ∀ fuel i j, 1 ≤ i → i ≤ j → j ≤ cs.length - 1 → 2 ≤ cs.length →
      j - i < fuel →
    (∀ idx c x, 1 ≤ idx → idx < i → cs.get? idx = some c →
      c.1 = some (GKey.ord x) → cmp x k < 0) →
    (j = cs.length - 1 ∨ ∃ c x, cs.get? j = some c ∧
      c.1 = some (GKey.ord x) ∧ ¬ cmp x k < 0) →
    (∀ idx c x, j < idx → idx ≤ cs.length - 1 → cs.get? idx = some c →
      c.1 = some (GKey.ord x) → ¬ cmp x k < 0) →
    ∃ res, bsearchChildren cmp cs (.ord k) fuel i j = some res ∧ i ≤ res ∧
      res ≤ j ∧
      (∀ idx c x, 1 ≤ idx → idx < res → cs.get? idx = some c →
        c.1 = some (GKey.ord x) → cmp x k < 0) ∧
      (res = cs.length - 1 ∨ ∃ c x, cs.get? res = some c ∧
        c.1 = some (GKey.ord x) ∧ ¬ cmp x k < 0) ∧
      (∀ idx c x, res < idx → idx ≤ cs.length - 1 → cs.get? idx = some c →
        c.1 = some (GKey.ord x) → ¬ cmp x k < 0)
  | 0, i, j => by omega
  | fuel + 1, i, j => by
    intro h1i hij hjlen hn2 hfuel hlow hjdis hhigh
    rw [bsearchChildren]
    by_cases hlt : i < j
    · rw [if_pos hlt]
      have hmlt : (i + j) / 2 < cs.length := by omega
      have hr : cs.get? ((i + j) / 2) = some cs[(i + j) / 2] := by
        simp
      obtain ⟨x, hx⟩ := hkeys ((i + j) / 2) _ (by omega) (by omega) hr
      dsimp only
      rw [hr]
      simp only [cmpS, hx, cmpG]
      by_cases hd : cmp x k < 0
      · rw [if_pos hd]
        have hlow' : ∀ idx c y, 1 ≤ idx → idx < (i + j) / 2 + 1 →
            cs.get? idx = some c → c.1 = some (GKey.ord y) → cmp y k < 0 := by
          intro idx c y hidx1 hidx hcc hy
          rcases Nat.lt_or_ge idx i with hii | hii
          · exact hlow idx c y hidx1 hii hcc hy
          · rcases Nat.lt_or_ge idx ((i + j) / 2) with hmm | hmm
            · have hyx := hsort idx ((i + j) / 2) c _ y x hidx1 hmm (by omega)
                hcc hr hy hx
              exact (hc.lt_iff y k).mpr (lt_trans ((hc.lt_iff y x).mp hyx)
                ((hc.lt_iff x k).mp hd))
            · have : idx = (i + j) / 2 := by omega
              subst this
              rw [hcc] at hr; cases hr
              rw [hy] at hx; cases hx
              exact hd
        obtain ⟨res, hres, hr1, hr2, hr3, hr4, hr5⟩ :=
          bsearchChildren_loop hc hkeys hsort fuel ((i + j) / 2 + 1) j (by omega)
            (by omega) hjlen hn2 (by omega) hlow' hjdis hhigh
        exact ⟨res, hres, by omega, hr2, hr3, hr4, hr5⟩
      · rw [if_neg hd]
        have hhigh' : ∀ idx c y, (i + j) / 2 < idx → idx ≤ cs.length - 1 →
            cs.get? idx = some c → c.1 = some (GKey.ord y) →
            ¬ cmp y k < 0 := by
          intro idx c y hidx hidxl hcc hy
          have hxy := hsort ((i + j) / 2) idx _ c x y (by omega) hidx hidxl
            hr hcc hx hy
          intro hyk
          exact hd ((hc.lt_iff x k).mpr
            (lt_trans ((hc.lt_iff x y).mp hxy) ((hc.lt_iff y k).mp hyk)))
        obtain ⟨res, hres, hr1, hr2, hr3, hr4, hr5⟩ :=
          bsearchChildren_loop hc hkeys hsort fuel i ((i + j) / 2) h1i (by omega)
            (by omega) hn2 (by omega) hlow
            (Or.inr ⟨_, x, hr, hx, hd⟩) hhigh'
        exact ⟨res, hres, hr1, by omega, hr3, hr4, hr5⟩
    · rw [if_neg hlt]
      have : i = j := by omega
      subst this
      exact ⟨i, rfl, le_refl i, le_refl i, hlow, hjdis, hhigh⟩

theorem locateNodeChild_ord_spec {K : Type} [LinearOrder K] {V : Type}
    {cmp : K → K → Int} (hc : LawCmp cmp)
    {cs : List (Option (GKey K) × BNode K V)} {k : K}
    (hn2 : 2 ≤ cs.length)
    (hkeys : ∀ idx c, 1 ≤ idx → idx ≤ cs.length - 1 → cs.get? idx = some c →
      ∃ x, c.1 = some (GKey.ord x))
    (hsort : ∀ i j ci cj xi xj, 1 ≤ i → i < j → j ≤ cs.length - 1 →
      cs.get? i = some ci → cs.get? j = some cj →
      ci.1 = some (GKey.ord xi) → cj.1 = some (GKey.ord xj) →
      cmp xi xj < 0) :
    ∃ res found, locateNodeChild cmp cs (.ord k) = some (res, found) ∧
      1 ≤ res ∧ res ≤ cs.length ∧
      (∀ idx c x, 1 ≤ idx → idx < res → cs.get? idx = some c →
        c.1 = some (GKey.ord x) → cmp x k < 0) ∧
      (found = true → res ≤ cs.length - 1 ∧
        ∃ c, cs.get? res = some c ∧ c.1 = some (GKey.ord k)) ∧
      (∀ idx c x, res < idx → idx ≤ cs.length - 1 → cs.get? idx = some c →
        c.1 = some (GKey.ord x) → 0 < cmp x k) ∧
      (found = false → ∀ idx c x, res ≤ idx → idx ≤ cs.length - 1 →
        cs.get? idx = some c → c.1 = some (GKey.ord x) → 0 < cmp x k) := by
  obtain ⟨res, hres, h1, h2, hlow, hdis, hhigh⟩ :=
    bsearchChildren_loop hc hkeys hsort (cs.length + 1) 1 (cs.length - 1)
      (le_refl 1) (by omega) (by omega) hn2 (by omega)
      (by intro idx c x h1 h2 _ _; omega)
      (Or.inl rfl)
      (by intro idx c x h hle _ _; omega)
  have hreslt : res < cs.length := by omega
  have hr : cs.get? res = some cs[res] := by simp
  obtain ⟨x, hx⟩ := hkeys res _ (by omega) (by omega) hr
  have habove : ∀ idx c y, res < idx → idx ≤ cs.length - 1 →
      cs.get? idx = some c → c.1 = some (GKey.ord y) → cmp x y < 0 := by
    intro idx c y hgt hle hcc hy
    exact hsort res idx _ c x y (by omega) hgt hle hr hcc hx hy
  rw [locateNodeChild]
  rw [hres]
  dsimp only [Option.bind_eq_bind, Option.some_bind]
  rw [hr]
  dsimp only [Option.some_bind]
  rw [hx]
  simp only [cmpS, cmpG]
  dsimp only [Option.some_bind]
  rcases lt_trichotomy (cmp x k) 0 with hd | hd | hd
  · -- separator below the key: the loop must have stopped at the last slot
    have hresl : res = cs.length - 1 := by
      rcases hdis with h | ⟨c, y, hcy, hy, hny⟩
      · exact h
      · rw [hr] at hcy; cases hcy
        rw [hy] at hx; cases hx
        omega
    rw [if_neg (by omega), if_pos ⟨hd, hresl⟩]
    refine ⟨cs.length, false, rfl, by omega, le_refl _, ?_, ?_, ?_, ?_⟩
    · intro idx c y h1y hidx hcc hy
      rcases Nat.lt_or_ge idx res with hh | hh
      · exact hlow idx c y h1y hh hcc hy
      · have : idx = res := by
          obtain ⟨hl, -⟩ := List.get?_eq_some.mp hcc
          omega
        subst this
        rw [hr] at hcc; cases hcc
        rw [hy] at hx; cases hx
        exact hd
    · intro h; cases h
    · intro idx c y hgt hle hcc hy
      obtain ⟨hl, -⟩ := List.get?_eq_some.mp hcc
      omega
    · intro _ idx c y hge hle hcc hy
      obtain ⟨hl, -⟩ := List.get?_eq_some.mp hcc
      omega
  · -- exact separator hit
    rw [if_pos hd]
    have hxk : x = k := (hc.eq_iff x k).mp hd
    refine ⟨res, true, rfl, by omega, by omega, hlow, ?_, ?_, ?_⟩
    · intro _
      exact ⟨by omega, cs[res], hr, by rw [hx, hxk]⟩
    · intro idx c y hgt hle hcc hy
      have h2 : x < y := (hc.lt_iff x y).mp (habove idx c y hgt hle hcc hy)
      exact (hc.gt_iff y k).mpr (hxk ▸ h2)
    · intro h; cases h
  · -- separator above the key
    rw [if_neg (by omega), if_neg (by intro ⟨h1x, _⟩; omega)]
    refine ⟨res, false, rfl, by omega, by omega, hlow, ?_, ?_, ?_⟩
    · intro h; cases h
    · intro idx c y hgt hle hcc hy
      have h1 : k < x := (hc.gt_iff x k).mp hd
      have h2 : x < y := (hc.lt_iff x y).mp (habove idx c y hgt hle hcc hy)
      exact (hc.gt_iff y k).mpr (lt_trans h1 h2)
    · intro _ idx c y hge hle hcc hy
      rcases Nat.lt_or_ge res idx with hgt | hgee
      · have h1 : k < x := (hc.gt_iff x k).mp hd
        have h2 : x < y := (hc.lt_iff x y).mp (habove idx c y hgt hle hcc hy)
        exact (hc.gt_iff y k).mpr (lt_trans h1 h2)
      · have : idx = res := by omega
        subst this
        rw [hr] at hcc; cases hcc
        rw [hy] at hx; cases hx
        omega

theorem flattenT_eq {K V : Type} (t : BPT K V) : flattenT t = flattenN t.root := rfl

theorem flattenN_lf {K V : Type} (rs : List (Rec K V)) :
    flattenN (BNode.lf rs) = rs := by
  simp [flattenN, leavesOf]

theorem flatten_map_flatten {α : Type} (ll : List (List (List α))) :
    ll.flatten.flatten = (ll.map List.flatten).flatten := by
  induction ll with
  | nil => rfl
  | cons l ls ih => simp [ih]

theorem flattenN_nl {K V : Type} (cs : List (Option (GKey K) × BNode K V)) :
    flattenN (BNode.nl cs) = (cs.map (fun c => flattenN c.2)).flatten := by
  rw [flattenN, leavesOf_nl, flatten_map_flatten]
  simp only [List.map_map]
  rfl

theorem flatten_split {α : Type} :
    ∀ (ls : List (List α)) (idx : Nat) (l : List α), ls.get? idx = some l →
      ls.flatten = (ls.take idx).flatten ++ l ++ ((ls.drop (idx + 1)).flatten)
  | [], idx, l, h => by simp at h
  | l0 :: ls, 0, l, h => by
    simp only [List.get?_cons_zero, Option.some.injEq] at h
    subst h
    simp
  | l0 :: ls, idx + 1, l, h => by
    simp only [List.get?_cons_succ] at h
    simp only [List.flatten_cons, List.take_succ_cons, List.drop_succ_cons,
      flatten_split ls idx l h, List.append_assoc]

theorem flattenN_nl_split {K V : Type}
    {cs : List (Option (GKey K) × BNode K V)} {idx : Nat}
    {c : Option (GKey K) × BNode K V} (hc : cs.get? idx = some c) :
    flattenN (BNode.nl cs) =
      ((cs.take idx).map (fun c => flattenN c.2)).flatten ++ flattenN c.2 ++
      ((cs.drop (idx + 1)).map (fun c => flattenN c.2)).flatten := by
  rw [flattenN_nl]
  have hm : (cs.map (fun c => flattenN c.2)).get? idx = some (flattenN c.2) := by
    rw [List.get?_map, hc]
    rfl
  rw [flatten_split _ idx _ hm, List.map_take, List.map_drop]

theorem shape_nl_parts {K V : Type} {h : Nat}
    {cs : List (Option (GKey K) × BNode K V)}
    (hs : shapeOKb (h + 2) (BNode.nl cs) = true) :
    cs ≠ [] ∧ ∀ c ∈ cs, shapeOKb (h + 1) c.2 = true := by
  rw [shapeOKb, Bool.and_eq_true] at hs
  refine ⟨by simpa using hs.1, ?_⟩
  intro c hcm
  exact List.all_eq_true.mp hs.2 c hcm

theorem leavesNE_nl_parts {K V : Type} {h : Nat} {ir : Bool}
    {cs : List (Option (GKey K) × BNode K V)}
    (hs : leavesNEb (h + 2) ir (BNode.nl cs) = true) :
    ∀ c ∈ cs, leavesNEb (h + 1) false c.2 = true := by
  rw [leavesNEb] at hs
  intro c hcm
  exact List.all_eq_true.mp hs c hcm

theorem occ_nl_parts {K V : Type} {d h : Nat} {ir : Bool}
    {cs : List (Option (GKey K) × BNode K V)}
    (hs : occOKb d (h + 2) ir (BNode.nl cs) = true) :
    (if ir = true then 2 ≤ cs.length ∧ cs.length ≤ d
     else ¬ childrenIsSparse cs.length d = true ∧
       ¬ childrenIsFull cs.length d = true) ∧
    ∀ c ∈ cs, occOKb d (h + 1) false c.2 = true := by
  rw [occOKb, Bool.and_eq_true] at hs
  constructor
  · cases ir with
    | true => simpa using hs.1
    | false =>
      have h1 := hs.1
      simp only [Bool.false_eq_true, if_false, Bool.and_eq_true,
        Bool.not_eq_true'] at h1
      exact ⟨by simp [h1.1], by simp [h1.2]⟩
  · intro c hcm
    exact List.all_eq_true.mp hs.2 c hcm

theorem sepOKRest_get {K V : Type} [DecidableEq K]
    {rest : List (Option (GKey K) × BNode K V)}
    (hs : sepOKRest rest = true) :
    ∀ idx c, rest.get? idx = some c →
      (∃ r, (flattenN c.2).head? = some r ∧ c.1 = some r.key) ∧
      sepOKb c.2 = true := by
  induction rest with
  | nil => intro idx c hc; simp at hc
  | cons c0 rest' ih =>
    rw [sepOKRest, Bool.and_eq_true, Bool.and_eq_true] at hs
    obtain ⟨⟨hk, hsep⟩, hrest⟩ := hs
    intro idx c hc
    cases idx with
    | zero =>
      have hc0 : c = c0 := by
        have := hc
        simp only [List.get?_cons_zero, Option.some.injEq] at this
        exact this.symm
      rw [hc0]
      refine ⟨?_, hsep⟩
      cases hk1 : c0.1 with
      | none => rw [hk1] at hk; simp at hk
      | some kk =>
        rw [hk1] at hk
        cases hh : ((leavesOf c0.2).flatten).head? with
        | none => rw [hh] at hk; simp at hk
        | some r =>
          rw [hh] at hk
          simp only [decide_eq_true_eq] at hk
          exact ⟨r, by rw [← hh]; rfl, by rw [hk]⟩
    | succ idx' =>
      simp only [List.get?_cons_succ] at hc
      exact ih hrest idx' c hc

theorem sepOK_nl_parts {K V : Type} [DecidableEq K]
    {cs : List (Option (GKey K) × BNode K V)}
    (hs : sepOKb (BNode.nl cs) = true) :
    cs ≠ [] ∧
    (∃ c0, cs.get? 0 = some c0 ∧ c0.1 = none ∧ sepOKb c0.2 = true) ∧
    (∀ idx c, 1 ≤ idx → cs.get? idx = some c →
      (∃ r, (flattenN c.2).head? = some r ∧ c.1 = some r.key) ∧
      sepOKb c.2 = true) := by
  cases cs with
  | nil => rw [sepOKb] at hs; cases hs
  | cons c0 rest =>
    rw [sepOKb, Bool.and_eq_true, Bool.and_eq_true] at hs
    obtain ⟨⟨h0, hsep0⟩, hrest⟩ := hs
    refine ⟨by simp, ⟨c0, by simp, Option.isNone_iff_eq_none.mp h0, hsep0⟩, ?_⟩
    intro idx c hidx hc
    cases idx with
    | zero => omega
    | succ idx' =>
      simp only [List.get?_cons_succ] at hc
      exact sepOKRest_get hrest idx' c hc

theorem leavesOfL_flatten {K V : Type}
    (l : List (Option (GKey K) × BNode K V)) :
    (leavesOfL l).flatten = ((l.map (fun c => flattenN c.2)).flatten) := by
  induction l with
  | nil => rfl
  | cons c cs ih =>
    rw [leavesOfL]
    simp only [List.flatten_append, ih, List.map_cons, List.flatten_cons]
    rfl

theorem leavesOf_nl_split {K V : Type}
    {cs : List (Option (GKey K) × BNode K V)} {idx : Nat}
    {c : Option (GKey K) × BNode K V} (hc : cs.get? idx = some c) :
    leavesOf (BNode.nl cs) =
      leavesOfL (cs.take idx) ++ leavesOf c.2 ++ leavesOfL (cs.drop (idx + 1)) := by
  rw [leavesOf_nl]
  have hm : (cs.map (fun c => leavesOf c.2)).get? idx = some (leavesOf c.2) := by
    rw [List.get?_map, hc]
    rfl
  rw [flatten_split _ idx _ hm, ← List.map_take, ← List.map_drop,
    ← leavesOfL_eq, ← leavesOfL_eq]

theorem flattenN_as_leaves_split {K V : Type}
    {cs : List (Option (GKey K) × BNode K V)} {idx : Nat}
    {c : Option (GKey K) × BNode K V} (hc : cs.get? idx = some c) :
    flattenN (BNode.nl cs) =
      (leavesOfL (cs.take idx)).flatten ++ flattenN c.2 ++
      (leavesOfL (cs.drop (idx + 1))).flatten := by
  rw [flattenN, leavesOf_nl_split hc]
  simp [flattenN]

theorem mem_flattenN_child {K V : Type}
    {cs : List (Option (GKey K) × BNode K V)} {idx : Nat}
    {c : Option (GKey K) × BNode K V} (hc : cs.get? idx = some c)
    {r : Rec K V} (hr : r ∈ flattenN c.2) : r ∈ flattenN (BNode.nl cs) := by
  rw [flattenN_as_leaves_split hc]
  simp only [List.mem_append]
  exact Or.inl (Or.inr hr)

theorem chain_child {K V : Type} {R : Rec K V → Rec K V → Prop}
    {cs : List (Option (GKey K) × BNode K V)} {idx : Nat}
    {c : Option (GKey K) × BNode K V} (hc : cs.get? idx = some c)
    (hch : List.Chain' R (flattenN (BNode.nl cs))) :
    List.Chain' R (flattenN c.2) := by
  rw [flattenN_as_leaves_split hc] at hch
  rw [List.append_assoc] at hch
  exact ((List.chain'_append.mp ((List.chain'_append.mp hch).2.1)).1)

theorem crossLt {K : Type} [LinearOrder K] {V : Type} {cmp : K → K → Int}
    (hc : LawCmp cmp) {cs : List (Option (GKey K) × BNode K V)}
    (hch : List.Chain' (fun a b => recLt cmp a b = true)
      (flattenN (BNode.nl cs)))
    {i j : Nat} {ci cj : Option (GKey K) × BNode K V} (hij : i < j)
    (hci : cs.get? i = some ci) (hcj : cs.get? j = some cj)
    {r r' : Rec K V} (hr : r ∈ flattenN ci.2) (hr' : r' ∈ flattenN cj.2) :
    recLt cmp r r' = true := by
  have hpw := sorted_pairwise hc hch
  rw [flattenN_as_leaves_split hci] at hpw
  have hdropg : (cs.drop (i + 1)).get? (j - (i + 1)) = some cj := by
    rw [List.get?_drop]
    rw [show i + 1 + (j - (i + 1)) = j by omega]
    exact hcj
  have hmemd : cj ∈ cs.drop (i + 1) := List.get?_mem hdropg
  have hr'mem : r' ∈ (leavesOfL (cs.drop (i + 1))).flatten := by
    rw [leavesOfL_flatten]
    rw [List.mem_flatten]
    exact ⟨flattenN cj.2, List.mem_map_of_mem _ hmemd, hr'⟩
  have hpw2 := (List.pairwise_append.mp hpw).2.2
  exact hpw2 r (List.mem_append_right _ hr) r' hr'mem

theorem head_le_mem {K V : Type} {cmp : K → K → Int} [LinearOrder K]
    (hc : LawCmp cmp) {l : List (Rec K V)}
    (hch : List.Chain' (fun a b => recLt cmp a b = true) l)
    {a b : Rec K V} (ha : l.head? = some a) (hb : b ∈ l) :
    b = a ∨ recLt cmp a b = true := by
  cases l with
  | nil => simp at ha
  | cons x t =>
    simp only [List.head?_cons, Option.some.injEq] at ha
    subst ha
    rcases List.mem_cons.mp hb with h | h
    · exact Or.inl h
    · exact Or.inr (List.rel_of_pairwise_cons (sorted_pairwise hc hch) h)

theorem recKeyLtb_of_recLt_eq {K V : Type} {cmp : K → K → Int}
    {a b : Rec K V} {k : K} (hab : recLt cmp a b = true)
    (hbk : b.key = GKey.ord k) : recKeyLtb cmp a k = true := by
  rw [recLt] at hab
  rw [recKeyLtb]
  cases hka : a.key with
  | sent s => rw [hka, hbk] at hab; simp at hab
  | ord x => rw [hka, hbk] at hab; simpa using hab

theorem recKeyLtb_false_of_pos {K : Type} [LinearOrder K] {V : Type}
    {cmp : K → K → Int} (hc : LawCmp cmp) {a : Rec K V} {x k : K}
    (hx : a.key = GKey.ord x) (hpos : 0 < cmp x k) :
    recKeyLtb cmp a k = false := by
  rw [recKeyLtb, hx]
  simp only [decide_eq_false_iff_not, not_lt]
  omega

theorem gt_propagate {K : Type} [LinearOrder K] {V : Type}
    {cmp : K → K → Int} (hc : LawCmp cmp) {a b : Rec K V} {x k : K}
    (hx : a.key = GKey.ord x) (hpos : 0 < cmp x k)
    (hab : b = a ∨ recLt cmp a b = true) {y : K}
    (hy : b.key = GKey.ord y) : 0 < cmp y k := by
  rcases hab with rfl | hlt
  · rw [hx] at hy
    have hxy : x = y := by simpa using hy
    rw [← hxy]
    exact hpos
  · rw [recLt, hx, hy] at hlt
    simp only [decide_eq_true_eq] at hlt
    have hxy : x < y := (hc.lt_iff x y).mp hlt
    have hkx : k < x := (hc.gt_iff x k).mp hpos
    exact (hc.gt_iff y k).mpr (lt_trans hkx hxy)

theorem anyEq_false_of_allLt {K : Type} [LinearOrder K] {V : Type}
    {cmp : K → K → Int} (hc : LawCmp cmp) {l : List (Rec K V)} {k : K}
    (h : ∀ r ∈ l, recKeyLtb cmp r k = true) :
    (l.any fun r => decide (r.key = GKey.ord k)) = false := by
  rw [List.any_eq_false]
  intro r hr
  simp only [decide_eq_true_eq]
  intro hkey
  have := h r hr
  rw [recKeyLtb, hkey] at this
  simp only [decide_eq_true_eq] at this
  have : cmp k k = 0 := (hc.eq_iff k k).mpr rfl
  omega

theorem anyEq_false_of_allGt {K : Type} [LinearOrder K] {V : Type}
    {cmp : K → K → Int} (hc : LawCmp cmp) {l : List (Rec K V)} {k : K}
    (h : ∀ r ∈ l, ∃ x, r.key = GKey.ord x ∧ 0 < cmp x k) :
    (l.any fun r => decide (r.key = GKey.ord k)) = false := by
  rw [List.any_eq_false]
  intro r hr
  simp only [decide_eq_true_eq]
  intro hkey
  obtain ⟨x, hx, hpos⟩ := h r hr
  have hxk : x = k := by
    rw [hkey] at hx
    simpa using hx.symm
  rw [hxk] at hpos
  have h0 : cmp k k = 0 := (hc.eq_iff k k).mpr rfl
  omega

theorem countLt_eq_length_of_allLt {K V : Type} {cmp : K → K → Int}
    {l : List (Rec K V)} {k : K}
    (h : ∀ r ∈ l, recKeyLtb cmp r k = true) :
    countLt cmp l k = l.length := by
  rw [countLt, List.countP_eq_length]
  exact h

theorem countLt_eq_zero_of_allGt {K : Type} [LinearOrder K] {V : Type}
    {cmp : K → K → Int} (hc : LawCmp cmp) {l : List (Rec K V)} {k : K}
    (h : ∀ r ∈ l, ∃ x, r.key = GKey.ord x ∧ 0 < cmp x k) :
    countLt cmp l k = 0 := by
  rw [countLt, List.countP_eq_zero]
  intro r hr
  obtain ⟨x, hx, hpos⟩ := h r hr
  simp [recKeyLtb_false_of_pos hc hx hpos]

theorem leavesBefore_append {K V : Type}
    (A B : List (List (Rec K V))) (m : Nat) :
    leavesBefore (A ++ B) (A.length + m) = A.flatten.length + leavesBefore B m := by
  rw [leavesBefore, leavesBefore, List.take_append, List.map_append,
    List.sum_append, List.length_flatten]

theorem leavesBefore_append_left {K V : Type}
    {A : List (List (Rec K V))} (B : List (List (Rec K V))) {m : Nat}
    (hm : m ≤ A.length) :
    leavesBefore (A ++ B) m = leavesBefore A m := by
  rw [leavesBefore, leavesBefore, List.take_append_of_le_length hm]

theorem recKeyLtb_of_recLt_le {K : Type} [LinearOrder K] {V : Type}
    {cmp : K → K → Int} (hc : LawCmp cmp) {a b : Rec K V} {x k : K}
    (hab : recLt cmp a b = true) (hbx : b.key = GKey.ord x)
    (hxk : cmp x k ≤ 0) : recKeyLtb cmp a k = true := by
  rw [recLt, hbx] at hab
  rw [recKeyLtb]
  cases hka : a.key with
  | sent s => rw [hka] at hab; simp at hab
  | ord y =>
    rw [hka] at hab
    simp only [decide_eq_true_eq] at hab ⊢
    have hyx : y < x := (hc.lt_iff y x).mp hab
    have hxk2 : x ≤ k := by
      rcases lt_or_eq_of_le hxk with h | h
      · exact le_of_lt ((hc.lt_iff x k).mp h)
      · exact le_of_eq ((hc.eq_iff x k).mp h)
    exact (hc.lt_iff y k).mpr (lt_of_lt_of_le hyx hxk2)

theorem mem_take_flatten_idx {K V : Type}
    {cs : List (Option (GKey K) × BNode K V)} {i : Nat} {r : Rec K V}
    (hr : r ∈ (leavesOfL (cs.take i)).flatten) :
    ∃ j cj, j < i ∧ cs.get? j = some cj ∧ r ∈ flattenN cj.2 := by
  rw [leavesOfL_flatten, List.mem_flatten] at hr
  obtain ⟨F, hF, hrF⟩ := hr
  rw [List.mem_map] at hF
  obtain ⟨c, hcmem, hFc⟩ := hF
  obtain ⟨j, hj⟩ := List.mem_iff_get?.mp hcmem
  have hjlt : j < (cs.take i).length := (List.get?_eq_some.mp hj).1
  rw [List.length_take] at hjlt
  have hji : j < i := lt_of_lt_of_le hjlt (min_le_left _ _)
  have hjcs : cs.get? j = some c := by
    rw [← List.get?_take hji]
    exact hj
  exact ⟨j, c, hji, hjcs, hFc ▸ hrF⟩

theorem mem_drop_flatten_idx {K V : Type}
    {cs : List (Option (GKey K) × BNode K V)} {i : Nat} {r : Rec K V}
    (hr : r ∈ (leavesOfL (cs.drop (i + 1))).flatten) :
    ∃ j cj, i + 1 ≤ j ∧ cs.get? j = some cj ∧ r ∈ flattenN cj.2 := by
  rw [leavesOfL_flatten, List.mem_flatten] at hr
  obtain ⟨F, hF, hrF⟩ := hr
  rw [List.mem_map] at hF
  obtain ⟨c, hcmem, hFc⟩ := hF
  obtain ⟨m, hm⟩ := List.mem_iff_get?.mp hcmem
  rw [List.get?_drop] at hm
  exact ⟨i + 1 + m, c, by omega, hm, hFc ▸ hrF⟩

theorem allLt_take {K : Type} [LinearOrder K] {V : Type} {cmp : K → K → Int}
    (hc : LawCmp cmp) {cs : List (Option (GKey K) × BNode K V)} {k : K}
    {i : Nat} (hilen : i < cs.length)
    (hch : List.Chain' (fun a b => recLt cmp a b = true)
      (flattenN (BNode.nl cs)))
    (hbound : ∀ j cj, 1 ≤ j → j ≤ i → cs.get? j = some cj →
      ∃ rj x, (flattenN cj.2).head? = some rj ∧ rj.key = GKey.ord x ∧
        cmp x k ≤ 0) :
    ∀ r ∈ (leavesOfL (cs.take i)).flatten, recKeyLtb cmp r k = true := by
  intro r hr
  obtain ⟨j, cj, hji, hjcs, hrF⟩ := mem_take_flatten_idx hr
  have hj1lt : j + 1 < cs.length := by omega
  cases hj1 : cs.get? (j + 1) with
  | none =>
    rw [List.get?_eq_none] at hj1
    omega
  | some cj1 =>
    obtain ⟨rj, x, hhead, hkey, hle⟩ := hbound (j + 1) cj1 (by omega) (by omega) hj1
    have hmem : rj ∈ flattenN cj1.2 := List.mem_of_mem_head? hhead
    have hlt := crossLt hc hch (Nat.lt_succ_self j) hjcs hj1 hrF hmem
    exact recKeyLtb_of_recLt_le hc hlt hkey hle

theorem allGt_drop {K : Type} [LinearOrder K] {V : Type} {cmp : K → K → Int}
    (hc : LawCmp cmp) {cs : List (Option (GKey K) × BNode K V)} {k : K}
    {i : Nat}
    (hch : List.Chain' (fun a b => recLt cmp a b = true)
      (flattenN (BNode.nl cs)))
    (hord : keysOrdb (flattenN (BNode.nl cs)) = true)
    (hbound : ∀ j cj, i + 1 ≤ j → cs.get? j = some cj →
      ∃ rj x, (flattenN cj.2).head? = some rj ∧ rj.key = GKey.ord x ∧
        0 < cmp x k) :
    ∀ r ∈ (leavesOfL (cs.drop (i + 1))).flatten,
      ∃ y, r.key = GKey.ord y ∧ 0 < cmp y k := by
  intro r hr
  obtain ⟨j, cj, hji, hjcs, hrF⟩ := mem_drop_flatten_idx hr
  obtain ⟨rj, x, hhead, hkey, hpos⟩ := hbound j cj hji hjcs
  have hchild := chain_child hjcs hch
  have hrel := head_le_mem hc hchild hhead hrF
  obtain ⟨y, hy⟩ := keysOrdb_mem hord (mem_flattenN_child hjcs hrF)
  exact ⟨y, hy, gt_propagate hc hkey hpos hrel hy⟩

theorem split_count_any {K : Type} [LinearOrder K] {V : Type}
    {cmp : K → K → Int} (hc : LawCmp cmp)
    {cs : List (Option (GKey K) × BNode K V)} {i : Nat}
    {ci : Option (GKey K) × BNode K V} {k : K} (hci : cs.get? i = some ci)
    (hallLt : ∀ r ∈ (leavesOfL (cs.take i)).flatten,
      recKeyLtb cmp r k = true)
    (hallGt : ∀ r ∈ (leavesOfL (cs.drop (i + 1))).flatten,
      ∃ y, r.key = GKey.ord y ∧ 0 < cmp y k) :
    countLt cmp (flattenN (BNode.nl cs)) k =
      (leavesOfL (cs.take i)).flatten.length + countLt cmp (flattenN ci.2) k ∧
    (flattenN (BNode.nl cs)).any (fun r => decide (r.key = GKey.ord k)) =
      (flattenN ci.2).any (fun r => decide (r.key = GKey.ord k)) := by
  constructor
  · rw [flattenN_as_leaves_split hci, countLt, List.countP_append,
      List.countP_append]
    rw [← countLt, ← countLt, ← countLt, countLt_eq_length_of_allLt hallLt,
      countLt_eq_zero_of_allGt hc hallGt]
    omega
  · rw [flattenN_as_leaves_split hci, List.any_append, List.any_append,
      anyEq_false_of_allLt hc hallLt, anyEq_false_of_allGt hc hallGt]
    simp

theorem sep_key_facts {K : Type} [LinearOrder K] {V : Type} [DecidableEq K]
    {cs : List (Option (GKey K) × BNode K V)}
    (hsep : sepOKb (BNode.nl cs) = true)
    (hord : keysOrdb (flattenN (BNode.nl cs)) = true) :
    ∀ idx c, 1 ≤ idx → cs.get? idx = some c →
      ∃ r x, (flattenN c.2).head? = some r ∧ r.key = GKey.ord x ∧
        c.1 = some (GKey.ord x) := by
  intro idx c hidx hc
  obtain ⟨-, -, hrest⟩ := sepOK_nl_parts hsep
  obtain ⟨⟨r, hhead, hkey⟩, -⟩ := hrest idx c hidx hc
  obtain ⟨x, hx⟩ := keysOrdb_mem hord
    (mem_flattenN_child hc (List.mem_of_mem_head? hhead))
  exact ⟨r, x, hhead, hx, by rw [hkey, hx]⟩

theorem dropLast_cons_ne {α : Type} {l : List α} (h : l ≠ []) (a : α) :
    (a :: l).dropLast = a :: l.dropLast := by
  cases l with
  | nil => exact absurd rfl h
  | cons b t => rfl

theorem getLast?_cons_ne {α : Type} {l : List α} (h : l ≠ []) (a : α) :
    (a :: l).getLast? = l.getLast? := by
  cases l with
  | nil => exact absurd rfl h
  | cons b t => simp [List.getLast?_cons_cons]

theorem get?_append_mid {α : Type} (L1 Lc L3 : List α) {m : Nat}
    (hm : m < Lc.length) :
    (L1 ++ Lc ++ L3).get? (L1.length + m) = Lc.get? m := by
  rw [List.append_assoc, List.get?_append_right (Nat.le_add_right _ _)]
  rw [Nat.add_sub_cancel_left]
  exact List.get?_append hm

theorem leavesBefore_mid {K V : Type}
    (L1 Lc L3 : List (List (Rec K V))) {m : Nat} (hm : m ≤ Lc.length) :
    leavesBefore (L1 ++ Lc ++ L3) (L1.length + m) =
      L1.flatten.length + leavesBefore Lc m := by
  rw [List.append_assoc, leavesBefore_append,
    leavesBefore_append_left _ hm]

theorem findLoop_ord_spec {K : Type} [LinearOrder K]
    {V : Type} {cmp : K → K → Int} (hc : LawCmp cmp) {d : Nat}
    (hd3 : 3 ≤ d) :
    ∀ (fuel h : Nat) (n : BNode K V) (ir : Bool) (H : Nat)
      (path0 : List Nat) (k : K),
      1 ≤ h → h ≤ fuel → shapeOKb h n = true → sepOKb n = true →
      occOKb d h ir n = true →
      List.Chain' (fun a b => recLt cmp a b = true) (flattenN n) →
      keysOrdb (flattenN n) = true → H = path0.length + h →
      ∃ sub lp s recs,
        findRecordLoop cmp H (GKey.ord k) fuel n path0 =
          some (path0 ++ sub,
            (flattenN n).any fun r => decide (r.key = GKey.ord k)) ∧
        sub.length = h ∧
        leafPos n sub.dropLast = some lp ∧
        sub.getLast? = some s ∧
        (leavesOf n).get? lp = some recs ∧
        s ≤ recs.length ∧
        leavesBefore (leavesOf n) lp + s = countLt cmp (flattenN n) k ∧
        ((flattenN n).any (fun r => decide (r.key = GKey.ord k)) = true →
          s < recs.length) ∧
        ((flattenN n).any (fun r => decide (r.key = GKey.ord k)) = false →
          s = 0 → countLt cmp (flattenN n) k = 0)
  | 0, h, n, ir, H, path0, k => by
    intro h1 hf
    omega
  | fuel + 1, h, n, ir, H, path0, k => by
    intro h1 hf hsh hsep hocc hch hord hH
    cases n with
    | lf rs =>
      have hh1 : h = 1 := by
        cases h with
        | zero => omega
        | succ h' =>
          cases h' with
          | zero => rfl
          | succ h'' => simp [shapeOKb] at hsh
      subst hh1
      rw [flattenN_lf] at hch hord
      have hpw := sorted_pairwise hc hch
      refine ⟨[countLt cmp rs k], 0, countLt cmp rs k, rs, ?_, rfl, rfl, rfl,
        rfl, List.countP_le_length _, ?_, ?_, ?_⟩
      · rw [findRecordLoop, if_pos (by omega),
          locateRecord_ord_spec hc hch hord k]
        simp only [Option.bind_eq_bind, Option.some_bind]
        rw [flattenN_lf]
      · rw [flattenN_lf]
        simp [leavesBefore]
      · intro hany
        rw [flattenN_lf, List.any_eq_true] at hany
        obtain ⟨r, hrmem, hrk⟩ := hany
        simp only [decide_eq_true_eq] at hrk
        obtain ⟨idx, hidx⟩ := List.mem_iff_get?.mp hrmem
        have hnot : recKeyLtb cmp r k = false := by
          rw [recKeyLtb, hrk]
          simp only [decide_eq_false_iff_not, not_lt]
          have := (hc.eq_iff k k).mpr rfl
          omega
        have hiff := sorted_lt_iff_pos hc hpw (k := k) hidx
        have hle : countLt cmp rs k ≤ idx := by
          by_contra hcon
          rw [hiff.mpr (by omega)] at hnot
          cases hnot
        have hidxlt : idx < rs.length := (List.get?_eq_some.mp hidx).1
        omega
      · intro _ h0
        rw [flattenN_lf]
        exact h0
    | nl cs =>
      have hhe : ∃ h'', h = h'' + 2 := by
        cases h with
        | zero => omega
        | succ h' =>
          cases h' with
          | zero => simp [shapeOKb] at hsh
          | succ h'' => exact ⟨h'', rfl⟩
      obtain ⟨h'', rfl⟩ := hhe
      obtain ⟨hne, hchsh⟩ := shape_nl_parts hsh
      obtain ⟨hoccTop, hchocc⟩ := occ_nl_parts hocc
      have hsepfacts := sep_key_facts hsep hord
      obtain ⟨-, ⟨c00, hc00, hc00key, hc00sep⟩, hsepRest⟩ := sepOK_nl_parts hsep
      have hn2 : 2 ≤ cs.length := by
        cases ir with
        | true =>
          simp only [if_pos] at hoccTop
          exact hoccTop.1
        | false =>
          simp only [Bool.false_eq_true, if_false] at hoccTop
          have := hoccTop.1
          rw [childrenIsSparse] at this
          simp only [Bool.not_eq_true, decide_eq_false_iff_not, not_le] at this
          omega
      have hkeys : ∀ idx c, 1 ≤ idx → idx ≤ cs.length - 1 →
          cs.get? idx = some c → ∃ x, c.1 = some (GKey.ord x) := by
        intro idx c hi _ hg
        obtain ⟨r, x, -, -, hcx⟩ := hsepfacts idx c hi hg
        exact ⟨x, hcx⟩
      have hsort : ∀ i j ci cj xi xj, 1 ≤ i → i < j → j ≤ cs.length - 1 →
          cs.get? i = some ci → cs.get? j = some cj →
          ci.1 = some (GKey.ord xi) → cj.1 = some (GKey.ord xj) →
          cmp xi xj < 0 := by
        intro i j ci cj xi xj hi hij hjn hgi hgj hki hkj
        obtain ⟨ri, xi', hheadi, hkeyri, hcxi⟩ := hsepfacts i ci hi hgi
        obtain ⟨rj, xj', hheadj, hkeyrj, hcxj⟩ :=
          hsepfacts j cj (by omega) hgj
        have hxi : xi' = xi := by rw [hki] at hcxi; simpa using hcxi.symm
        have hxj : xj' = xj := by rw [hkj] at hcxj; simpa using hcxj.symm
        have hlt := crossLt hc hch hij hgi hgj
          (List.mem_of_mem_head? hheadi) (List.mem_of_mem_head? hheadj)
        rw [recLt, hkeyri, hkeyrj] at hlt
        simp only [decide_eq_true_eq] at hlt
        rw [← hxi, ← hxj]
        exact hlt
      obtain ⟨res, found, hloc, hres1, hresn, hlow, hfnd, hhigh, hnf⟩ :=
        locateNodeChild_ord_spec hc hn2 hkeys hsort
      cases found with
      | true =>
        obtain ⟨hresle, cF, hgF, hkF⟩ := hfnd rfl
        obtain ⟨r0, x0, hr0head, hr0key, hcx0⟩ := hsepfacts res cF hres1 hgF
        have hr0k : r0.key = GKey.ord k := by
          rw [hkF] at hcx0
          have hx : k = x0 := by simpa using hcx0
          rw [hr0key, ← hx]
        have hmemF : cF ∈ cs := List.get?_mem hgF
        have hshF := hchsh cF hmemF
        have hoccF := hchocc cF hmemF
        have hsepF : sepOKb cF.2 = true := (hsepRest res cF hres1 hgF).2
        have hchF := chain_child hgF hch
        have hordF : keysOrdb (flattenN cF.2) = true := by
          rw [keysOrdb, List.all_eq_true]
          intro r hr
          exact List.all_eq_true.mp hord r (mem_flattenN_child hgF hr)
        obtain ⟨sub', lp', s', recs', hrun, hlen', hlpos', hlast', hget',
            hsle', hcnt', hf', hz'⟩ :=
          findLoop_ord_spec hc hd3 fuel (h'' + 1) cF.2 false H
            (path0 ++ [res]) k (by omega) (by omega) hshF hsepF hoccF hchF
            hordF (by rw [hH, List.length_append]; simp; omega)
        have hreslt : res < cs.length := by omega
        have hbL : ∀ j cj, 1 ≤ j → j ≤ res → cs.get? j = some cj →
            ∃ rj x, (flattenN cj.2).head? = some rj ∧
              rj.key = GKey.ord x ∧ cmp x k ≤ 0 := by
          intro j cj hj1 hjres hgj
          obtain ⟨rj, xj, hh, hk, hcx⟩ := hsepfacts j cj hj1 hgj
          refine ⟨rj, xj, hh, hk, ?_⟩
          rcases eq_or_lt_of_le hjres with hje | hjlt
          · subst hje
            have hcjF : cj = cF := by rw [hgj] at hgF; simpa using hgF
            rw [hcjF, hkF] at hcx
            have : xj = k := by simpa using hcx.symm
            rw [this]
            have := (hc.eq_iff k k).mpr rfl
            omega
          · exact le_of_lt (hlow j cj xj hj1 hjlt hgj hcx)
        have hbG : ∀ j cj, res + 1 ≤ j → cs.get? j = some cj →
            ∃ rj x, (flattenN cj.2).head? = some rj ∧
              rj.key = GKey.ord x ∧ 0 < cmp x k := by
          intro j cj hjres hgj
          have hjlen : j < cs.length := (List.get?_eq_some.mp hgj).1
          obtain ⟨rj, xj, hh, hk, hcx⟩ := hsepfacts j cj (by omega) hgj
          exact ⟨rj, xj, hh, hk,
            hhigh j cj xj (by omega) (by omega) hgj hcx⟩
        have hallLt := allLt_take hc hreslt hch hbL
        have hallGt := allGt_drop hc hch hord hbG
        obtain ⟨hcountEq, hanyEq⟩ := split_count_any hc hgF hallLt hallGt
        have hsubne : sub' ≠ [] := by
          intro hcon
          rw [hcon] at hlen'
          simp at hlen'
        have hlpLc : lp' < (leavesOf cF.2).length :=
          (List.get?_eq_some.mp hget').1
        refine ⟨res :: sub', (leavesOfL (cs.take res)).length + lp', s',
          recs', ?_, ?_, ?_, ?_, ?_, hsle', ?_, ?_, ?_⟩
        · rw [findRecordLoop, if_neg (by omega), hloc]
          simp only [Option.bind_eq_bind, Option.some_bind, if_true]
          rw [hgF]
          simp only [Option.some_bind]
          rw [hrun, hanyEq]
          simp [List.append_assoc]
        · simp [hlen']
        · rw [dropLast_cons_ne hsubne]
          rw [leafPos, hgF]
          simp only [Option.bind_eq_bind, Option.some_bind]
          rw [hlpos']
          simp only [Option.some_bind]
        · rw [getLast?_cons_ne hsubne]
          exact hlast'
        · rw [leavesOf_nl_split hgF]
          rw [get?_append_mid _ _ _ hlpLc]
          exact hget'
        · rw [leavesOf_nl_split hgF, leavesBefore_mid _ _ _ (le_of_lt hlpLc),
            hcountEq, ← hcnt', Nat.add_assoc]
        · intro hany
          rw [hanyEq] at hany
          exact hf' hany
        · intro hfalse
          exfalso
          rw [hanyEq] at hfalse
          have : (flattenN cF.2).any (fun r => decide (r.key = GKey.ord k)) =
              true :=
            List.any_eq_true.mpr ⟨r0, List.mem_of_mem_head? hr0head,
              by simp [hr0k]⟩
          rw [this] at hfalse
          cases hfalse
      | false =>
        have hires : res - 1 < res := by omega
        have hilen : res - 1 < cs.length := by omega
        cases hgi : cs.get? (res - 1) with
        | none =>
          rw [List.get?_eq_none] at hgi
          omega
        | some ci =>
          have hmemI : ci ∈ cs := List.get?_mem hgi
          have hshI := hchsh ci hmemI
          have hoccI := hchocc ci hmemI
          have hsepI : sepOKb ci.2 = true := by
            rcases Nat.eq_zero_or_pos (res - 1) with h0 | hp
            · rw [h0] at hgi
              have : ci = c00 := by rw [hgi] at hc00; simpa using hc00
              rw [this]
              exact hc00sep
            · exact (hsepRest (res - 1) ci hp hgi).2
          have hchI := chain_child hgi hch
          have hordI : keysOrdb (flattenN ci.2) = true := by
            rw [keysOrdb, List.all_eq_true]
            intro r hr
            exact List.all_eq_true.mp hord r (mem_flattenN_child hgi hr)
          obtain ⟨sub', lp', s', recs', hrun, hlen', hlpos', hlast', hget',
              hsle', hcnt', hf', hz'⟩ :=
            findLoop_ord_spec hc hd3 fuel (h'' + 1) ci.2 false H
              (path0 ++ [res - 1]) k (by omega) (by omega) hshI hsepI hoccI
              hchI hordI (by rw [hH, List.length_append]; simp; omega)
          have hbL : ∀ j cj, 1 ≤ j → j ≤ res - 1 → cs.get? j = some cj →
              ∃ rj x, (flattenN cj.2).head? = some rj ∧
                rj.key = GKey.ord x ∧ cmp x k ≤ 0 := by
            intro j cj hj1 hjres hgj
            obtain ⟨rj, xj, hh, hk, hcx⟩ := hsepfacts j cj hj1 hgj
            exact ⟨rj, xj, hh, hk,
              le_of_lt (hlow j cj xj hj1 (by omega) hgj hcx)⟩
          have hbG : ∀ j cj, (res - 1) + 1 ≤ j → cs.get? j = some cj →
              ∃ rj x, (flattenN cj.2).head? = some rj ∧
                rj.key = GKey.ord x ∧ 0 < cmp x k := by
            intro j cj hjres hgj
            have hjlen : j < cs.length := (List.get?_eq_some.mp hgj).1
            obtain ⟨rj, xj, hh, hk, hcx⟩ := hsepfacts j cj (by omega) hgj
            exact ⟨rj, xj, hh, hk,
              hnf rfl j cj xj (by omega) (by omega) hgj hcx⟩
          have hallLt := allLt_take hc hilen hch hbL
          have hallGt := allGt_drop hc hch hord hbG
          obtain ⟨hcountEq, hanyEq⟩ := split_count_any hc hgi hallLt hallGt
          have hsubne : sub' ≠ [] := by
            intro hcon
            rw [hcon] at hlen'
            simp at hlen'
          have hlpLc : lp' < (leavesOf ci.2).length :=
            (List.get?_eq_some.mp hget').1
          refine ⟨(res - 1) :: sub',
            (leavesOfL (cs.take (res - 1))).length + lp', s',
            recs', ?_, ?_, ?_, ?_, ?_, hsle', ?_, ?_, ?_⟩
          · rw [findRecordLoop, if_neg (by omega), hloc]
            simp only [Option.bind_eq_bind, Option.some_bind,
              Bool.false_eq_true, if_false]
            rw [if_neg (show ¬ res = 0 by omega)]
            rw [hgi]
            simp only [Option.some_bind]
            rw [hrun, hanyEq]
            simp [List.append_assoc]
          · simp [hlen']
          · rw [dropLast_cons_ne hsubne]
            rw [leafPos, hgi]
            simp only [Option.bind_eq_bind, Option.some_bind]
            rw [hlpos']
            simp only [Option.some_bind]
          · rw [getLast?_cons_ne hsubne]
            exact hlast'
          · rw [leavesOf_nl_split hgi]
            rw [get?_append_mid _ _ _ hlpLc]
            exact hget'
          · rw [leavesOf_nl_split hgi,
              leavesBefore_mid _ _ _ (le_of_lt hlpLc), hcountEq, ← hcnt',
              Nat.add_assoc]
          · intro hany
            rw [hanyEq] at hany
            exact hf' hany
          · intro hfalse h0
            rw [hanyEq] at hfalse
            have hzc := hz' hfalse h0
            have hX0 : (leavesOfL (cs.take (res - 1))).flatten.length = 0 := by
              rcases Nat.eq_zero_or_pos (res - 1) with hi0 | hip
              · rw [hi0]
                simp [leavesOfL]
              · exfalso
                obtain ⟨ri, xi, hh, hk, hcx⟩ :=
                  hsepfacts (res - 1) ci hip hgi
                have hlt := hlow (res - 1) ci xi hip (by omega) hgi hcx
                have hmem : ri ∈ flattenN ci.2 := List.mem_of_mem_head? hh
                have hpos : 0 < countLt cmp (flattenN ci.2) k := by
                  rw [countLt, List.countP_pos]
                  exact ⟨ri, hmem, by rw [recKeyLtb, hk]; simpa using hlt⟩
                omega
            rw [hcountEq, hX0, hzc]

theorem replicate_getLast {α : Type} (a : α) :
    ∀ n : Nat, 1 ≤ n → (List.replicate n a).getLast? = some a
  | 1, _ => rfl
  | n + 2, _ => by
    rw [List.replicate_succ, getLast?_cons_ne (by simp), replicate_getLast a (n + 1) (by omega)]

theorem replicate_dropLast {α : Type} (a : α) :
    ∀ n : Nat, (List.replicate n a).dropLast = List.replicate (n - 1) a
  | 0 => rfl
  | 1 => rfl
  | n + 2 => by
    rw [List.replicate_succ, dropLast_cons_ne (by simp),
      replicate_dropLast a (n + 1)]
    rfl

theorem leavesOf_ne_nil {K V : Type} :
    ∀ (h : Nat) (n : BNode K V), shapeOKb h n = true → leavesOf n ≠ []
  | 1, .lf rs, _ => by simp [leavesOf]
  | h + 2, .nl cs, hsh => by
    obtain ⟨hne, hch⟩ := shape_nl_parts hsh
    cases cs with
    | nil => exact absurd rfl hne
    | cons c0 rest =>
      rw [leavesOf, leavesOfL]
      have := leavesOf_ne_nil (h + 1) c0.2 (hch c0 (by simp))
      intro hcon
      rw [List.append_eq_nil] at hcon
      exact this hcon.1

theorem leavesOf_nl_cons {K V : Type} (c : Option (GKey K) × BNode K V)
    (cs : List (Option (GKey K) × BNode K V)) :
    leavesOf (BNode.nl (c :: cs)) = leavesOf c.2 ++ leavesOfL cs := by
  rw [leavesOf_nl, List.map_cons, List.flatten_cons, leavesOfL_eq]

theorem head?_append_left {α : Type} {l₁ : List α} (l₂ : List α)
    (h : l₁ ≠ []) : (l₁ ++ l₂).head? = l₁.head? := by
  cases l₁ with
  | nil => exact absurd rfl h
  | cons a t => rfl

theorem getLast?_append_right {α : Type} {l₂ : List α} :
    ∀ l₁ : List α, l₂ ≠ [] → (l₁ ++ l₂).getLast? = l₂.getLast?
  | [], _ => rfl
  | a :: t, h => by
    rw [List.cons_append, getLast?_cons_ne (by simp [h]) a,
      getLast?_append_right t h]

theorem findLoop_min_spec {K V : Type} (cmp : K → K → Int) :
    ∀ (fuel h : Nat) (n : BNode K V) (H : Nat) (path0 : List Nat),
      1 ≤ h → h ≤ fuel → shapeOKb h n = true →
      leavesNEb h false n = true → H = path0.length + h →
      ∃ recs0,
        (leavesOf n).get? 0 = some recs0 ∧ recs0 ≠ [] ∧
        recs0.head? = (flattenN n).head? ∧
        findRecordLoop cmp H (GKey.sent (-1)) fuel n path0 =
          some (path0 ++ List.replicate h 0, true) ∧
        leafPos n (List.replicate (h - 1) 0) = some 0
  | 0, h, n, H, path0 => by
    intro h1 hf
    omega
  | fuel + 1, h, n, H, path0 => by
    intro h1 hf hsh hnel hH
    cases n with
    | lf rs =>
      have hh1 : h = 1 := by
        cases h with
        | zero => omega
        | succ h' =>
          cases h' with
          | zero => rfl
          | succ h'' => simp [shapeOKb] at hsh
      subst hh1
      have hrsne : rs ≠ [] := by
        rw [leavesNEb] at hnel
        simp only [Bool.false_or, Bool.not_eq_true'] at hnel
        exact fun hcon => by rw [hcon] at hnel; simp at hnel
      refine ⟨rs, rfl, hrsne, by rw [flattenN_lf], ?_, rfl⟩
      rw [findRecordLoop, if_pos (by omega), locateRecord]
      rw [if_neg (by simpa using hrsne)]
      simp only [Option.bind_eq_bind, Option.some_bind, if_pos rfl]
      rfl
    | nl cs =>
      have hhe : ∃ h'', h = h'' + 2 := by
        cases h with
        | zero => omega
        | succ h' =>
          cases h' with
          | zero => simp [shapeOKb] at hsh
          | succ h'' => exact ⟨h'', rfl⟩
      obtain ⟨h'', rfl⟩ := hhe
      obtain ⟨hne, hchsh⟩ := shape_nl_parts hsh
      have hchne := leavesNE_nl_parts hnel
      cases hcs : cs with
      | nil => exact absurd hcs hne
      | cons c0 rest =>
        subst hcs
        obtain ⟨recs0, hget0, hne0, hhead0, hrun0, hlp0⟩ :=
          findLoop_min_spec cmp fuel (h'' + 1) c0.2 H (path0 ++ [0])
            (by omega) (by omega) (hchsh c0 (by simp))
            (hchne c0 (by simp)) (by rw [hH, List.length_append]; simp; omega)
        have hfl0ne : flattenN c0.2 ≠ [] := by
          intro hcon
          rw [hcon] at hhead0
          simp only [List.head?_nil] at hhead0
          rw [List.head?_eq_none_iff] at hhead0
          exact hne0 hhead0
        have hl0len : 0 < (leavesOf c0.2).length :=
          (List.get?_eq_some.mp hget0).1
        refine ⟨recs0, ?_, hne0, ?_, ?_, ?_⟩
        · rw [leavesOf_nl_cons, List.get?_append hl0len]
          exact hget0
        · rw [hhead0]
          conv_rhs => rw [flattenN, leavesOf_nl_cons, List.flatten_append]
          rw [head?_append_left _ (show (leavesOf c0.2).flatten ≠ [] from hfl0ne)]
          rfl
        · rw [findRecordLoop, if_neg (by omega), locateNodeChild]
          simp only [if_pos rfl, Option.bind_eq_bind, Option.some_bind,
            if_true, List.get?_cons_zero]
          rw [hrun0]
          simp [List.replicate_succ, List.append_assoc]
        · have hd : (h'' + 2 - 1) = (h'' + 1 - 1) + 1 := by omega
          rw [hd, List.replicate_succ, leafPos]
          simp only [List.get?_cons_zero, Option.bind_eq_bind,
            Option.some_bind, hlp0]
          rfl

theorem leavesOfL_nil {K V : Type} :
    leavesOfL ([] : List (Option (GKey K) × BNode K V)) = [] := by
  rw [leavesOfL_eq]
  rfl

theorem findLoop_max_spec {K V : Type} (cmp : K → K → Int) :
    ∀ (fuel h : Nat) (n : BNode K V) (H : Nat) (path0 : List Nat),
      1 ≤ h → h ≤ fuel → shapeOKb h n = true →
      leavesNEb h false n = true → H = path0.length + h →
      ∃ sub lp s recsL,
        findRecordLoop cmp H (GKey.sent 1) fuel n path0 =
          some (path0 ++ sub, true) ∧
        sub.length = h ∧
        leafPos n sub.dropLast = some lp ∧
        sub.getLast? = some s ∧
        lp = (leavesOf n).length - 1 ∧
        (leavesOf n).get? lp = some recsL ∧ recsL ≠ [] ∧
        s = recsL.length - 1 ∧
        recsL.getLast? = (flattenN n).getLast?
  | 0, h, n, H, path0 => by
    intro h1 hf
    omega
  | fuel + 1, h, n, H, path0 => by
    intro h1 hf hsh hnel hH
    cases n with
    | lf rs =>
      have hh1 : h = 1 := by
        cases h with
        | zero => omega
        | succ h' =>
          cases h' with
          | zero => rfl
          | succ h'' => simp [shapeOKb] at hsh
      subst hh1
      have hrsne : rs ≠ [] := by
        rw [leavesNEb] at hnel
        simp only [Bool.false_or, Bool.not_eq_true'] at hnel
        exact fun hcon => by rw [hcon] at hnel; simp at hnel
      refine ⟨[rs.length - 1], 0, rs.length - 1, rs, ?_, rfl, rfl, rfl, rfl,
        rfl, hrsne, rfl, by rw [flattenN_lf]⟩
      rw [findRecordLoop, if_pos (by omega), locateRecord]
      rw [if_neg (by simpa using hrsne)]
      simp only [Option.bind_eq_bind, Option.some_bind,
        if_neg (show ¬(1 : Int) = -1 by decide)]
    | nl cs =>
      have hhe : ∃ h'', h = h'' + 2 := by
        cases h with
        | zero => omega
        | succ h' =>
          cases h' with
          | zero => simp [shapeOKb] at hsh
          | succ h'' => exact ⟨h'', rfl⟩
      obtain ⟨h'', rfl⟩ := hhe
      obtain ⟨hne, hchsh⟩ := shape_nl_parts hsh
      have hchne := leavesNE_nl_parts hnel
      have hlen1 : 1 ≤ cs.length := by
        cases cs with
        | nil => exact absurd rfl hne
        | cons a t => simp
      cases hgl : cs.get? (cs.length - 1) with
      | none =>
        rw [List.get?_eq_none] at hgl
        omega
      | some cl =>
        have hmemL : cl ∈ cs := List.get?_mem hgl
        obtain ⟨sub', lp', s', recsL', hrun', hlen', hlpos', hlast', hlpeq',
            hget', hne', hseq', hgl'⟩ :=
          findLoop_max_spec cmp fuel (h'' + 1) cl.2 H
            (path0 ++ [cs.length - 1]) (by omega) (by omega)
            (hchsh cl hmemL) (hchne cl hmemL)
            (by rw [hH, List.length_append]; simp; omega)
        have hsubne : sub' ≠ [] := by
          intro hcon
          rw [hcon] at hlen'
          simp at hlen'
        have hlpLc : lp' < (leavesOf cl.2).length :=
          (List.get?_eq_some.mp hget').1
        have hflne : flattenN cl.2 ≠ [] := by
          intro hcon
          rw [hcon] at hgl'
          simp only [List.getLast?_nil] at hgl'
          rw [List.getLast?_eq_none_iff] at hgl'
          exact hne' hgl'
        have hdropnil : cs.drop (cs.length - 1 + 1) = [] := by
          rw [show cs.length - 1 + 1 = cs.length by omega, List.drop_length]
        have hsplitL : leavesOf (BNode.nl cs) =
            leavesOfL (cs.take (cs.length - 1)) ++ leavesOf cl.2 := by
          rw [leavesOf_nl_split hgl, hdropnil, leavesOfL_nil,
            List.append_nil]
        have hsplitF : flattenN (BNode.nl cs) =
            (leavesOfL (cs.take (cs.length - 1))).flatten ++ flattenN cl.2 := by
          rw [flattenN_as_leaves_split hgl, hdropnil, leavesOfL_nil]
          simp
        refine ⟨(cs.length - 1) :: sub',
          (leavesOfL (cs.take (cs.length - 1))).length + lp', s', recsL',
          ?_, ?_, ?_, ?_, ?_, ?_, hne', hseq', ?_⟩
        · rw [findRecordLoop, if_neg (by omega), locateNodeChild]
          simp only [if_neg (show ¬(1 : Int) = -1 by decide),
            Option.bind_eq_bind, Option.some_bind, if_true]
          rw [hgl]
          simp only [Option.some_bind]
          rw [hrun']
          simp [List.append_assoc]
        · simp [hlen']
        · rw [dropLast_cons_ne hsubne]
          rw [leafPos, hgl]
          simp only [Option.bind_eq_bind, Option.some_bind]
          rw [hlpos']
          simp only [Option.some_bind]
        · rw [getLast?_cons_ne hsubne]
          exact hlast'
        · rw [hsplitL, List.length_append, hlpeq']
          omega
        · rw [hsplitL]
          have : (leavesOfL (cs.take (cs.length - 1))).length + lp' <
              (leavesOfL (cs.take (cs.length - 1))).length +
                (leavesOf cl.2).length := by omega
          rw [List.get?_append_right (Nat.le_add_right _ _),
            Nat.add_sub_cancel_left]
          rw [hlpeq'] at hget' ⊢
          exact hget'
        · rw [hsplitF, getLast?_append_right _ hflne]
          exact hgl'

theorem flatten_get {K V : Type} :
    ∀ (leaves : List (List (Rec K V))) (l s : Nat)
      (recs : List (Rec K V)),
      leaves.get? l = some recs → s < recs.length →
      leaves.flatten.get? (leavesBefore leaves l + s) = recs.get? s
  | [], l, s, recs, hg, _ => by simp at hg
  | L0 :: rest, 0, s, recs, hg, hs => by
    simp only [List.get?_cons_zero, Option.some.injEq] at hg
    subst hg
    rw [leavesBefore]
    simp only [List.take_zero, List.map_nil, List.sum_nil, Nat.zero_add]
    rw [List.flatten_cons, List.get?_append hs]
  | L0 :: rest, l + 1, s, recs, hg, hs => by
    simp only [List.get?_cons_succ] at hg
    rw [List.flatten_cons, leavesBefore, List.take_succ_cons, List.map_cons,
      List.sum_cons]
    rw [Nat.add_assoc, List.get?_append_right (Nat.le_add_right _ _),
      Nat.add_sub_cancel_left]
    exact flatten_get rest l s recs hg hs

theorem leavesBefore_succ {K V : Type}
    {leaves : List (List (Rec K V))} {l : Nat} {recs : List (Rec K V)}
    (hg : leaves.get? l = some recs) :
    leavesBefore leaves (l + 1) = leavesBefore leaves l + recs.length := by
  rw [leavesBefore, leavesBefore, List.take_succ, List.map_append,
    List.sum_append]
  rw [List.get?_eq_getElem?] at hg
  rw [hg]
  simp

theorem leavesBefore_mono {K V : Type}
    (leaves : List (List (Rec K V)))
    (hne : ∀ L ∈ leaves, L ≠ []) :
    ∀ {l l' : Nat}, l < l' → l' < leaves.length →
      leavesBefore leaves l < leavesBefore leaves l' := by
  intro l l' hll hl'
  induction l' with
  | zero => omega
  | succ l'' ih =>
    cases hg : leaves.get? l'' with
    | none => rw [List.get?_eq_none] at hg; omega
    | some recs =>
      have hrne : recs ≠ [] := hne recs (List.get?_mem hg)
      have hrlen : 1 ≤ recs.length := by
        cases recs with
        | nil => exact absurd rfl hrne
        | cons a t => simp
      rw [leavesBefore_succ hg]
      rcases Nat.lt_or_ge l l'' with hlt | hge
      · have := ih hlt (by omega)
        omega
      · have heq : l = l'' := by omega
        subst heq
        omega

theorem pos_unique {K V : Type}
    {leaves : List (List (Rec K V))}
    (hne : ∀ L ∈ leaves, L ≠ [])
    {l s l' s' : Nat} {recs recs' : List (Rec K V)}
    (hg : leaves.get? l = some recs) (hs : s < recs.length)
    (hg' : leaves.get? l' = some recs') (hs' : s' < recs'.length)
    (heq : leavesBefore leaves l + s = leavesBefore leaves l' + s') :
    l = l' ∧ s = s' := by
  have hll : l = l' := by
    by_contra hcon
    rcases Nat.lt_or_ge l l' with hlt | hge
    · have h1 := leavesBefore_mono leaves hne (Nat.lt_succ_self l)
        (by have := (List.get?_eq_some.mp hg').1; omega)
      have h2 : leavesBefore leaves (l + 1) ≤ leavesBefore leaves l' := by
        rcases Nat.lt_or_ge (l + 1) l' with hlt2 | hge2
        · exact le_of_lt (leavesBefore_mono leaves hne hlt2
            (List.get?_eq_some.mp hg').1)
        · have : l + 1 = l' := by omega
          rw [this]
      rw [leavesBefore_succ hg] at h1 h2
      omega
    · have hlt : l' < l := by omega
      have h2 : leavesBefore leaves (l' + 1) ≤ leavesBefore leaves l := by
        rcases Nat.lt_or_ge (l' + 1) l with hlt2 | hge2
        · exact le_of_lt (leavesBefore_mono leaves hne hlt2
            (List.get?_eq_some.mp hg).1)
        · have : l' + 1 = l := by omega
          rw [this]
      rw [leavesBefore_succ hg'] at h2
      omega
  subst hll
  rw [hg] at hg'
  simp only [Option.some.injEq] at hg'
  subst hg'
  exact ⟨rfl, by omega⟩

theorem WFb_parts {K V : Type} [DecidableEq K] {cmp : K → K → Int}
    {t : BPT K V} (hwf : WFb cmp t = true) :
    3 ≤ t.maxDegree ∧ shapeOKb t.height t.root = true ∧
    sepOKb t.root = true ∧ occOKb t.maxDegree t.height true t.root = true ∧
    keysOrdb (flattenT t) = true ∧ chainLt cmp (flattenT t) = true := by
  rw [WFb] at hwf
  simp only [Bool.and_eq_true, decide_eq_true_eq] at hwf
  exact ⟨hwf.1.1.1.1.1, hwf.1.1.1.1.2, hwf.1.1.1.2, hwf.1.1.2, hwf.1.2,
    hwf.2⟩

theorem shape_height_pos {K V : Type} {h : Nat} {n : BNode K V}
    (hsh : shapeOKb h n = true) : 1 ≤ h := by
  cases h with
  | zero => cases n <;> simp [shapeOKb] at hsh
  | succ h' => omega

theorem leavesNE_of_occ_nonroot {K V : Type} {d : Nat} (hd3 : 3 ≤ d) :
    ∀ (h : Nat) (n : BNode K V), shapeOKb h n = true →
      occOKb d h false n = true → leavesNEb h false n = true
  | 1, .lf rs, _, hocc => by
    rw [occOKb] at hocc
    simp only [Bool.false_eq_true, if_false, Bool.and_eq_true,
      Bool.not_eq_true'] at hocc
    have h1 := hocc.1
    rw [recsIsSparse] at h1
    simp only [decide_eq_false_iff_not, not_le] at h1
    rw [leavesNEb]
    simp only [Bool.false_or, Bool.not_eq_true']
    cases rs with
    | nil => simp at h1
    | cons a t => rfl
  | h + 2, .nl cs, hsh, hocc => by
    obtain ⟨-, hchsh⟩ := shape_nl_parts hsh
    obtain ⟨-, hchocc⟩ := occ_nl_parts hocc
    rw [leavesNEb, List.all_eq_true]
    intro c hcm
    exact leavesNE_of_occ_nonroot hd3 (h + 1) c.2 (hchsh c hcm)
      (hchocc c hcm)
  | 1, .nl _, hsh, _ => by simp [shapeOKb] at hsh
  | 0, n, hsh, _ => by cases n <;> simp [shapeOKb] at hsh
  | h + 2, .lf _, hsh, _ => by simp [shapeOKb] at hsh

theorem flattenN_ne_of_leavesNE {K V : Type} :
    ∀ (h : Nat) (n : BNode K V), shapeOKb h n = true →
      leavesNEb h false n = true → flattenN n ≠ []
  | 1, .lf rs, _, hne => by
    rw [leavesNEb] at hne
    simp only [Bool.false_or, Bool.not_eq_true'] at hne
    rw [flattenN_lf]
    cases rs with
    | nil => simp at hne
    | cons a t => simp
  | h + 2, .nl cs, hsh, hne => by
    obtain ⟨hcne, hchsh⟩ := shape_nl_parts hsh
    have hchne := leavesNE_nl_parts hne
    cases cs with
    | nil => exact absurd rfl hcne
    | cons c0 rest =>
      have h0 := flattenN_ne_of_leavesNE (h + 1) c0.2 (hchsh c0 (by simp))
        (hchne c0 (by simp))
      rw [flattenN, leavesOf_nl_cons, List.flatten_append]
      intro hcon
      rw [List.append_eq_nil] at hcon
      exact h0 hcon.1
  | 1, .nl _, hsh, _ => by simp [shapeOKb] at hsh
  | 0, n, hsh, _ => by cases n <;> simp [shapeOKb] at hsh
  | h + 2, .lf _, hsh, _ => by simp [shapeOKb] at hsh

theorem WFb_leavesNE {K V : Type} [DecidableEq K] {cmp : K → K → Int}
    {t : BPT K V} (hwf : WFb cmp t = true) (hne : flattenT t ≠ []) :
    leavesNEb t.height false t.root = true := by
  obtain ⟨hd3, hsh, -, hocc, -, -⟩ := WFb_parts hwf
  have h1 := shape_height_pos hsh
  cases hh : t.height with
  | zero => omega
  | succ h' =>
    cases h' with
    | zero =>
      rw [hh] at hsh
      cases hroot : t.root with
      | nl cs => rw [hroot] at hsh; simp [shapeOKb] at hsh
      | lf rs =>
        rw [leavesNEb]
        simp only [Bool.false_or, Bool.not_eq_true']
        have : flattenT t = rs := by rw [flattenT_eq, hroot, flattenN_lf]
        rw [this] at hne
        cases rs with
        | nil => exact absurd rfl hne
        | cons a t => rfl
    | succ h'' =>
      rw [hh] at hsh hocc
      cases hroot : t.root with
      | lf rs => rw [hroot] at hsh; simp [shapeOKb] at hsh
      | nl cs =>
        rw [hroot] at hsh hocc
        obtain ⟨-, hchsh⟩ := shape_nl_parts hsh
        obtain ⟨-, hchocc⟩ := occ_nl_parts hocc
        rw [leavesNEb, List.all_eq_true]
        intro c hcm
        exact leavesNE_of_occ_nonroot hd3 (h'' + 1) c.2 (hchsh c hcm)
          (hchocc c hcm)

theorem WFb_empty_shape {K V : Type} [DecidableEq K] {cmp : K → K → Int}
    {t : BPT K V} (hwf : WFb cmp t = true) (hemp : flattenT t = []) :
    t.root = BNode.lf ([] : List (Rec K V)) ∧ t.height = 1 := by
  obtain ⟨hd3, hsh, -, hocc, -, -⟩ := WFb_parts hwf
  have h1 := shape_height_pos hsh
  cases hh : t.height with
  | zero => omega
  | succ h' =>
    cases h' with
    | zero =>
      rw [hh] at hsh
      cases hroot : t.root with
      | nl cs => rw [hroot] at hsh; simp [shapeOKb] at hsh
      | lf rs =>
        have : flattenT t = rs := by rw [flattenT_eq, hroot, flattenN_lf]
        rw [hemp] at this
        rw [← this]
        exact ⟨rfl, rfl⟩
    | succ h'' =>
      exfalso
      rw [hh] at hsh hocc
      cases hroot : t.root with
      | lf rs => rw [hroot] at hsh; simp [shapeOKb] at hsh
      | nl cs =>
        rw [hroot] at hsh hocc
        obtain ⟨-, hchsh⟩ := shape_nl_parts hsh
        obtain ⟨-, hchocc⟩ := occ_nl_parts hocc
        have hne : leavesNEb (h'' + 2) false (BNode.nl cs) = true := by
          rw [leavesNEb, List.all_eq_true]
          intro c hcm
          exact leavesNE_of_occ_nonroot hd3 (h'' + 1) c.2 (hchsh c hcm)
            (hchocc c hcm)
        have := flattenN_ne_of_leavesNE (h'' + 2) (BNode.nl cs) hsh hne
        rw [flattenT_eq, hroot] at hemp
        exact this hemp

theorem findRecord_min {K V : Type} [LinearOrder K] {cmp : K → K → Int}
    {t : BPT K V} (hwf : WFb cmp t = true) (hne : flattenT t ≠ []) :
    ∃ recs0,
      (leavesOf t.root).get? 0 = some recs0 ∧ recs0 ≠ [] ∧
      recs0.head? = (flattenT t).head? ∧
      findRecord cmp t KeyMin = some (List.replicate t.height 0, true) ∧
      leafPos t.root (List.replicate (t.height - 1) 0) = some 0 := by
  obtain ⟨hd3, hsh, -, -, -, -⟩ := WFb_parts hwf
  have h1 := shape_height_pos hsh
  obtain ⟨recs0, hg, hn, hh, hrun, hlp⟩ :=
    findLoop_min_spec cmp (t.height + 1) t.height t.root t.height []
      h1 (by omega) hsh (WFb_leavesNE hwf hne) (by simp)
  refine ⟨recs0, hg, hn, by rw [hh, flattenT_eq], ?_, hlp⟩
  rw [findRecord, show (KeyMin : GKey K) = GKey.sent (-1) from rfl, hrun]
  simp

theorem findRecord_max {K V : Type} [LinearOrder K] {cmp : K → K → Int}
    {t : BPT K V} (hwf : WFb cmp t = true) (hne : flattenT t ≠ []) :
    ∃ sub lp s recsL,
      findRecord cmp t KeyMax = some (sub, true) ∧
      sub.length = t.height ∧
      leafPos t.root sub.dropLast = some lp ∧
      sub.getLast? = some s ∧
      lp = (leavesOf t.root).length - 1 ∧
      (leavesOf t.root).get? lp = some recsL ∧ recsL ≠ [] ∧
      s = recsL.length - 1 ∧
      recsL.getLast? = (flattenT t).getLast? := by
  obtain ⟨hd3, hsh, -, -, -, -⟩ := WFb_parts hwf
  have h1 := shape_height_pos hsh
  obtain ⟨sub, lp, s, recsL, hrun, hlen, hlpos, hlast, hlpeq, hget, hnr,
      hseq, hgl⟩ :=
    findLoop_max_spec cmp (t.height + 1) t.height t.root t.height []
      h1 (by omega) hsh (WFb_leavesNE hwf hne) (by simp)
  refine ⟨sub, lp, s, recsL, ?_, hlen, hlpos, hlast, hlpeq, hget, hnr, hseq,
    by rw [hgl, flattenT_eq]⟩
  rw [findRecord, show (KeyMax : GKey K) = GKey.sent 1 from rfl, hrun]
  simp

theorem findRecord_ord {K V : Type} [LinearOrder K] {cmp : K → K → Int}
    (hc : LawCmp cmp) {t : BPT K V} (hwf : WFb cmp t = true) (k : K) :
    ∃ sub lp s recs,
      findRecord cmp t (GKey.ord k) =
        some (sub, (flattenT t).any fun r => decide (r.key = GKey.ord k)) ∧
      sub.length = t.height ∧
      leafPos t.root sub.dropLast = some lp ∧
      sub.getLast? = some s ∧
      (leavesOf t.root).get? lp = some recs ∧
      s ≤ recs.length ∧
      leavesBefore (leavesOf t.root) lp + s = countLt cmp (flattenT t) k ∧
      ((flattenT t).any (fun r => decide (r.key = GKey.ord k)) = true →
        s < recs.length) ∧
      ((flattenT t).any (fun r => decide (r.key = GKey.ord k)) = false →
        s = 0 → countLt cmp (flattenT t) k = 0) := by
  obtain ⟨hd3, hsh, hsep, hocc, hord, hch⟩ := WFb_parts hwf
  have h1 := shape_height_pos hsh
  rw [flattenT_eq] at hord hch
  obtain ⟨sub, lp, s, recs, hrun, hlen, hlpos, hlast, hget, hsle, hcnt, hf,
      hz⟩ :=
    findLoop_ord_spec hc hd3 (t.height + 1) t.height t.root true t.height []
      k h1 (by omega) hsh hsep hocc ((chainLt_iff cmp _).mp hch) hord
      (by simp)
  rw [flattenT_eq]
  exact ⟨sub, lp, s, recs, by rw [findRecord, hrun]; simp, hlen, hlpos,
    hlast, hget, hsle, hcnt, hf, hz⟩

theorem leavesBefore_le {K V : Type} (leaves : List (List (Rec K V)))
    {l l' : Nat} (h : l ≤ l') :
    leavesBefore leaves l ≤ leavesBefore leaves l' := by
  rw [leavesBefore, leavesBefore, show l' = l + (l' - l) by omega,
    List.take_add, List.map_append, List.sum_append]
  omega

theorem leavesBefore_full {K V : Type} (leaves : List (List (Rec K V))) :
    leavesBefore leaves leaves.length = leaves.flatten.length := by
  rw [leavesBefore, List.take_length, List.length_flatten]

theorem pos_lt_total {K V : Type} {leaves : List (List (Rec K V))}
    {l s : Nat} {recs : List (Rec K V)} (hg : leaves.get? l = some recs)
    (hs : s < recs.length) :
    leavesBefore leaves l + s < leaves.flatten.length := by
  have hl : l < leaves.length := (List.get?_eq_some.mp hg).1
  have h1 : leavesBefore leaves (l + 1) ≤ leavesBefore leaves leaves.length :=
    leavesBefore_le leaves (by omega)
  rw [leavesBefore_succ hg] at h1
  rw [← leavesBefore_full]
  omega

theorem iterListF_slice {K V : Type} (leaves : List (List (Rec K V)))
    (hne : ∀ L ∈ leaves, L ≠ []) :
    ∀ (cnt fuel g1 l1 s1 l2 s2 : Nat)
      (recs1 recs2 : List (Rec K V)),
      leaves.get? l1 = some recs1 → s1 < recs1.length →
      leavesBefore leaves l1 + s1 = g1 →
      leaves.get? l2 = some recs2 → s2 < recs2.length →
      leavesBefore leaves l2 + s2 = g1 + cnt →
      cnt + 2 ≤ fuel →
      iterListF leaves fuel ⟨l1, s1, l2, s2, false⟩ =
        some (((leaves.flatten.drop g1).take (cnt + 1)).map
          fun r => (r.key, r.val))
  | 0, fuel, g1, l1, s1, l2, s2, recs1, recs2 => by
    intro hg1 hs1 hb1 hg2 hs2 hb2 hfuel
    obtain ⟨hll, hss⟩ := pos_unique hne hg1 hs1 hg2 hs2 (by omega)
    subst hll
    subst hss
    obtain ⟨f, rfl⟩ : ∃ f, fuel = f + 2 := ⟨fuel - 2, by omega⟩
    obtain ⟨r1, hr1⟩ : ∃ r1, recs1.get? s1 = some r1 := by
      cases hx : recs1.get? s1 with
      | none => rw [List.get?_eq_none] at hx; omega
      | some r => exact ⟨r, rfl⟩
    have hread : iterRecord leaves (⟨l1, s1, l1, s1, false⟩ : IterSt) =
        some ((r1.key, r1.val) : GKey K × V) := by
      rw [iterRecord, if_neg (by simp), hg1]
      simp only [Option.bind_eq_bind, Option.some_bind, hr1]
    have hadv : iterAdvanceF leaves (⟨l1, s1, l1, s1, false⟩ : IterSt) =
        some ⟨0, 0, 0, 0, true⟩ := by
      simp [iterAdvanceF, iterStop]
    rw [iterListF, if_neg (by simp)]
    simp only [Option.bind_eq_bind]
    rw [hread]
    simp only [Option.some_bind]
    rw [hadv]
    simp only [Option.some_bind]
    rw [iterListF]
    simp only [if_pos rfl, Option.some_bind]
    have hflat : leaves.flatten.get? g1 = some r1 := by
      rw [← hb1]
      rw [flatten_get leaves l1 s1 recs1 hg1 hs1]
      exact hr1
    have hlt : g1 < leaves.flatten.length := (List.get?_eq_some.mp hflat).1
    rw [List.drop_eq_getElem_cons hlt]
    have : leaves.flatten[g1] = r1 := by
      have := hflat
      rw [List.get?_eq_getElem? ] at this
      rw [List.getElem?_eq_getElem hlt] at this
      simpa using this
    rw [this]
    simp
  | cnt + 1, fuel, g1, l1, s1, l2, s2, recs1, recs2 => by
    intro hg1 hs1 hb1 hg2 hs2 hb2 hfuel
    obtain ⟨f, rfl⟩ : ∃ f, fuel = f + 1 := ⟨fuel - 1, by omega⟩
    have hneq : ¬(l1 = l2 ∧ s1 = s2) := by
      rintro ⟨rfl, rfl⟩
      omega
    obtain ⟨r1, hr1⟩ : ∃ r1, recs1.get? s1 = some r1 := by
      cases hx : recs1.get? s1 with
      | none => rw [List.get?_eq_none] at hx; omega
      | some r => exact ⟨r, rfl⟩
    have hread : iterRecord leaves (⟨l1, s1, l2, s2, false⟩ : IterSt) =
        some ((r1.key, r1.val) : GKey K × V) := by
      rw [iterRecord, if_neg (by simp), hg1]
      simp only [Option.bind_eq_bind, Option.some_bind, hr1]
    have hflat : leaves.flatten.get? g1 = some r1 := by
      rw [← hb1, flatten_get leaves l1 s1 recs1 hg1 hs1]
      exact hr1
    have hltg1 : g1 < leaves.flatten.length := (List.get?_eq_some.mp hflat).1
    have hg2tot : g1 + (cnt + 1) < leaves.flatten.length := by
      rw [← hb2]
      exact pos_lt_total hg2 hs2
    -- the successor position
    have hstep : ∃ l1' s1' recs1',
        iterAdvanceF leaves (⟨l1, s1, l2, s2, false⟩ : IterSt) =
          some ⟨l1', s1', l2, s2, false⟩ ∧
        leaves.get? l1' = some recs1' ∧ s1' < recs1'.length ∧
        leavesBefore leaves l1' + s1' = g1 + 1 := by
      rcases Nat.lt_or_ge s1 (recs1.length - 1) with hlt | hge
      · refine ⟨l1, s1 + 1, recs1, ?_, hg1, by omega, by omega⟩
        rw [iterAdvanceF, iterStop, if_neg hneq, if_neg (by simp)]
        simp only [Option.bind_eq_bind]
        rw [hg1]
        simp only [Option.some_bind]
        rw [if_pos hlt]
      · have hs1e : s1 = recs1.length - 1 := by omega
        have hbnext : leavesBefore leaves (l1 + 1) = g1 + 1 := by
          rw [leavesBefore_succ hg1]
          have : 1 ≤ recs1.length := by omega
          omega
        have hl1len : l1 + 1 < leaves.length := by
          by_contra hcon
          have hl1 : l1 < leaves.length := (List.get?_eq_some.mp hg1).1
          have : l1 + 1 = leaves.length := by omega
          rw [this] at hbnext
          rw [leavesBefore_full] at hbnext
          omega
        obtain ⟨recs1', hg1'⟩ : ∃ x, leaves.get? (l1 + 1) = some x := by
          cases hx : leaves.get? (l1 + 1) with
          | none => rw [List.get?_eq_none] at hx; omega
          | some x => exact ⟨x, rfl⟩
        have hr1'len : 1 ≤ recs1'.length := by
          have := hne recs1' (List.get?_mem hg1')
          cases recs1' with
          | nil => exact absurd rfl this
          | cons a t => simp
        refine ⟨l1 + 1, 0, recs1', ?_, hg1', by omega, by omega⟩
        rw [iterAdvanceF, iterStop, if_neg hneq, if_neg (by simp)]
        simp only [Option.bind_eq_bind]
        rw [hg1]
        simp only [Option.some_bind]
        rw [if_neg (by omega)]
        have : (l1 + 1) % leaves.length = l1 + 1 :=
          Nat.mod_eq_of_lt hl1len
        rw [this]
    obtain ⟨l1', s1', recs1', hadv, hg1', hs1', hb1'⟩ := hstep
    have hrest := iterListF_slice leaves hne cnt f (g1 + 1) l1' s1' l2 s2
      recs1' recs2 hg1' hs1' hb1' hg2 hs2 (by omega) (by omega)
    rw [iterListF, if_neg (by simp)]
    simp only [Option.bind_eq_bind]
    rw [hread]
    simp only [Option.some_bind]
    rw [hadv]
    simp only [Option.some_bind]
    rw [hrest]
    simp only [Option.some_bind]
    rw [List.drop_eq_getElem_cons hltg1]
    have hg1e : leaves.flatten[g1] = r1 := by
      have := hflat
      rw [List.get?_eq_getElem?, List.getElem?_eq_getElem hltg1] at this
      simpa using this
    rw [hg1e]
    rw [List.take_succ_cons, List.map_cons]

theorem iterListB_slice {K V : Type} (leaves : List (List (Rec K V)))
    (hne : ∀ L ∈ leaves, L ≠ []) :
    ∀ (cnt fuel g1 l1 s1 l2 s2 : Nat)
      (recs1 recs2 : List (Rec K V)),
      leaves.get? l1 = some recs1 → s1 < recs1.length →
      leavesBefore leaves l1 + s1 = g1 →
      leaves.get? l2 = some recs2 → s2 < recs2.length →
      leavesBefore leaves l2 + s2 = g1 + cnt →
      cnt + 2 ≤ fuel →
      iterListB leaves fuel ⟨l2, s2, l1, s1, false⟩ =
        some ((((leaves.flatten.drop g1).take (cnt + 1)).map
          fun r => (r.key, r.val)).reverse)
  | 0, fuel, g1, l1, s1, l2, s2, recs1, recs2 => by
    intro hg1 hs1 hb1 hg2 hs2 hb2 hfuel
    obtain ⟨hll, hss⟩ := pos_unique hne hg1 hs1 hg2 hs2 (by omega)
    subst hll
    subst hss
    obtain ⟨f, rfl⟩ : ∃ f, fuel = f + 2 := ⟨fuel - 2, by omega⟩
    obtain ⟨r1, hr1⟩ : ∃ r1, recs1.get? s1 = some r1 := by
      cases hx : recs1.get? s1 with
      | none => rw [List.get?_eq_none] at hx; omega
      | some r => exact ⟨r, rfl⟩
    have hread : iterRecord leaves (⟨l1, s1, l1, s1, false⟩ : IterSt) =
        some ((r1.key, r1.val) : GKey K × V) := by
      rw [iterRecord, if_neg (by simp), hg1]
      simp only [Option.bind_eq_bind, Option.some_bind, hr1]
    have hadv : iterAdvanceB leaves (⟨l1, s1, l1, s1, false⟩ : IterSt) =
        some ⟨0, 0, 0, 0, true⟩ := by
      simp [iterAdvanceB, iterStop]
    rw [iterListB, if_neg (by simp)]
    simp only [Option.bind_eq_bind]
    rw [hread]
    simp only [Option.some_bind]
    rw [hadv]
    simp only [Option.some_bind]
    rw [iterListB]
    simp only [if_pos rfl, Option.some_bind]
    have hflat : leaves.flatten.get? g1 = some r1 := by
      rw [← hb1, flatten_get leaves l1 s1 recs1 hg1 hs1]
      exact hr1
    have hlt : g1 < leaves.flatten.length := (List.get?_eq_some.mp hflat).1
    rw [List.drop_eq_getElem_cons hlt]
    have : leaves.flatten[g1] = r1 := by
      have := hflat
      rw [List.get?_eq_getElem?, List.getElem?_eq_getElem hlt] at this
      simpa using this
    rw [this]
    simp
  | cnt + 1, fuel, g1, l1, s1, l2, s2, recs1, recs2 => by
    intro hg1 hs1 hb1 hg2 hs2 hb2 hfuel
    obtain ⟨f, rfl⟩ : ∃ f, fuel = f + 1 := ⟨fuel - 1, by omega⟩
    have hneq : ¬(l2 = l1 ∧ s2 = s1) := by
      rintro ⟨rfl, rfl⟩
      omega
    obtain ⟨r2, hr2⟩ : ∃ r2, recs2.get? s2 = some r2 := by
      cases hx : recs2.get? s2 with
      | none => rw [List.get?_eq_none] at hx; omega
      | some r => exact ⟨r, rfl⟩
    have hread : iterRecord leaves (⟨l2, s2, l1, s1, false⟩ : IterSt) =
        some ((r2.key, r2.val) : GKey K × V) := by
      rw [iterRecord, if_neg (by simp), hg2]
      simp only [Option.bind_eq_bind, Option.some_bind, hr2]
    have hflat2 : leaves.flatten.get? (g1 + (cnt + 1)) = some r2 := by
      rw [← hb2, flatten_get leaves l2 s2 recs2 hg2 hs2]
      exact hr2
    have hltg2 : g1 + (cnt + 1) < leaves.flatten.length :=
      (List.get?_eq_some.mp hflat2).1
    have hstep : ∃ l2' s2' recs2',
        iterAdvanceB leaves (⟨l2, s2, l1, s1, false⟩ : IterSt) =
          some ⟨l2', s2', l1, s1, false⟩ ∧
        leaves.get? l2' = some recs2' ∧ s2' < recs2'.length ∧
        leavesBefore leaves l2' + s2' = g1 + cnt := by
      rcases Nat.lt_or_ge 0 s2 with hpos | hzero
      · refine ⟨l2, s2 - 1, recs2, ?_, hg2, by omega, by omega⟩
        rw [iterAdvanceB, iterStop, if_neg hneq, if_neg (by simp),
          if_pos (show (⟨l2, s2, l1, s1, false⟩ : IterSt).curIdx ≥ 1 by
            show s2 ≥ 1
            omega)]
      · have hs2e : s2 = 0 := by omega
        have hl2pos : 1 ≤ l2 := by
          by_contra hcon
          have : l2 = 0 := by omega
          rw [this, hs2e] at hb2
          rw [leavesBefore] at hb2
          simp at hb2
          omega
        obtain ⟨recs2', hg2'⟩ : ∃ x, leaves.get? (l2 - 1) = some x := by
          cases hx : leaves.get? (l2 - 1) with
          | none =>
            rw [List.get?_eq_none] at hx
            have := (List.get?_eq_some.mp hg2).1
            omega
          | some x => exact ⟨x, rfl⟩
        have hr2'len : 1 ≤ recs2'.length := by
          have := hne recs2' (List.get?_mem hg2')
          cases recs2' with
          | nil => exact absurd rfl this
          | cons a t => simp
        have hbprev : leavesBefore leaves (l2 - 1) + recs2'.length =
            leavesBefore leaves l2 := by
          have := leavesBefore_succ hg2'
          rw [show l2 - 1 + 1 = l2 by omega] at this
          omega
        refine ⟨l2 - 1, recs2'.length - 1, recs2', ?_, hg2', by omega,
          by omega⟩
        rw [iterAdvanceB, iterStop, if_neg hneq, if_neg (by simp),
          if_neg (by simp [hs2e])]
        simp only [Option.bind_eq_bind]
        rw [if_neg (show ¬(⟨l2, s2, l1, s1, false⟩ : IterSt).curLeaf = 0 by
          show ¬l2 = 0
          omega)]
        rw [hg2']
        simp only [Option.some_bind]
    obtain ⟨l2', s2', recs2', hadv, hg2', hs2', hb2'⟩ := hstep
    have hrest := iterListB_slice leaves hne cnt f g1 l1 s1 l2' s2'
      recs1 recs2' hg1 hs1 hb1 hg2' hs2' hb2' (by omega)
    rw [iterListB, if_neg (by simp)]
    simp only [Option.bind_eq_bind]
    rw [hread]
    simp only [Option.some_bind]
    rw [hadv]
    simp only [Option.some_bind]
    rw [hrest]
    simp only [Option.some_bind]
    have htake : (leaves.flatten.drop g1).take (cnt + 1 + 1) =
        (leaves.flatten.drop g1).take (cnt + 1) ++ [r2] := by
      rw [List.take_succ]
      congr 1
      rw [List.getElem?_drop]
      rw [List.get?_eq_getElem?] at hflat2
      rw [hflat2]
      rfl
    rw [htake, List.map_append, List.reverse_append]
    rfl

theorem leaves_forall_ne {K V : Type} :
    ∀ (h : Nat) (n : BNode K V), shapeOKb h n = true →
      leavesNEb h false n = true → ∀ L ∈ leavesOf n, L ≠ []
  | 1, .lf rs, _, hnel => by
    rw [leavesNEb] at hnel
    simp only [Bool.false_or, Bool.not_eq_true'] at hnel
    intro L hL
    rw [leavesOf] at hL
    simp only [List.mem_singleton] at hL
    subst hL
    intro hcon
    rw [hcon] at hnel
    simp at hnel
  | h + 2, .nl cs, hsh, hnel => by
    obtain ⟨-, hchsh⟩ := shape_nl_parts hsh
    have hchne := leavesNE_nl_parts hnel
    intro L hL
    rw [leavesOf_nl, List.mem_flatten] at hL
    obtain ⟨ls, hls, hLls⟩ := hL
    rw [List.mem_map] at hls
    obtain ⟨c, hcm, hceq⟩ := hls
    exact leaves_forall_ne (h + 1) c.2 (hchsh c hcm) (hchne c hcm) L
      (hceq ▸ hLls)
  | 1, .nl _, hsh, _ => by simp [shapeOKb] at hsh
  | 0, n, hsh, _ => by cases n <;> simp [shapeOKb] at hsh
  | h + 2, .lf _, hsh, _ => by simp [shapeOKb] at hsh

theorem WFb_leaves_ne {K V : Type} [DecidableEq K] {cmp : K → K → Int}
    {t : BPT K V} (hwf : WFb cmp t = true) (hne : flattenT t ≠ []) :
    ∀ L ∈ leavesOf t.root, L ≠ [] := by
  obtain ⟨-, hsh, -, -, -, -⟩ := WFb_parts hwf
  exact leaves_forall_ne t.height t.root hsh (WFb_leavesNE hwf hne)

theorem single_record_leaves {K V : Type}
    {leaves : List (List (Rec K V))} (hne : ∀ L ∈ leaves, L ≠ [])
    (h1 : leaves.flatten.length = 1) :
    leaves.length = 1 := by
  cases hl : leaves with
  | nil => rw [hl] at h1; simp at h1
  | cons L0 rest =>
    cases hr : rest with
    | nil => rfl
    | cons L1 rest2 =>
      exfalso
      subst hl
      subst hr
      have h0 : L0 ≠ [] := hne L0 (by simp)
      have hh1 : L1 ≠ [] := hne L1 (by simp)
      have hl0 : 1 ≤ L0.length := by
        cases L0 with
        | nil => exact absurd rfl h0
        | cons a t => simp
      have hl1 : 1 ≤ L1.length := by
        cases L1 with
        | nil => exact absurd rfl hh1
        | cons a t => simp
      simp only [List.flatten_cons, List.length_append] at h1
      omega

theorem get?_zero_eq_head {α : Type} (l : List α) : l.get? 0 = l.head? := by
  cases l <;> rfl

theorem get?_last_eq_getLast {α : Type} :
    ∀ l : List α, l ≠ [] → l.get? (l.length - 1) = l.getLast?
  | [], h => absurd rfl h
  | [a], _ => rfl
  | a :: b :: t, _ => by
    rw [getLast?_cons_ne (by simp) a]
    have h1 : (a :: b :: t).length - 1 = (b :: t).length - 1 + 1 := by
      simp
    rw [h1, List.get?_cons_succ]
    exact get?_last_eq_getLast (b :: t) (by simp)

theorem sorted_head_last {K : Type} [LinearOrder K] {V : Type}
    {cmp : K → K → Int} (hc : LawCmp cmp) {F : List (Rec K V)}
    (hch : List.Chain' (fun a b => recLt cmp a b = true) F)
    (hord : keysOrdb F = true) (hne : F ≠ []) :
    ∃ r0 rL x0 xL, F.head? = some r0 ∧ F.getLast? = some rL ∧
      r0.key = GKey.ord x0 ∧ rL.key = GKey.ord xL ∧ cmp x0 xL ≤ 0 ∧
      (cmp x0 xL = 0 → F.length = 1) := by
  have hlen : 1 ≤ F.length := by
    cases F with
    | nil => exact absurd rfl hne
    | cons a t => simp
  obtain ⟨r0, hr0⟩ : ∃ r0, F.get? 0 = some r0 := by
    cases hx : F.get? 0 with
    | none => rw [List.get?_eq_none] at hx; omega
    | some r => exact ⟨r, rfl⟩
  obtain ⟨rL, hrL⟩ : ∃ rL, F.get? (F.length - 1) = some rL := by
    cases hx : F.get? (F.length - 1) with
    | none => rw [List.get?_eq_none] at hx; omega
    | some r => exact ⟨r, rfl⟩
  obtain ⟨x0, hx0⟩ := keysOrdb_mem hord (List.get?_mem hr0)
  obtain ⟨xL, hxL⟩ := keysOrdb_mem hord (List.get?_mem hrL)
  refine ⟨r0, rL, x0, xL, by rw [← get?_zero_eq_head]; exact hr0,
    by rw [← get?_last_eq_getLast F hne]; exact hrL, hx0, hxL, ?_, ?_⟩
  · rcases Nat.lt_or_ge F.length 2 with hN1 | hN2
    · have : (0 : Nat) = F.length - 1 := by omega
      rw [← this] at hrL
      rw [hr0] at hrL
      simp only [Option.some.injEq] at hrL
      subst hrL
      rw [hx0] at hxL
      have : x0 = xL := by simpa using hxL
      subst this
      have := (hc.eq_iff x0 x0).mpr rfl
      omega
    · have hpw := sorted_pairwise hc hch
      have := pairwise_get hpw (show 0 < F.length - 1 by omega) hr0 hrL
      rw [recLt, hx0, hxL] at this
      simp only [decide_eq_true_eq] at this
      omega
  · intro heq
    by_contra hcon
    have hN2 : 2 ≤ F.length := by omega
    have hpw := sorted_pairwise hc hch
    have := pairwise_get hpw (show 0 < F.length - 1 by omega) hr0 hrL
    rw [recLt, hx0, hxL] at this
    simp only [decide_eq_true_eq] at this
    omega

theorem FL_minmax {K V : Type} [LinearOrder K] {cmp : K → K → Int}
    (hc : LawCmp cmp) {t : BPT K V} (hwf : WFb cmp t = true)
    (hne : flattenT t ≠ []) :
    ∃ lpL sL recs0 recsL,
      findAndLocateRecords cmp t (GKey.sent (-1)) (GKey.sent 1) =
        some (0, 0, lpL, sL, true) ∧
      (leavesOf t.root).get? 0 = some recs0 ∧ 0 < recs0.length ∧
      lpL = (leavesOf t.root).length - 1 ∧
      (leavesOf t.root).get? lpL = some recsL ∧ 0 < recsL.length ∧
      sL = recsL.length - 1 := by
  obtain ⟨recs0, hg0, hne0, hhead0, hfrMin, hlp0⟩ := findRecord_min hwf hne
  obtain ⟨subM, lpM, sM, recsL, hfrMax, hlenM, hlposM, hlastM, hlpeqM,
      hgetM, hneL, hseqM, hglM⟩ := findRecord_max hwf hne
  obtain ⟨hd3, hsh, hsep, hocc, hord, hchB⟩ := WFb_parts hwf
  have h1 := shape_height_pos hsh
  have hch := (chainLt_iff cmp _).mp hchB
  obtain ⟨r0, rL, x0, xL, hr0, hrL, hx0, hxL, hle, hone⟩ :=
    sorted_head_last hc hch hord hne
  have hfrMin' : findRecord cmp t (GKey.sent (-1)) =
      some (List.replicate t.height 0, true) := hfrMin
  have hfrMax' : findRecord cmp t (GKey.sent 1) = some (subM, true) := hfrMax
  have hlp0' : leafPos t.root (List.replicate t.height 0).dropLast =
      some 0 := by
    rw [replicate_dropLast]
    exact hlp0
  have hlast0 : (List.replicate t.height 0).getLast? = some 0 :=
    replicate_getLast 0 t.height h1
  have hr0get : recs0.get? 0 = some r0 := by
    rw [get?_zero_eq_head, hhead0, hr0]
  have hrLget : recsL.get? sM = some rL := by
    rw [hseqM, get?_last_eq_getLast recsL hneL, hglM, hrL]
  have hlen0 : 0 < recs0.length := by
    cases recs0 with
    | nil => exact absurd rfl hne0
    | cons a tl => simp
  have hlenL : 0 < recsL.length := by
    cases recsL with
    | nil => exact absurd rfl hneL
    | cons a tl => simp
  refine ⟨lpM, sM, recs0, recsL, ?_, hg0, hlen0, hlpeqM, hgetM, hlenL, hseqM⟩
  rw [findAndLocateRecords]
  simp only []
  rw [if_neg (show ¬(-1 : Int) = 1 by decide)]
  rw [hfrMin']
  simp only [Option.bind_eq_bind, Option.some_bind]
  rw [hlp0']
  simp only [Option.some_bind]
  rw [hlast0]
  simp only [Option.some_bind]
  rw [hg0]
  simp only [Option.some_bind, Bool.not_true, Bool.false_and,
    Bool.false_eq_true, if_false, Option.elim_some]
  rw [if_neg (show ¬(-1 : Int) = 0 by decide)]
  simp only [Bool.true_or, if_true]
  rw [hg0]
  simp only [Option.some_bind]
  rw [hr0get]
  simp only [Option.some_bind, Bool.not_true, Bool.false_eq_true, if_false]
  rw [findAndLocateRecords.findAndLocateMax]
  rw [hfrMax']
  simp only [Option.bind_eq_bind, Option.some_bind]
  rw [hlposM]
  simp only [Option.some_bind]
  rw [hlastM]
  simp only [Option.some_bind, if_true, Bool.true_or]
  rw [hgetM]
  simp only [Option.some_bind]
  rw [hrLget]
  simp only [Option.some_bind]
  rw [hx0, hxL]
  simp only [cmpG, Option.some_bind]
  rcases eq_or_lt_of_le hle with heq | hlt
  · rw [if_pos heq]
    have hN1 : (flattenT t).length = 1 := hone heq
    have hL1 : (leavesOf t.root).length = 1 :=
      single_record_leaves (WFb_leaves_ne hwf hne) hN1
    have hlpM0 : lpM = 0 := by omega
    have hrecsLlen : recsL.length = 1 := by
      have hpt := pos_lt_total hgetM (show sM < recsL.length by omega)
      have : (leavesOf t.root).flatten.length = 1 := hN1
      omega
    have hsM0 : sM = 0 := by omega
    rw [hlpM0, hsM0]
  · rw [if_neg (by omega), if_neg (by omega)]

theorem FL_maxmin {K V : Type} [LinearOrder K] {cmp : K → K → Int}
    (hc : LawCmp cmp) {t : BPT K V} (hwf : WFb cmp t = true)
    (hne : flattenT t ≠ []) :
    ∃ res, findAndLocateRecords cmp t (GKey.sent 1) (GKey.sent (-1)) =
      some res ∧
      (2 ≤ (flattenT t).length → res = (0, 0, 0, 0, false)) := by
  obtain ⟨recs0, hg0, hne0, hhead0, hfrMin, hlp0⟩ := findRecord_min hwf hne
  obtain ⟨subM, lpM, sM, recsL, hfrMax, hlenM, hlposM, hlastM, hlpeqM,
      hgetM, hneL, hseqM, hglM⟩ := findRecord_max hwf hne
  obtain ⟨hd3, hsh, hsep, hocc, hord, hchB⟩ := WFb_parts hwf
  have h1 := shape_height_pos hsh
  have hch := (chainLt_iff cmp _).mp hchB
  obtain ⟨r0, rL, x0, xL, hr0, hrL, hx0, hxL, hle, hone⟩ :=
    sorted_head_last hc hch hord hne
  have hfrMin' : findRecord cmp t (GKey.sent (-1)) =
      some (List.replicate t.height 0, true) := hfrMin
  have hfrMax' : findRecord cmp t (GKey.sent 1) = some (subM, true) := hfrMax
  have hlp0' : leafPos t.root (List.replicate t.height 0).dropLast =
      some 0 := by
    rw [replicate_dropLast]
    exact hlp0
  have hlast0 : (List.replicate t.height 0).getLast? = some 0 :=
    replicate_getLast 0 t.height h1
  have hr0get : recs0.get? 0 = some r0 := by
    rw [get?_zero_eq_head, hhead0, hr0]
  have hrLget : recsL.get? sM = some rL := by
    rw [hseqM, get?_last_eq_getLast recsL hneL, hglM, hrL]
  have hrun : findAndLocateRecords cmp t (GKey.sent 1) (GKey.sent (-1)) =
      if cmp xL x0 = 0 then some (lpM, sM, lpM, sM, true)
      else if cmp xL x0 > 0 then some (0, 0, 0, 0, false)
      else some (lpM, sM, 0, 0, true) := by
    rw [findAndLocateRecords]
    simp only []
    rw [if_neg (show ¬(1 : Int) = -1 by decide)]
    rw [hfrMax']
    simp only [Option.bind_eq_bind, Option.some_bind]
    rw [hlposM]
    simp only [Option.some_bind]
    rw [hlastM]
    simp only [Option.some_bind]
    rw [hgetM]
    simp only [Option.some_bind, Bool.not_true, Bool.false_and,
      Bool.false_eq_true, if_false, Option.elim_some]
    rw [if_neg (show ¬(-1 : Int) = 0 by decide)]
    simp only [Bool.true_or, if_true]
    rw [hgetM]
    simp only [Option.some_bind]
    rw [hrLget]
    simp only [Option.some_bind, Bool.not_true, Bool.false_eq_true, if_false]
    rw [findAndLocateRecords.findAndLocateMax]
    rw [hfrMin']
    simp only [Option.bind_eq_bind, Option.some_bind]
    rw [hlp0']
    simp only [Option.some_bind]
    rw [hlast0]
    simp only [Option.some_bind, if_true, Bool.true_or]
    rw [hg0]
    simp only [Option.some_bind]
    rw [hr0get]
    simp only [Option.some_bind]
    rw [hxL, hx0]
    simp only [cmpG, Option.some_bind]
  rcases eq_or_lt_of_le hle with heq | hlt
  · have heq' : cmp xL x0 = 0 := by
      have hx : x0 = xL := (hc.eq_iff x0 xL).mp heq
      rw [hx]
      exact (hc.eq_iff xL xL).mpr rfl
    refine ⟨(lpM, sM, lpM, sM, true), ?_, ?_⟩
    · rw [hrun, if_pos heq']
    · intro hN2
      exfalso
      have := hone heq
      omega
  · have hgt : 0 < cmp xL x0 := by
      have hx : x0 < xL := (hc.lt_iff x0 xL).mp hlt
      exact (hc.gt_iff xL x0).mpr hx
    refine ⟨(0, 0, 0, 0, false), ?_, fun _ => rfl⟩
    rw [hrun, if_neg (by omega), if_pos hgt]

theorem FL_minmin {K V : Type} [LinearOrder K] {cmp : K → K → Int}
    {t : BPT K V} (hwf : WFb cmp t = true) (hne : flattenT t ≠ []) :
    findAndLocateRecords cmp t (GKey.sent (-1)) (GKey.sent (-1)) =
      some (0, 0, 0, 0, true) := by
  obtain ⟨recs0, hg0, hne0, hhead0, hfrMin, hlp0⟩ := findRecord_min hwf hne
  obtain ⟨hd3, hsh, -, -, -, -⟩ := WFb_parts hwf
  have h1 := shape_height_pos hsh
  have hfrMin' : findRecord cmp t (GKey.sent (-1)) =
      some (List.replicate t.height 0, true) := hfrMin
  have hlp0' : leafPos t.root (List.replicate t.height 0).dropLast =
      some 0 := by
    rw [replicate_dropLast]
    exact hlp0
  have hlast0 : (List.replicate t.height 0).getLast? = some 0 :=
    replicate_getLast 0 t.height h1
  rw [findAndLocateRecords]
  simp only []
  rw [hfrMin']
  simp only [Option.bind_eq_bind, Option.some_bind]
  rw [hlp0']
  simp only [Option.some_bind]
  rw [hlast0]
  simp only [Option.some_bind]
  rw [hg0]
  simp only [Option.some_bind, Bool.not_true, Bool.false_and,
    Bool.false_eq_true, if_false, Option.elim_some, if_true]

theorem FL_maxmax {K V : Type} [LinearOrder K] {cmp : K → K → Int}
    {t : BPT K V} (hwf : WFb cmp t = true) (hne : flattenT t ≠ []) :
    ∃ lpL sL recsL,
      findAndLocateRecords cmp t (GKey.sent 1) (GKey.sent 1) =
        some (lpL, sL, lpL, sL, true) ∧
      lpL = (leavesOf t.root).length - 1 ∧
      (leavesOf t.root).get? lpL = some recsL ∧ 0 < recsL.length ∧
      sL = recsL.length - 1 := by
  obtain ⟨subM, lpM, sM, recsL, hfrMax, hlenM, hlposM, hlastM, hlpeqM,
      hgetM, hneL, hseqM, hglM⟩ := findRecord_max hwf hne
  have hfrMax' : findRecord cmp t (GKey.sent 1) = some (subM, true) := hfrMax
  have hlenL : 0 < recsL.length := by
    cases recsL with
    | nil => exact absurd rfl hneL
    | cons a tl => simp
  refine ⟨lpM, sM, recsL, ?_, hlpeqM, hgetM, hlenL, hseqM⟩
  rw [findAndLocateRecords]
  simp only []
  rw [hfrMax']
  simp only [Option.bind_eq_bind, Option.some_bind]
  rw [hlposM]
  simp only [Option.some_bind]
  rw [hlastM]
  simp only [Option.some_bind]
  rw [hgetM]
  simp only [Option.some_bind, Bool.not_true, Bool.false_and,
    Bool.false_eq_true, if_false, Option.elim_some, if_true]

theorem FL_empty {K V : Type} {cmp : K → K → Int} {t : BPT K V}
    (hroot : t.root = BNode.lf ([] : List (Rec K V))) (hh : t.height = 1)
    (a b : GKey K) :
    findAndLocateRecords cmp t a b = some (0, 0, 0, 0, false) := by
  obtain ⟨d0, rt, ht⟩ := t
  simp only at hroot hh
  subst hroot
  subst hh
  cases a with
  | sent x =>
    cases b with
    | sent y => rfl
    | ord y => rfl
  | ord x =>
    cases b with
    | sent y => rfl
    | ord y =>
      rw [findAndLocateRecords]
      simp only []
      by_cases hd : cmp x y > 0
      · rw [if_pos hd]
      · rw [if_neg hd]
        rfl

theorem sorted_found_at {K : Type} [LinearOrder K] {V : Type}
    {cmp : K → K → Int} (hc : LawCmp cmp) {F : List (Rec K V)}
    (hch : List.Chain' (fun a b => recLt cmp a b = true) F) {a : K}
    (hany : (F.any fun r => decide (r.key = GKey.ord a)) = true) :
    ∃ r, F.get? (countLt cmp F a) = some r ∧ r.key = GKey.ord a := by
  have hpw := sorted_pairwise hc hch
  rw [List.any_eq_true] at hany
  obtain ⟨r, hrm, hrk⟩ := hany
  simp only [decide_eq_true_eq] at hrk
  obtain ⟨idx, hidx⟩ := List.mem_iff_get?.mp hrm
  have hnotlt : recKeyLtb cmp r a = false := by
    rw [recKeyLtb, hrk]
    simp only [decide_eq_false_iff_not, not_lt]
    have := (hc.eq_iff a a).mpr rfl
    omega
  have hub : countLt cmp F a ≤ idx := by
    by_contra hcon
    rw [(sorted_lt_iff_pos hc hpw hidx).mpr (by omega)] at hnotlt
    cases hnotlt
  have hlb : idx ≤ countLt cmp F a := by
    rw [countLt]
    have : ∀ j, j < idx → ∀ b, F.get? j = some b →
        recKeyLtb cmp b a = true := by
      intro j hj b hb
      exact recKeyLtb_of_recLt_eq (pairwise_get hpw hj hb hidx) hrk
    -- the first idx elements all satisfy the predicate
    have htake : ∀ b ∈ F.take idx, recKeyLtb cmp b a = true := by
      intro b hbm
      obtain ⟨j, hj⟩ := List.mem_iff_get?.mp hbm
      have hjlt : j < (F.take idx).length := (List.get?_eq_some.mp hj).1
      rw [List.length_take] at hjlt
      have hjidx : j < idx := lt_of_lt_of_le hjlt (min_le_left _ _)
      refine this j hjidx b ?_
      rw [← List.get?_take hjidx]
      exact hj
    have hidxlen : idx ≤ F.length := by
      have := (List.get?_eq_some.mp hidx).1
      omega
    calc idx = (F.take idx).countP (recKeyLtb cmp · a) := by
          rw [List.countP_eq_length.mpr htake, List.length_take]
          omega
      _ ≤ F.countP (recKeyLtb cmp · a) := by
          conv_rhs => rw [← List.take_append_drop idx F]
          rw [List.countP_append]
          omega
  have heq : idx = countLt cmp F a := by omega
  exact ⟨r, heq ▸ hidx, hrk⟩

theorem min_ord_adjust {K V : Type} [LinearOrder K] {cmp : K → K → Int}
    (hc : LawCmp cmp) {t : BPT K V} (hwf : WFb cmp t = true)
    (hne : flattenT t ≠ []) (a : K) :
    ∃ sub3 ok3 lp3 s3 recs3,
      findRecord cmp t (GKey.ord a) = some (sub3, ok3) ∧
      ok3 = ((flattenT t).any fun r => decide (r.key = GKey.ord a)) ∧
      leafPos t.root sub3.dropLast = some lp3 ∧
      sub3.getLast? = some s3 ∧
      (leavesOf t.root).get? lp3 = some recs3 ∧
      ((countLt cmp (flattenT t) a = (flattenT t).length ∧ ok3 = false ∧
        (if (!ok3 && decide (s3 = recs3.length)) = true then
           (if lp3 = (leavesOf t.root).length - 1 then none
            else some (lp3 + 1, 0))
         else some (lp3, s3)) = none) ∨
       (∃ lp s recs r1,
        (if (!ok3 && decide (s3 = recs3.length)) = true then
           (if lp3 = (leavesOf t.root).length - 1 then none
            else some (lp3 + 1, 0))
         else some (lp3, s3)) = some (lp, s) ∧
        (leavesOf t.root).get? lp = some recs ∧ s < recs.length ∧
        leavesBefore (leavesOf t.root) lp + s =
          countLt cmp (flattenT t) a ∧
        recs.get? s = some r1 ∧
        (flattenT t).get? (countLt cmp (flattenT t) a) = some r1 ∧
        countLt cmp (flattenT t) a < (flattenT t).length)) := by
  obtain ⟨sub3, lp3, s3, recs3, hfr, hlen3, hlpos3, hlast3, hget3, hsle3,
      hcnt3, hf3, hz3⟩ := findRecord_ord hc hwf a
  have hlne := WFb_leaves_ne hwf hne
  refine ⟨sub3, _, lp3, s3, recs3, hfr, rfl, hlpos3, hlast3, hget3, ?_⟩
  by_cases hok : ((flattenT t).any fun r => decide (r.key = GKey.ord a)) =
      true
  · right
    have hs3lt := hf3 hok
    obtain ⟨r1, hr1⟩ : ∃ r1, recs3.get? s3 = some r1 := by
      cases hx : recs3.get? s3 with
      | none => rw [List.get?_eq_none] at hx; omega
      | some r => exact ⟨r, rfl⟩
    refine ⟨lp3, s3, recs3, r1, ?_, hget3, hs3lt, hcnt3, hr1, ?_, ?_⟩
    · rw [hok]
      simp
    · rw [← hcnt3]
      rw [show (flattenT t) = (leavesOf t.root).flatten from rfl]
      rw [flatten_get _ _ _ _ hget3 hs3lt]
      exact hr1
    · rw [← hcnt3]
      exact pos_lt_total hget3 hs3lt
  · have hok' : ((flattenT t).any fun r => decide (r.key = GKey.ord a)) =
        false := by
      cases hx : ((flattenT t).any fun r => decide (r.key = GKey.ord a)) with
      | false => rfl
      | true => exact absurd hx hok
    rcases Nat.lt_or_ge s3 recs3.length with hlt | hge
    · right
      obtain ⟨r1, hr1⟩ : ∃ r1, recs3.get? s3 = some r1 := by
        cases hx : recs3.get? s3 with
        | none => rw [List.get?_eq_none] at hx; omega
        | some r => exact ⟨r, rfl⟩
      refine ⟨lp3, s3, recs3, r1, ?_, hget3, hlt, hcnt3, hr1, ?_, ?_⟩
      · rw [hok']
        simp only [Bool.not_false, Bool.true_and]
        rw [if_neg (by simp; omega)]
      · rw [← hcnt3]
        rw [show (flattenT t) = (leavesOf t.root).flatten from rfl]
        rw [flatten_get _ _ _ _ hget3 hlt]
        exact hr1
      · rw [← hcnt3]
        exact pos_lt_total hget3 hlt
    · have hs3e : s3 = recs3.length := by omega
      have hlp3len : lp3 < (leavesOf t.root).length :=
        (List.get?_eq_some.mp hget3).1
      by_cases hlast : lp3 = (leavesOf t.root).length - 1
      · left
        have hbfull : leavesBefore (leavesOf t.root) (lp3 + 1) =
            (flattenT t).length := by
          have h1 : lp3 + 1 = (leavesOf t.root).length := by omega
          rw [h1, leavesBefore_full]
          rfl
        rw [leavesBefore_succ hget3] at hbfull
        refine ⟨by omega, hok', ?_⟩
        rw [hok']
        simp only [Bool.not_false, Bool.true_and]
        rw [if_pos (by simp [hs3e]), if_pos hlast]
      · right
        have hlp1len : lp3 + 1 < (leavesOf t.root).length := by omega
        obtain ⟨recs', hg'⟩ : ∃ x, (leavesOf t.root).get? (lp3 + 1) =
            some x := by
          cases hx : (leavesOf t.root).get? (lp3 + 1) with
          | none => rw [List.get?_eq_none] at hx; omega
          | some x => exact ⟨x, rfl⟩
        have hr'len : 0 < recs'.length := by
          have := hlne recs' (List.get?_mem hg')
          cases recs' with
          | nil => exact absurd rfl this
          | cons x xs => simp
        have hbnext : leavesBefore (leavesOf t.root) (lp3 + 1) + 0 =
            countLt cmp (flattenT t) a := by
          rw [leavesBefore_succ hget3]
          omega
        obtain ⟨r1, hr1⟩ : ∃ r1, recs'.get? 0 = some r1 := by
          cases hx : recs'.get? 0 with
          | none => rw [List.get?_eq_none] at hx; omega
          | some r => exact ⟨r, rfl⟩
        refine ⟨lp3 + 1, 0, recs', r1, ?_, hg', hr'len, hbnext, hr1, ?_, ?_⟩
        · rw [hok']
          simp only [Bool.not_false, Bool.true_and]
          rw [if_pos (by simp [hs3e]), if_neg hlast]
        · rw [← hbnext]
          rw [show (flattenT t) = (leavesOf t.root).flatten from rfl]
          rw [flatten_get _ _ _ _ hg' hr'len]
          exact hr1
        · rw [← hbnext]
          exact pos_lt_total hg' hr'len

theorem recKeyLEb_of_lt_of_le {K : Type} [LinearOrder K] {V : Type}
    {cmp : K → K → Int} (hc : LawCmp cmp) {a b : Rec K V} {k : K}
    (hab : recLt cmp a b = true) (hbk : recKeyLEb cmp b k = true) :
    recKeyLEb cmp a k = true := by
  rw [recLt] at hab
  rw [recKeyLEb] at hbk ⊢
  cases ha : a.key with
  | sent s => rw [ha] at hab; cases b.key <;> simp at hab
  | ord x =>
    cases hb : b.key with
    | sent s => rw [hb] at hbk; simp at hbk
    | ord y =>
      rw [ha, hb] at hab
      rw [hb] at hbk
      simp only [decide_eq_true_eq] at hab hbk ⊢
      have hxy : x < y := (hc.lt_iff x y).mp hab
      have hyk : y ≤ k := by
        rcases lt_or_eq_of_le hbk with h | h
        · exact le_of_lt ((hc.lt_iff y k).mp h)
        · exact le_of_eq ((hc.eq_iff y k).mp h)
      have : x < k := lt_of_lt_of_le hxy hyk
      have := (hc.lt_iff x k).mpr this
      omega

theorem sorted_le_iff_pos {K : Type} [LinearOrder K] {V : Type}
    {cmp : K → K → Int} (hc : LawCmp cmp) {rs : List (Rec K V)}
    (hpw : List.Pairwise (fun a b => recLt cmp a b = true) rs) {k : K}
    {i : Nat} {r : Rec K V} (hi : rs.get? i = some r) :
    recKeyLEb cmp r k = true ↔ i < countLE cmp rs k := by
  rw [countLE]
  refine countP_prefix_closed (recKeyLEb cmp · k) rs ?_ i r hi
  intro i' j' a b hij ha hb hpb
  rcases Nat.lt_or_ge i' j' with hlt | hge
  · exact recKeyLEb_of_lt_of_le hc (pairwise_get hpw hlt ha hb) hpb
  · have : i' = j' := by omega
    subst this
    rw [ha] at hb
    simp only [Option.some.injEq] at hb
    subst hb
    exact hpb

theorem countLE_found {K : Type} [LinearOrder K] {V : Type}
    {cmp : K → K → Int} (hc : LawCmp cmp) {F : List (Rec K V)}
    (hch : List.Chain' (fun a b => recLt cmp a b = true) F) (b : K) :
    countLE cmp F b =
      countLt cmp F b +
        (if (F.any fun r => decide (r.key = GKey.ord b)) = true then 1
         else 0) := by
  have hpw := sorted_pairwise hc hch
  have hmono : countLt cmp F b ≤ countLE cmp F b := by
    rw [countLt, countLE]
    refine List.countP_mono_left ?_
    intro r hrm hlt
    rw [recKeyLtb] at hlt
    rw [recKeyLEb]
    cases hk : r.key with
    | sent s => rw [hk] at hlt; simp at hlt
    | ord x =>
      rw [hk] at hlt
      simp only [decide_eq_true_eq] at hlt ⊢
      omega
  have hleN : countLE cmp F b ≤ F.length := List.countP_le_length _
  have hltN : countLt cmp F b ≤ F.length := List.countP_le_length _
  by_cases hany : (F.any fun r => decide (r.key = GKey.ord b)) = true
  · rw [if_pos hany]
    obtain ⟨r, hr, hrk⟩ := sorted_found_at hc hch hany
    have hLEr : recKeyLEb cmp r b = true := by
      rw [recKeyLEb, hrk]
      have := (hc.eq_iff b b).mpr rfl
      simp only [decide_eq_true_eq]
      omega
    have h1 : countLt cmp F b < countLE cmp F b :=
      (sorted_le_iff_pos hc hpw hr).mp hLEr
    have h2 : countLE cmp F b ≤ countLt cmp F b + 1 := by
      by_contra hcon
      have hlt2 : countLt cmp F b + 1 < F.length := by omega
      obtain ⟨r2, hr2⟩ : ∃ r2, F.get? (countLt cmp F b + 1) = some r2 := by
        cases hx : F.get? (countLt cmp F b + 1) with
        | none => rw [List.get?_eq_none] at hx; omega
        | some x => exact ⟨x, rfl⟩
      have hLE2 : recKeyLEb cmp r2 b = true :=
        (sorted_le_iff_pos hc hpw hr2).mpr (by omega)
      have hgt := pairwise_get hpw (Nat.lt_succ_self _) hr hr2
      rw [recLt, hrk] at hgt
      rw [recKeyLEb] at hLE2
      cases hk2 : r2.key with
      | sent s => rw [hk2] at hLE2; simp at hLE2
      | ord y =>
        rw [hk2] at hgt hLE2
        simp only [decide_eq_true_eq] at hgt hLE2
        have h3 : b < y := (hc.lt_iff b y).mp hgt
        have h4 : y ≤ b := by
          rcases lt_or_eq_of_le hLE2 with h | h
          · exact le_of_lt ((hc.lt_iff y b).mp h)
          · exact le_of_eq ((hc.eq_iff y b).mp h)
        exact absurd h3 (not_lt.mpr h4)
    omega
  · rw [if_neg hany]
    have hany' : (F.any fun r => decide (r.key = GKey.ord b)) = false := by
      cases hx : (F.any fun r => decide (r.key = GKey.ord b)) with
      | false => rfl
      | true => exact absurd hx hany
    have h2 : countLE cmp F b ≤ countLt cmp F b := by
      by_contra hcon
      have hlt2 : countLt cmp F b < F.length := by omega
      obtain ⟨r2, hr2⟩ : ∃ r2, F.get? (countLt cmp F b) = some r2 := by
        cases hx : F.get? (countLt cmp F b) with
        | none => rw [List.get?_eq_none] at hx; omega
        | some x => exact ⟨x, rfl⟩
      have hLE2 : recKeyLEb cmp r2 b = true :=
        (sorted_le_iff_pos hc hpw hr2).mpr (by omega)
      have hnLT : recKeyLtb cmp r2 b = false := by
        cases hx : recKeyLtb cmp r2 b with
        | false => rfl
        | true =>
          have := (sorted_lt_iff_pos hc hpw hr2).mp hx
          omega
      rw [recKeyLEb] at hLE2
      rw [recKeyLtb] at hnLT
      cases hk2 : r2.key with
      | sent s => rw [hk2] at hLE2; simp at hLE2
      | ord y =>
        rw [hk2] at hLE2 hnLT
        simp only [decide_eq_true_eq] at hLE2
        simp only [decide_eq_false_iff_not, not_lt] at hnLT
        have hyb : y = b := (hc.eq_iff y b).mp (by omega)
        have : (F.any fun r => decide (r.key = GKey.ord b)) = true := by
          rw [List.any_eq_true]
          exact ⟨r2, List.get?_mem hr2, by rw [hk2, hyb]; simp⟩
        rw [this] at hany'
        cases hany'
    omega

theorem max_ord_side {K V : Type} [LinearOrder K] {cmp : K → K → Int}
    (hc : LawCmp cmp) {t : BPT K V} (hwf : WFb cmp t = true)
    (hne : flattenT t ≠ []) (b : K) :
    ∃ sub4 ok4 lp4 s4 recs4,
      findRecord cmp t (GKey.ord b) = some (sub4, ok4) ∧
      ok4 = ((flattenT t).any fun r => decide (r.key = GKey.ord b)) ∧
      leafPos t.root sub4.dropLast = some lp4 ∧
      sub4.getLast? = some s4 ∧
      (leavesOf t.root).get? lp4 = some recs4 ∧
      ((ok4 = false ∧ s4 = 0 ∧ countLt cmp (flattenT t) b = 0 ∧
        (if ok4 = true then some s4
         else if s4 = 0 then none else some (s4 - 1)) = none) ∨
       (∃ mi rM,
        (if ok4 = true then some s4
         else if s4 = 0 then none else some (s4 - 1)) = some mi ∧
        mi < recs4.length ∧
        leavesBefore (leavesOf t.root) lp4 + mi + 1 =
          countLE cmp (flattenT t) b ∧
        recs4.get? mi = some rM ∧
        (flattenT t).get? (countLE cmp (flattenT t) b - 1) = some rM ∧
        1 ≤ countLE cmp (flattenT t) b)) := by
  obtain ⟨hd3, hsh, hsep, hocc, hord, hchB⟩ := WFb_parts hwf
  have hch := (chainLt_iff cmp _).mp hchB
  obtain ⟨sub4, lp4, s4, recs4, hfr, hlen4, hlpos4, hlast4, hget4, hsle4,
      hcnt4, hf4, hz4⟩ := findRecord_ord hc hwf b
  have hcle := countLE_found hc hch b
  refine ⟨sub4, _, lp4, s4, recs4, hfr, rfl, hlpos4, hlast4, hget4, ?_⟩
  by_cases hok : ((flattenT t).any fun r => decide (r.key = GKey.ord b)) =
      true
  · right
    have hs4lt := hf4 hok
    obtain ⟨rM, hrM⟩ : ∃ rM, recs4.get? s4 = some rM := by
      cases hx : recs4.get? s4 with
      | none => rw [List.get?_eq_none] at hx; omega
      | some r => exact ⟨r, rfl⟩
    rw [if_pos hok] at hcle
    refine ⟨s4, rM, by rw [if_pos hok], hs4lt, by omega, hrM, ?_, by omega⟩
    have : countLE cmp (flattenT t) b - 1 = countLt cmp (flattenT t) b := by
      omega
    rw [this, ← hcnt4]
    rw [show (flattenT t) = (leavesOf t.root).flatten from rfl]
    rw [flatten_get _ _ _ _ hget4 hs4lt]
    exact hrM
  · have hok' : ((flattenT t).any fun r => decide (r.key = GKey.ord b)) =
        false := by
      cases hx : ((flattenT t).any fun r => decide (r.key = GKey.ord b)) with
      | false => rfl
      | true => exact absurd hx hok
    rw [hok', if_neg (by simp)] at hcle
    rcases Nat.eq_zero_or_pos s4 with hs0 | hs1
    · left
      have hclt0 := hz4 hok' hs0
      refine ⟨hok', hs0, hclt0, ?_⟩
      rw [hok']
      simp only [Bool.false_eq_true, if_false]
      rw [if_pos hs0]
    · right
      have hmi : s4 - 1 < recs4.length := by omega
      obtain ⟨rM, hrM⟩ : ∃ rM, recs4.get? (s4 - 1) = some rM := by
        cases hx : recs4.get? (s4 - 1) with
        | none => rw [List.get?_eq_none] at hx; omega
        | some r => exact ⟨r, rfl⟩
      refine ⟨s4 - 1, rM, ?_, hmi, by omega, hrM, ?_, by omega⟩
      · rw [hok']
        simp only [Bool.false_eq_true, if_false]
        rw [if_neg (by omega)]
      · have : countLE cmp (flattenT t) b - 1 =
            leavesBefore (leavesOf t.root) lp4 + (s4 - 1) := by
          omega
        rw [this]
        rw [show (flattenT t) = (leavesOf t.root).flatten from rfl]
        rw [flatten_get _ _ _ _ hget4 hmi]
        exact hrM

theorem pos_key_cmp {K : Type} [LinearOrder K] {V : Type}
    {cmp : K → K → Int} (hc : LawCmp cmp) {F : List (Rec K V)}
    (hch : List.Chain' (fun a b => recLt cmp a b = true) F)
    {i j : Nat} {ri rj : Rec K V} {xi xj : K}
    (hi : F.get? i = some ri) (hj : F.get? j = some rj)
    (hxi : ri.key = GKey.ord xi) (hxj : rj.key = GKey.ord xj) :
    (cmp xi xj < 0 ↔ i < j) ∧ (cmp xi xj = 0 ↔ i = j) := by
  have hpw := sorted_pairwise hc hch
  have hfwd : ∀ p q (rp rq : Rec K V) (xp xq : K), p < q →
      F.get? p = some rp → F.get? q = some rq →
      rp.key = GKey.ord xp → rq.key = GKey.ord xq → cmp xp xq < 0 := by
    intro p q rp rq xp xq hpq hp hq hxp hxq
    have := pairwise_get hpw hpq hp hq
    rw [recLt, hxp, hxq] at this
    simpa using this
  have heqc : i = j → cmp xi xj = 0 := by
    intro h
    subst h
    rw [hi] at hj
    simp only [Option.some.injEq] at hj
    subst hj
    rw [hxi] at hxj
    have : xi = xj := by simpa using hxj
    rw [this]
    exact (hc.eq_iff xj xj).mpr rfl
  constructor
  · constructor
    · intro hlt
      rcases Nat.lt_trichotomy i j with h | h | h
      · exact h
      · have := heqc h; omega
      · have h2 := hfwd j i rj ri xj xi h hj hi hxj hxi
        have h3 : xj < xi := (hc.lt_iff xj xi).mp h2
        have h4 : xi < xj := (hc.lt_iff xi xj).mp hlt
        exact absurd h4 (not_lt.mpr (le_of_lt h3))
    · intro h
      exact hfwd i j ri rj xi xj h hi hj hxi hxj
  · constructor
    · intro heq
      rcases Nat.lt_trichotomy i j with h | h | h
      · have := hfwd i j ri rj xi xj h hi hj hxi hxj; omega
      · exact h
      · have h2 := hfwd j i rj ri xj xi h hj hi hxj hxi
        have h3 : xj < xi := (hc.lt_iff xj xi).mp h2
        have h4 : xi = xj := (hc.eq_iff xi xj).mp heq
        rw [h4] at h3
        exact absurd h3 (lt_irrefl xj)
    · exact heqc

theorem countLt_mono_key {K : Type} [LinearOrder K] {V : Type}
    {cmp : K → K → Int} (hc : LawCmp cmp) (F : List (Rec K V)) {a b : K}
    (hab : cmp a b ≤ 0) : countLt cmp F a ≤ countLt cmp F b := by
  rw [countLt, countLt]
  refine List.countP_mono_left ?_
  intro r hrm hlt
  rw [recKeyLtb] at hlt ⊢
  cases hk : r.key with
  | sent s => rw [hk] at hlt; simp at hlt
  | ord x =>
    rw [hk] at hlt
    simp only [decide_eq_true_eq] at hlt ⊢
    have hxa : x < a := (hc.lt_iff x a).mp hlt
    have hab' : a ≤ b := by
      rcases lt_or_eq_of_le hab with h | h
      · exact le_of_lt ((hc.lt_iff a b).mp h)
      · exact le_of_eq ((hc.eq_iff a b).mp h)
    exact (hc.lt_iff x b).mpr (lt_of_lt_of_le hxa hab')

theorem countLt_pos_of_present_lt {K : Type} [LinearOrder K] {V : Type}
    {cmp : K → K → Int} (hc : LawCmp cmp) {F : List (Rec K V)} {r : Rec K V}
    {x b : K} (hm : r ∈ F) (hx : r.key = GKey.ord x) (hlt : cmp x b < 0) :
    1 ≤ countLt cmp F b := by
  rw [countLt]
  have : 0 < F.countP (recKeyLtb cmp · b) := by
    rw [List.countP_pos]
    exact ⟨r, hm, by rw [recKeyLtb, hx]; simpa using hlt⟩
  omega

theorem FL_ordord {K V : Type} [LinearOrder K] {cmp : K → K → Int}
    (hc : LawCmp cmp) {t : BPT K V} (hwf : WFb cmp t = true)
    (hne : flattenT t ≠ []) (a b : K) :
    ∃ res : Nat × Nat × Nat × Nat × Bool,
      findAndLocateRecords cmp t (GKey.ord a) (GKey.ord b) = some res ∧
      (0 < cmp a b → res = (0, 0, 0, 0, false)) ∧
      (cmp a b ≤ 0 → countLt cmp (flattenT t) a = (flattenT t).length →
        res = (0, 0, 0, 0, false)) ∧
      (cmp a b = 0 → countLt cmp (flattenT t) a < (flattenT t).length →
        ∃ l s recs r1, res = (l, s, l, s, true) ∧
          (leavesOf t.root).get? l = some recs ∧ s < recs.length ∧
          leavesBefore (leavesOf t.root) l + s =
            countLt cmp (flattenT t) a ∧
          recs.get? s = some r1 ∧
          (flattenT t).get? (countLt cmp (flattenT t) a) = some r1) ∧
      (cmp a b < 0 → countLE cmp (flattenT t) b ≤ countLt cmp (flattenT t) a →
        res = (0, 0, 0, 0, false)) ∧
      (cmp a b < 0 →
        countLt cmp (flattenT t) a < countLE cmp (flattenT t) b →
        ∃ l1 s1 recs1 l2 s2 recs2, res = (l1, s1, l2, s2, true) ∧
          (leavesOf t.root).get? l1 = some recs1 ∧ s1 < recs1.length ∧
          leavesBefore (leavesOf t.root) l1 + s1 =
            countLt cmp (flattenT t) a ∧
          (leavesOf t.root).get? l2 = some recs2 ∧ s2 < recs2.length ∧
          leavesBefore (leavesOf t.root) l2 + s2 =
            countLE cmp (flattenT t) b - 1) := by
  obtain ⟨hd3, hsh, hsep, hocc, hord, hchB⟩ := WFb_parts hwf
  have hch := (chainLt_iff cmp _).mp hchB
  have hleN : countLE cmp (flattenT t) b ≤ (flattenT t).length :=
    List.countP_le_length _
  by_cases hgt : 0 < cmp a b
  · refine ⟨(0, 0, 0, 0, false), ?_, fun _ => rfl, by intro h _; omega,
      by intro h _; omega, by intro h _; omega, by intro h _; omega⟩
    rw [findAndLocateRecords]
    simp only []
    rw [if_pos hgt]
  · have hle : cmp a b ≤ 0 := by omega
    obtain ⟨sub3, ok3, lp3, s3, recs3, hfr3, hok3eq, hlpos3, hlast3, hget3,
        hdisj⟩ := min_ord_adjust hc hwf hne a
    subst hok3eq
    rcases hdisj with ⟨hcltN, hok3f, hifnone⟩ |
      ⟨lp, s, recs, r1, hifeq, hgetp, hslt, hbpos, hr1, hfl1, hcltN⟩
    · refine ⟨(0, 0, 0, 0, false), ?_, by intro h; omega, fun _ _ => rfl,
        by intro _ h2; omega, fun _ _ => rfl, by intro _ h2; omega⟩
      rw [findAndLocateRecords]
      simp only []
      rw [if_neg hgt, hfr3]
      simp only [Option.bind_eq_bind, Option.some_bind]
      rw [hlpos3]
      simp only [Option.some_bind]
      rw [hlast3]
      simp only [Option.some_bind]
      rw [hget3]
      simp only [Option.some_bind]
      rw [hifnone]
      rfl
    · obtain ⟨k1, hk1⟩ := keysOrdb_mem hord (List.get?_mem hfl1)
      have hk1nlt : ¬ cmp k1 a < 0 := by
        have hiff := @sorted_lt_iff_pos _ _ _ _ hc _
          (sorted_pairwise hc hch) a _ _ hfl1
        rw [recKeyLtb, hk1] at hiff
        simp only [decide_eq_true_eq] at hiff
        intro hcon
        have := hiff.mp hcon
        omega
      by_cases heq0 : cmp a b = 0
      · refine ⟨(lp, s, lp, s, true), ?_, by intro h; omega,
          by intro _ h2; omega,
          fun _ _ => ⟨lp, s, recs, r1, rfl, hgetp, hslt, hbpos, hr1, hfl1⟩,
          by intro h _; omega, by intro h _; omega⟩
        rw [findAndLocateRecords]
        simp only []
        rw [if_neg hgt, hfr3]
        simp only [Option.bind_eq_bind, Option.some_bind]
        rw [hlpos3]
        simp only [Option.some_bind]
        rw [hlast3]
        simp only [Option.some_bind]
        rw [hget3]
        simp only [Option.some_bind]
        rw [hifeq]
        simp only [Option.elim_some]
        rw [if_pos heq0]
      · have hlt0 : cmp a b < 0 := by omega
        obtain ⟨sub4, ok4, lp4, s4, recs4, hfr4, hok4eq, hlpos4, hlast4,
            hget4, hdisj4⟩ := max_ord_side hc hwf hne b
        subst hok4eq
        by_cases hok3 : ((flattenT t).any fun r =>
            decide (r.key = GKey.ord a)) = true
        · -- minKey found: k1 = a
          obtain ⟨r1', hr1', hr1'k⟩ := sorted_found_at hc hch hok3
          have hr1e : r1 = r1' := by
            rw [hfl1] at hr1'
            simpa using hr1'
          subst hr1e
          have hk1a : k1 = a := by
            rw [hk1] at hr1'k
            simpa using hr1'k
          have hg1LE : countLt cmp (flattenT t) a <
              countLE cmp (flattenT t) b := by
            have hLEr : recKeyLEb cmp r1 b = true := by
              rw [recKeyLEb, hk1, hk1a]
              simp only [decide_eq_true_eq]
              omega
            exact (sorted_le_iff_pos hc (sorted_pairwise hc hch)
              hfl1).mp hLEr
          rcases hdisj4 with ⟨hok4f, hs40, hclt0, hifnone4⟩ |
            ⟨mi, rM, hmi4, hmilt4, hbM4, hrM4, hflM4, hcle1⟩
          · exfalso
            have := countLt_pos_of_present_lt hc (List.get?_mem hfl1)
              (by rw [hk1, hk1a]) hlt0
            omega
          · obtain ⟨kM, hkM⟩ := keysOrdb_mem hord (List.get?_mem hflM4)
            have hposcmp := pos_key_cmp hc hch hfl1 hflM4
              (by rw [hk1, hk1a]) hkM
            have hg1gM : countLt cmp (flattenT t) a ≤
                countLE cmp (flattenT t) b - 1 := by omega
            by_cases hok4 : ((flattenT t).any fun r =>
                decide (r.key = GKey.ord b)) = true
            · refine ⟨(lp, s, lp4, mi, true), ?_, by intro h; omega,
                by intro _ h2; omega, by intro h _; omega,
                by intro _ h2; omega,
                fun _ _ => ⟨lp, s, recs, lp4, mi, recs4, rfl, hgetp, hslt,
                  hbpos, hget4, hmilt4, by omega⟩⟩
              rw [findAndLocateRecords]
              simp only []
              rw [if_neg hgt, hfr3]
              simp only [Option.bind_eq_bind, Option.some_bind]
              rw [hlpos3]
              simp only [Option.some_bind]
              rw [hlast3]
              simp only [Option.some_bind]
              rw [hget3]
              simp only [Option.some_bind]
              rw [hifeq]
              simp only [Option.elim_some]
              rw [if_neg heq0]
              simp only [Bool.false_or]
              rw [hok3]
              simp only [Bool.not_true, Bool.false_eq_true, if_false]
              rw [findAndLocateRecords.findAndLocateMax, hfr4]
              simp only [Option.bind_eq_bind, Option.some_bind]
              rw [hlpos4]
              simp only [Option.some_bind]
              rw [hlast4]
              simp only [Option.some_bind]
              rw [hmi4]
              simp only [Option.some_bind, Bool.false_or]
              rw [hok4]
              simp only [Bool.not_true, Bool.false_eq_true, if_false]
            · have hok4' : ((flattenT t).any fun r =>
                  decide (r.key = GKey.ord b)) = false := by
                cases hx : ((flattenT t).any fun r =>
                    decide (r.key = GKey.ord b)) with
                | false => rfl
                | true => exact absurd hx hok4
              have hpipe : findAndLocateRecords cmp t (GKey.ord a)
                  (GKey.ord b) =
                  if cmp a kM = 0 then some (lp, s, lp, s, true)
                  else if cmp a kM > 0 then some (0, 0, 0, 0, false)
                  else some (lp, s, lp4, mi, true) := by
                rw [findAndLocateRecords]
                simp only []
                rw [if_neg hgt, hfr3]
                simp only [Option.bind_eq_bind, Option.some_bind]
                rw [hlpos3]
                simp only [Option.some_bind]
                rw [hlast3]
                simp only [Option.some_bind]
                rw [hget3]
                simp only [Option.some_bind]
                rw [hifeq]
                simp only [Option.elim_some]
                rw [if_neg heq0]
                simp only [Bool.false_or]
                rw [hok3]
                simp only [Bool.not_true, Bool.false_eq_true, if_false]
                rw [findAndLocateRecords.findAndLocateMax, hfr4]
                simp only [Option.bind_eq_bind, Option.some_bind]
                rw [hlpos4]
                simp only [Option.some_bind]
                rw [hlast4]
                simp only [Option.some_bind]
                rw [hmi4]
                simp only [Option.some_bind, Bool.false_or]
                rw [hok4']
                simp only [Bool.not_false, if_true]
                rw [hget4]
                simp only [Option.some_bind]
                rw [hrM4]
                simp only [Option.some_bind]
                rw [hkM]
                simp only [cmpG, Option.some_bind]
              rcases Nat.lt_or_ge (countLt cmp (flattenT t) a)
                  (countLE cmp (flattenT t) b - 1) with hstrict | hgeq
              · have hcmplt : cmp a kM < 0 := hposcmp.1.mpr hstrict
                refine ⟨(lp, s, lp4, mi, true), ?_, by intro h; omega,
                  by intro _ h2; omega, by intro h _; omega,
                  by intro _ h2; omega,
                  fun _ _ => ⟨lp, s, recs, lp4, mi, recs4, rfl, hgetp,
                    hslt, hbpos, hget4, hmilt4, by omega⟩⟩
                rw [hpipe, if_neg (by omega), if_neg (by omega)]
              · have hposeq : countLt cmp (flattenT t) a =
                    countLE cmp (flattenT t) b - 1 := by omega
                have hcmpeq : cmp a kM = 0 := hposcmp.2.mpr hposeq
                refine ⟨(lp, s, lp, s, true), ?_, by intro h; omega,
                  by intro _ h2; omega, by intro h _; omega,
                  by intro _ h2; omega,
                  fun _ _ => ⟨lp, s, recs, lp, s, recs, rfl, hgetp, hslt,
                    hbpos, hgetp, hslt, by omega⟩⟩
                rw [hpipe, if_pos hcmpeq]
        · -- minKey not found: compare r1's key with b
          have hok3' : ((flattenT t).any fun r =>
              decide (r.key = GKey.ord a)) = false := by
            cases hx : ((flattenT t).any fun r =>
                decide (r.key = GKey.ord a)) with
            | false => rfl
            | true => exact absurd hx hok3
          have hpipe1 : findAndLocateRecords cmp t (GKey.ord a)
              (GKey.ord b) =
              (if cmp k1 b = 0 then some (lp, s, lp, s, true)
               else if cmp k1 b > 0 then some (0, 0, 0, 0, false)
               else findAndLocateRecords.findAndLocateMax cmp t
                 (leavesOf t.root) r1.key (GKey.ord b) lp s) := by
            rw [findAndLocateRecords]
            simp only []
            rw [if_neg hgt, hfr3]
            simp only [Option.bind_eq_bind, Option.some_bind]
            rw [hlpos3]
            simp only [Option.some_bind]
            rw [hlast3]
            simp only [Option.some_bind]
            rw [hget3]
            simp only [Option.some_bind]
            rw [hifeq]
            simp only [Option.elim_some]
            rw [if_neg heq0]
            simp only [Bool.false_or]
            rw [hok3']
            simp only [Bool.not_false, if_true]
            rw [hgetp]
            simp only [Option.some_bind]
            rw [hr1]
            simp only [Option.some_bind, Bool.not_false, if_true]
            rw [hk1]
            simp only [cmpG, Option.some_bind]
          rcases Int.lt_trichotomy (cmp k1 b) 0 with hk1b | hk1b | hk1b
          · -- k1 < b : go to max side
            have hg1LE : countLt cmp (flattenT t) a <
                countLE cmp (flattenT t) b := by
              have hLEr : recKeyLEb cmp r1 b = true := by
                rw [recKeyLEb, hk1]
                simp only [decide_eq_true_eq]
                omega
              exact (sorted_le_iff_pos hc (sorted_pairwise hc hch)
                hfl1).mp hLEr
            rcases hdisj4 with ⟨hok4f, hs40, hclt0, hifnone4⟩ |
              ⟨mi, rM, hmi4, hmilt4, hbM4, hrM4, hflM4, hcle1⟩
            · exfalso
              have := countLt_pos_of_present_lt hc (List.get?_mem hfl1)
                hk1 hk1b
              omega
            · obtain ⟨kM, hkM⟩ := keysOrdb_mem hord (List.get?_mem hflM4)
              have hposcmp := pos_key_cmp hc hch hfl1 hflM4 hk1 hkM
              by_cases hok4 : ((flattenT t).any fun r =>
                  decide (r.key = GKey.ord b)) = true
              · refine ⟨(lp, s, lp4, mi, true), ?_, by intro h; omega,
                  by intro _ h2; omega, by intro h _; omega,
                  by intro _ h2; omega,
                  fun _ _ => ⟨lp, s, recs, lp4, mi, recs4, rfl, hgetp,
                    hslt, hbpos, hget4, hmilt4, by omega⟩⟩
                rw [hpipe1, if_neg (by omega), if_neg (by omega)]
                rw [findAndLocateRecords.findAndLocateMax, hfr4]
                simp only [Option.bind_eq_bind, Option.some_bind]
                rw [hlpos4]
                simp only [Option.some_bind]
                rw [hlast4]
                simp only [Option.some_bind]
                rw [hmi4]
                simp only [Option.some_bind, Bool.false_or]
                rw [hok4]
                simp only [Bool.not_true, Bool.false_eq_true, if_false]
              · have hok4' : ((flattenT t).any fun r =>
                    decide (r.key = GKey.ord b)) = false := by
                  cases hx : ((flattenT t).any fun r =>
                      decide (r.key = GKey.ord b)) with
                  | false => rfl
                  | true => exact absurd hx hok4
                have hpipe2 : findAndLocateRecords cmp t (GKey.ord a)
                    (GKey.ord b) =
                    if cmp k1 kM = 0 then some (lp, s, lp, s, true)
                    else if cmp k1 kM > 0 then some (0, 0, 0, 0, false)
                    else some (lp, s, lp4, mi, true) := by
                  rw [hpipe1, if_neg (by omega), if_neg (by omega)]
                  rw [findAndLocateRecords.findAndLocateMax, hfr4]
                  simp only [Option.bind_eq_bind, Option.some_bind]
                  rw [hlpos4]
                  simp only [Option.some_bind]
                  rw [hlast4]
                  simp only [Option.some_bind]
                  rw [hmi4]
                  simp only [Option.some_bind, Bool.false_or]
                  rw [hok4']
                  simp only [Bool.not_false, if_true]
                  rw [hget4]
                  simp only [Option.some_bind]
                  rw [hrM4]
                  simp only [Option.some_bind]
                  rw [hk1, hkM]
                  simp only [cmpG, Option.some_bind]
                rcases Nat.lt_or_ge (countLt cmp (flattenT t) a)
                    (countLE cmp (flattenT t) b - 1) with hstrict | hgeq
                · have hcmplt : cmp k1 kM < 0 := hposcmp.1.mpr hstrict
                  refine ⟨(lp, s, lp4, mi, true), ?_, by intro h; omega,
                    by intro _ h2; omega, by intro h _; omega,
                    by intro _ h2; omega,
                    fun _ _ => ⟨lp, s, recs, lp4, mi, recs4, rfl, hgetp,
                      hslt, hbpos, hget4, hmilt4, by omega⟩⟩
                  rw [hpipe2, if_neg (by omega), if_neg (by omega)]
                · have hposeq : countLt cmp (flattenT t) a =
                      countLE cmp (flattenT t) b - 1 := by omega
                  have hcmpeq : cmp k1 kM = 0 := hposcmp.2.mpr hposeq
                  refine ⟨(lp, s, lp, s, true), ?_, by intro h; omega,
                    by intro _ h2; omega, by intro h _; omega,
                    by intro _ h2; omega,
                    fun _ _ => ⟨lp, s, recs, lp, s, recs, rfl, hgetp,
                      hslt, hbpos, hgetp, hslt, by omega⟩⟩
                  rw [hpipe2, if_pos hcmpeq]
          · -- k1 = b : single record
            have hk1eq : k1 = b := (hc.eq_iff k1 b).mp hk1b
            have hanyb : ((flattenT t).any fun r =>
                decide (r.key = GKey.ord b)) = true := by
              rw [List.any_eq_true]
              exact ⟨r1, List.get?_mem hfl1, by rw [hk1, hk1eq]; simp⟩
            have hcle := countLE_found hc hch b
            rw [if_pos hanyb] at hcle
            have hcltb_le : countLt cmp (flattenT t) b ≤
                countLt cmp (flattenT t) a := by
              have hiff := @sorted_lt_iff_pos _ _ _ _ hc _
                (sorted_pairwise hc hch) b _ _ hfl1
              rw [recKeyLtb, hk1] at hiff
              simp only [decide_eq_true_eq] at hiff
              by_contra hcon
              have := hiff.mpr (by omega)
              omega
            have hcltb_ge : countLt cmp (flattenT t) a ≤
                countLt cmp (flattenT t) b := countLt_mono_key hc _ hle
            refine ⟨(lp, s, lp, s, true), ?_, by intro h; omega,
              by intro _ h2; omega, by intro h _; omega,
              by intro _ h2; omega,
              fun _ _ => ⟨lp, s, recs, lp, s, recs, rfl, hgetp, hslt,
                hbpos, hgetp, hslt, by omega⟩⟩
            rw [hpipe1, if_pos hk1b]
          · -- k1 > b : empty range
            have hempty : countLE cmp (flattenT t) b ≤
                countLt cmp (flattenT t) a := by
              by_contra hcon
              have hLEr : recKeyLEb cmp r1 b = true :=
                (sorted_le_iff_pos hc (sorted_pairwise hc hch)
                  hfl1).mpr (by omega)
              rw [recKeyLEb, hk1] at hLEr
              simp only [decide_eq_true_eq] at hLEr
              omega
            refine ⟨(0, 0, 0, 0, false), ?_, by intro h; omega,
              by intro _ h2; omega, by intro h _; omega, fun _ _ => rfl,
              by intro _ h2; omega⟩
            rw [hpipe1, if_neg (by omega), if_pos (by omega)]

theorem FL_min_ord {K V : Type} [LinearOrder K] {cmp : K → K → Int}
    (hc : LawCmp cmp) {t : BPT K V} (hwf : WFb cmp t = true)
    (hne : flattenT t ≠ []) (b : K) :
    ∃ res, findAndLocateRecords cmp t (GKey.sent (-1)) (GKey.ord b) =
      some res := by
  obtain ⟨recs0, hg0, hne0, hhead0, hfrMin, hlp0⟩ := findRecord_min hwf hne
  obtain ⟨hd3, hsh, hsep, hocc, hord, hchB⟩ := WFb_parts hwf
  have h1 := shape_height_pos hsh
  have hch := (chainLt_iff cmp _).mp hchB
  have hfrMin' : findRecord cmp t (GKey.sent (-1)) =
      some (List.replicate t.height 0, true) := hfrMin
  have hlp0' : leafPos t.root (List.replicate t.height 0).dropLast =
      some 0 := by
    rw [replicate_dropLast]
    exact hlp0
  have hlast0 : (List.replicate t.height 0).getLast? = some 0 :=
    replicate_getLast 0 t.height h1
  obtain ⟨r0, hr0⟩ : ∃ r0, (flattenT t).head? = some r0 := by
    cases hx : (flattenT t).head? with
    | none => rw [List.head?_eq_none_iff] at hx; exact absurd hx hne
    | some r => exact ⟨r, rfl⟩
  have hr0get : recs0.get? 0 = some r0 := by
    rw [get?_zero_eq_head, hhead0, hr0]
  have hr0mem : r0 ∈ flattenT t := List.mem_of_mem_head? hr0
  obtain ⟨x0, hx0⟩ := keysOrdb_mem hord hr0mem
  have hpipe : findAndLocateRecords cmp t (GKey.sent (-1)) (GKey.ord b) =
      if cmp x0 b = 0 then some (0, 0, 0, 0, true)
      else if cmp x0 b > 0 then some (0, 0, 0, 0, false)
      else findAndLocateRecords.findAndLocateMax cmp t (leavesOf t.root)
        r0.key (GKey.ord b) 0 0 := by
    rw [findAndLocateRecords]
    simp only []
    rw [hfrMin']
    simp only [Option.bind_eq_bind, Option.some_bind]
    rw [hlp0']
    simp only [Option.some_bind]
    rw [hlast0]
    simp only [Option.some_bind]
    rw [hg0]
    simp only [Option.some_bind, Bool.not_true, Bool.false_and,
      Bool.false_eq_true, if_false, Option.elim_some]
    rw [if_neg (show ¬(-1 : Int) = 0 by decide)]
    simp only [Bool.true_or, if_true]
    rw [hg0]
    simp only [Option.some_bind]
    rw [hr0get]
    simp only [Option.some_bind, Bool.not_false, if_true]
    rw [hx0]
    simp only [cmpG, Option.some_bind]
  rcases Int.lt_trichotomy (cmp x0 b) 0 with hcmp | hcmp | hcmp
  · obtain ⟨sub4, ok4, lp4, s4, recs4, hfr4, hok4eq, hlpos4, hlast4,
        hget4, hdisj4⟩ := max_ord_side hc hwf hne b
    subst hok4eq
    rcases hdisj4 with ⟨hok4f, hs40, hclt0, hifnone4⟩ |
      ⟨mi, rM, hmi4, hmilt4, hbM4, hrM4, hflM4, hcle1⟩
    · exfalso
      have := countLt_pos_of_present_lt hc hr0mem hx0 hcmp
      omega
    · obtain ⟨kM, hkM⟩ := keysOrdb_mem hord (List.get?_mem hflM4)
      have hmax : ∃ res2, findAndLocateRecords.findAndLocateMax cmp t
          (leavesOf t.root) r0.key (GKey.ord b) 0 0 = some res2 := by
        by_cases hok4 : ((flattenT t).any fun r =>
            decide (r.key = GKey.ord b)) = true
        · refine ⟨(0, 0, lp4, mi, true), ?_⟩
          rw [findAndLocateRecords.findAndLocateMax, hfr4]
          simp only [Option.bind_eq_bind, Option.some_bind]
          rw [hlpos4]
          simp only [Option.some_bind]
          rw [hlast4]
          simp only [Option.some_bind]
          rw [hmi4]
          simp only [Option.some_bind, Bool.false_or]
          rw [hok4]
          simp only [Bool.not_true, Bool.false_eq_true, if_false]
        · have hok4' : ((flattenT t).any fun r =>
              decide (r.key = GKey.ord b)) = false := by
            cases hx : ((flattenT t).any fun r =>
                decide (r.key = GKey.ord b)) with
            | false => rfl
            | true => exact absurd hx hok4
          refine ⟨if cmp x0 kM = 0 then (0, 0, 0, 0, true)
            else if cmp x0 kM > 0 then (0, 0, 0, 0, false)
            else (0, 0, lp4, mi, true), ?_⟩
          rw [findAndLocateRecords.findAndLocateMax, hfr4]
          simp only [Option.bind_eq_bind, Option.some_bind]
          rw [hlpos4]
          simp only [Option.some_bind]
          rw [hlast4]
          simp only [Option.some_bind]
          rw [hmi4]
          simp only [Option.some_bind, Bool.false_or]
          rw [hok4']
          simp only [Bool.not_false, if_true]
          rw [hget4]
          simp only [Option.some_bind]
          rw [hrM4]
          simp only [Option.some_bind]
          rw [hx0, hkM]
          simp only [cmpG, Option.some_bind]
          by_cases h0 : cmp x0 kM = 0
          · rw [if_pos h0, if_pos h0]
          · rw [if_neg h0, if_neg h0]
            by_cases hp : cmp x0 kM > 0
            · rw [if_pos hp, if_pos hp]
            · rw [if_neg hp, if_neg hp]
      obtain ⟨res2, hres2⟩ := hmax
      refine ⟨res2, ?_⟩
      rw [hpipe, if_neg (by omega), if_neg (by omega)]
      exact hres2
  · exact ⟨(0, 0, 0, 0, true), by rw [hpipe, if_pos hcmp]⟩
  · refine ⟨(0, 0, 0, 0, false), ?_⟩
    rw [hpipe, if_neg (by omega), if_pos hcmp]

theorem FL_max_ord {K V : Type} [LinearOrder K] {cmp : K → K → Int}
    (hc : LawCmp cmp) {t : BPT K V} (hwf : WFb cmp t = true)
    (hne : flattenT t ≠ []) (b : K) :
    ∃ res, findAndLocateRecords cmp t (GKey.sent 1) (GKey.ord b) =
      some res := by
  obtain ⟨subM, lpM, sM, recsL, hfrMax, hlenM, hlposM, hlastM, hlpeqM,
      hgetM, hneL, hseqM, hglM⟩ := findRecord_max hwf hne
  obtain ⟨hd3, hsh, hsep, hocc, hord, hchB⟩ := WFb_parts hwf
  have hch := (chainLt_iff cmp _).mp hchB
  have hfrMax' : findRecord cmp t (GKey.sent 1) = some (subM, true) := hfrMax
  obtain ⟨rL, hrL⟩ : ∃ rL, (flattenT t).getLast? = some rL := by
    cases hx : (flattenT t).getLast? with
    | none => rw [List.getLast?_eq_none_iff] at hx; exact absurd hx hne
    | some r => exact ⟨r, rfl⟩
  have hrLget : recsL.get? sM = some rL := by
    rw [hseqM, get?_last_eq_getLast recsL hneL, hglM, hrL]
  have hrLmem : rL ∈ flattenT t := by
    have := List.get?_mem hrLget
    rw [show flattenT t = (leavesOf t.root).flatten from rfl]
    rw [← flatten_get _ _ _ _ hgetM (by
      have hl : sM < recsL.length := by
        have : 1 ≤ recsL.length := by
          cases recsL with
          | nil => exact absurd rfl hneL
          | cons x xs => simp
        omega
      exact hl)] at hrLget
    exact List.get?_mem hrLget
  obtain ⟨xL, hxL⟩ := keysOrdb_mem hord hrLmem
  have hpipe : findAndLocateRecords cmp t (GKey.sent 1) (GKey.ord b) =
      if cmp xL b = 0 then some (lpM, sM, lpM, sM, true)
      else if cmp xL b > 0 then some (0, 0, 0, 0, false)
      else findAndLocateRecords.findAndLocateMax cmp t (leavesOf t.root)
        rL.key (GKey.ord b) lpM sM := by
    rw [findAndLocateRecords]
    simp only []
    rw [hfrMax']
    simp only [Option.bind_eq_bind, Option.some_bind]
    rw [hlposM]
    simp only [Option.some_bind]
    rw [hlastM]
    simp only [Option.some_bind]
    rw [hgetM]
    simp only [Option.some_bind, Bool.not_true, Bool.false_and,
      Bool.false_eq_true, if_false, Option.elim_some]
    rw [if_neg (show ¬(-1 : Int) = 0 by decide)]
    simp only [Bool.true_or, if_true]
    rw [hgetM]
    simp only [Option.some_bind]
    rw [hrLget]
    simp only [Option.some_bind, Bool.not_false, if_true]
    rw [hxL]
    simp only [cmpG, Option.some_bind]
  rcases Int.lt_trichotomy (cmp xL b) 0 with hcmp | hcmp | hcmp
  · obtain ⟨sub4, ok4, lp4, s4, recs4, hfr4, hok4eq, hlpos4, hlast4,
        hget4, hdisj4⟩ := max_ord_side hc hwf hne b
    subst hok4eq
    rcases hdisj4 with ⟨hok4f, hs40, hclt0, hifnone4⟩ |
      ⟨mi, rM, hmi4, hmilt4, hbM4, hrM4, hflM4, hcle1⟩
    · exfalso
      have := countLt_pos_of_present_lt hc hrLmem hxL hcmp
      omega
    · obtain ⟨kM, hkM⟩ := keysOrdb_mem hord (List.get?_mem hflM4)
      have hmax : ∃ res2, findAndLocateRecords.findAndLocateMax cmp t
          (leavesOf t.root) rL.key (GKey.ord b) lpM sM = some res2 := by
        by_cases hok4 : ((flattenT t).any fun r =>
            decide (r.key = GKey.ord b)) = true
        · refine ⟨(lpM, sM, lp4, mi, true), ?_⟩
          rw [findAndLocateRecords.findAndLocateMax, hfr4]
          simp only [Option.bind_eq_bind, Option.some_bind]
          rw [hlpos4]
          simp only [Option.some_bind]
          rw [hlast4]
          simp only [Option.some_bind]
          rw [hmi4]
          simp only [Option.some_bind, Bool.false_or]
          rw [hok4]
          simp only [Bool.not_true, Bool.false_eq_true, if_false]
        · have hok4' : ((flattenT t).any fun r =>
              decide (r.key = GKey.ord b)) = false := by
            cases hx : ((flattenT t).any fun r =>
                decide (r.key = GKey.ord b)) with
            | false => rfl
            | true => exact absurd hx hok4
          refine ⟨if cmp xL kM = 0 then (lpM, sM, lpM, sM, true)
            else if cmp xL kM > 0 then (0, 0, 0, 0, false)
            else (lpM, sM, lp4, mi, true), ?_⟩
          rw [findAndLocateRecords.findAndLocateMax, hfr4]
          simp only [Option.bind_eq_bind, Option.some_bind]
          rw [hlpos4]
          simp only [Option.some_bind]
          rw [hlast4]
          simp only [Option.some_bind]
          rw [hmi4]
          simp only [Option.some_bind, Bool.false_or]
          rw [hok4']
          simp only [Bool.not_false, if_true]
          rw [hget4]
          simp only [Option.some_bind]
          rw [hrM4]
          simp only [Option.some_bind]
          rw [hxL, hkM]
          simp only [cmpG, Option.some_bind]
          by_cases h0 : cmp xL kM = 0
          · rw [if_pos h0, if_pos h0]
          · rw [if_neg h0, if_neg h0]
            by_cases hp : cmp xL kM > 0
            · rw [if_pos hp, if_pos hp]
            · rw [if_neg hp, if_neg hp]
      obtain ⟨res2, hres2⟩ := hmax
      refine ⟨res2, ?_⟩
      rw [hpipe, if_neg (by omega), if_neg (by omega)]
      exact hres2
  · exact ⟨(lpM, sM, lpM, sM, true), by rw [hpipe, if_pos hcmp]⟩
  · refine ⟨(0, 0, 0, 0, false), ?_⟩
    rw [hpipe, if_neg (by omega), if_pos hcmp]

theorem FLmax_sent_total {K V : Type} [LinearOrder K] {cmp : K → K → Int}
    (hc : LawCmp cmp) {t : BPT K V} (hwf : WFb cmp t = true)
    (hne : flattenT t ≠ []) (kc : K) (ml mi : Nat) (s : Int)
    (hs : s = -1 ∨ s = 1) :
    ∃ res, findAndLocateRecords.findAndLocateMax cmp t (leavesOf t.root)
      (GKey.ord kc) (GKey.sent s) ml mi = some res := by
  obtain ⟨hd3, hsh, hsep, hocc, hord, hchB⟩ := WFb_parts hwf
  have h1 := shape_height_pos hsh
  rcases hs with hs | hs
  · subst hs
    obtain ⟨recs0, hg0, hne0, hhead0, hfrMin, hlp0⟩ := findRecord_min hwf hne
    have hfrMin' : findRecord cmp t (GKey.sent (-1)) =
        some (List.replicate t.height 0, true) := hfrMin
    have hlp0' : leafPos t.root (List.replicate t.height 0).dropLast =
        some 0 := by
      rw [replicate_dropLast]
      exact hlp0
    have hlast0 : (List.replicate t.height 0).getLast? = some 0 :=
      replicate_getLast 0 t.height h1
    obtain ⟨r0, hr0⟩ : ∃ r0, (flattenT t).head? = some r0 := by
      cases hx : (flattenT t).head? with
      | none => rw [List.head?_eq_none_iff] at hx; exact absurd hx hne
      | some r => exact ⟨r, rfl⟩
    have hr0get : recs0.get? 0 = some r0 := by
      rw [get?_zero_eq_head, hhead0, hr0]
    obtain ⟨x0, hx0⟩ := keysOrdb_mem hord (List.mem_of_mem_head? hr0)
    refine ⟨if cmp kc x0 = 0 then (ml, mi, ml, mi, true)
      else if cmp kc x0 > 0 then (0, 0, 0, 0, false)
      else (ml, mi, 0, 0, true), ?_⟩
    rw [findAndLocateRecords.findAndLocateMax, hfrMin']
    simp only [Option.bind_eq_bind, Option.some_bind]
    rw [hlp0']
    simp only [Option.some_bind]
    rw [hlast0]
    simp only [Option.some_bind, if_true, Bool.true_or]
    rw [hg0]
    simp only [Option.some_bind]
    rw [hr0get]
    simp only [Option.some_bind]
    rw [hx0]
    simp only [cmpG, Option.some_bind]
    by_cases h0 : cmp kc x0 = 0
    · rw [if_pos h0, if_pos h0]
    · rw [if_neg h0, if_neg h0]
      by_cases hp : cmp kc x0 > 0
      · rw [if_pos hp, if_pos hp]
      · rw [if_neg hp, if_neg hp]
  · subst hs
    obtain ⟨subM, lpM, sM, recsL, hfrMax, hlenM, hlposM, hlastM, hlpeqM,
        hgetM, hneL, hseqM, hglM⟩ := findRecord_max hwf hne
    have hfrMax' : findRecord cmp t (GKey.sent 1) = some (subM, true) :=
      hfrMax
    obtain ⟨rL, hrL⟩ : ∃ rL, (flattenT t).getLast? = some rL := by
      cases hx : (flattenT t).getLast? with
      | none => rw [List.getLast?_eq_none_iff] at hx; exact absurd hx hne
      | some r => exact ⟨r, rfl⟩
    have hrLget : recsL.get? sM = some rL := by
      rw [hseqM, get?_last_eq_getLast recsL hneL, hglM, hrL]
    have hsMlt : sM < recsL.length := by
      have : 1 ≤ recsL.length := by
        cases recsL with
        | nil => exact absurd rfl hneL
        | cons x xs => simp
      omega
    have hrLmem : rL ∈ flattenT t := by
      rw [show flattenT t = (leavesOf t.root).flatten from rfl]
      rw [← flatten_get _ _ _ _ hgetM hsMlt] at hrLget
      exact List.get?_mem hrLget
    obtain ⟨xL, hxL⟩ := keysOrdb_mem hord hrLmem
    refine ⟨if cmp kc xL = 0 then (ml, mi, ml, mi, true)
      else if cmp kc xL > 0 then (0, 0, 0, 0, false)
      else (ml, mi, lpM, sM, true), ?_⟩
    rw [findAndLocateRecords.findAndLocateMax, hfrMax']
    simp only [Option.bind_eq_bind, Option.some_bind]
    rw [hlposM]
    simp only [Option.some_bind]
    rw [hlastM]
    simp only [Option.some_bind, if_true, Bool.true_or]
    rw [hgetM]
    simp only [Option.some_bind]
    rw [hrLget]
    simp only [Option.some_bind]
    rw [hxL]
    simp only [cmpG, Option.some_bind]
    by_cases h0 : cmp kc xL = 0
    · rw [if_pos h0, if_pos h0]
    · rw [if_neg h0, if_neg h0]
      by_cases hp : cmp kc xL > 0
      · rw [if_pos hp, if_pos hp]
      · rw [if_neg hp, if_neg hp]

theorem FL_ord_sent {K V : Type} [LinearOrder K] {cmp : K → K → Int}
    (hc : LawCmp cmp) {t : BPT K V} (hwf : WFb cmp t = true)
    (hne : flattenT t ≠ []) (a : K) (s : Int) (hs : s = -1 ∨ s = 1) :
    ∃ res, findAndLocateRecords cmp t (GKey.ord a) (GKey.sent s) =
      some res := by
  obtain ⟨hd3, hsh, hsep, hocc, hord, hchB⟩ := WFb_parts hwf
  obtain ⟨sub3, ok3, lp3, s3, recs3, hfr3, hok3eq, hlpos3, hlast3, hget3,
      hdisj⟩ := min_ord_adjust hc hwf hne a
  subst hok3eq
  rcases hdisj with ⟨hcltN, hok3f, hifnone⟩ |
    ⟨lp, sl, recs, r1, hifeq, hgetp, hslt, hbpos, hr1, hfl1, hcltN⟩
  · refine ⟨(0, 0, 0, 0, false), ?_⟩
    rw [findAndLocateRecords]
    simp only []
    rw [hfr3]
    simp only [Option.bind_eq_bind, Option.some_bind]
    rw [hlpos3]
    simp only [Option.some_bind]
    rw [hlast3]
    simp only [Option.some_bind]
    rw [hget3]
    simp only [Option.some_bind]
    rw [hifnone]
    rfl
  · obtain ⟨k1, hk1⟩ := keysOrdb_mem hord (List.get?_mem hfl1)
    by_cases hok3 : ((flattenT t).any fun r =>
        decide (r.key = GKey.ord a)) = true
    · obtain ⟨res2, hres2⟩ := FLmax_sent_total hc hwf hne a lp sl s hs
      refine ⟨res2, ?_⟩
      rw [findAndLocateRecords]
      simp only []
      rw [hfr3]
      simp only [Option.bind_eq_bind, Option.some_bind]
      rw [hlpos3]
      simp only [Option.some_bind]
      rw [hlast3]
      simp only [Option.some_bind]
      rw [hget3]
      simp only [Option.some_bind]
      rw [hifeq]
      simp only [Option.elim_some]
      rw [if_neg (show ¬(-1 : Int) = 0 by decide)]
      simp only [Bool.false_or]
      rw [hok3]
      simp only [Bool.not_true, Bool.false_eq_true, if_false]
      exact hres2
    · have hok3' : ((flattenT t).any fun r =>
          decide (r.key = GKey.ord a)) = false := by
        cases hx : ((flattenT t).any fun r =>
            decide (r.key = GKey.ord a)) with
        | false => rfl
        | true => exact absurd hx hok3
      obtain ⟨res2, hres2⟩ := FLmax_sent_total hc hwf hne k1 lp sl s hs
      refine ⟨res2, ?_⟩
      rw [findAndLocateRecords]
      simp only []
      rw [hfr3]
      simp only [Option.bind_eq_bind, Option.some_bind]
      rw [hlpos3]
      simp only [Option.some_bind]
      rw [hlast3]
      simp only [Option.some_bind]
      rw [hget3]
      simp only [Option.some_bind]
      rw [hifeq]
      simp only [Option.elim_some]
      rw [if_neg (show ¬(-1 : Int) = 0 by decide)]
      simp only [Bool.false_or]
      rw [hok3']
      simp only [Bool.not_false, if_true]
      rw [hgetp]
      simp only [Option.some_bind]
      rw [hr1]
      simp only [Option.some_bind, Bool.not_true, Bool.false_eq_true,
        if_false]
      rw [hk1]
      exact hres2

theorem intCmp_lawful : LawCmp intCmp := by
  refine ⟨fun a b => ?_, fun a b => ?_⟩
  · rw [intCmp]
    rcases lt_trichotomy a b with h | h | h
    · rw [if_pos h]
      exact ⟨fun _ => h, fun _ => by decide⟩
    · rw [if_neg (by omega), if_pos h]
      exact ⟨fun hcon => by omega, fun hcon => by omega⟩
    · rw [if_neg (by omega), if_neg (by omega)]
      exact ⟨fun hcon => by omega, fun hcon => by omega⟩
  · rw [intCmp]
    rcases lt_trichotomy a b with h | h | h
    · rw [if_pos h]
      exact ⟨fun hcon => by omega, fun hcon => by omega⟩
    · rw [if_neg (by omega), if_pos h]
      exact ⟨fun _ => h, fun _ => rfl⟩
    · rw [if_neg (by omega), if_neg (by omega)]
      exact ⟨fun hcon => by omega, fun hcon => by omega⟩

theorem flattenT_as_flatten {K V : Type} (t : BPT K V) :
    (leavesOf t.root).flatten = flattenT t := rfl

/-- C2, amended: `SearchForward(KEY_MIN, KEY_MAX)` enumerates exactly the
records of the tree in (ascending) leaf order, `SearchBackward` with the
same argument order, `SearchBackward(KEY_MIN, KEY_MAX)`, enumerates the
reverse sequence, and `SearchBackward(KEY_MAX, KEY_MIN)` — the order the
original claim uses — yields an empty iteration whenever the tree holds
two or more records. -/
theorem C2_amended_minmax_enumeration {K V : Type} [LinearOrder K]
    (cmp : K → K → Int) (hc : LawCmp cmp) (t : BPT K V)
    (hwf : WFb cmp t = true) :
    forwardList cmp t KeyMin KeyMax =
      some ((flattenT t).map fun r => (r.key, r.val)) ∧
    backwardList cmp t KeyMin KeyMax =
      some (((flattenT t).map fun r => (r.key, r.val)).reverse) ∧
    (2 ≤ (flattenT t).length → backwardList cmp t KeyMax KeyMin = some []) := by
  have hKM : (KeyMin : GKey K) = GKey.sent (-1) := rfl
  have hKX : (KeyMax : GKey K) = GKey.sent 1 := rfl
  by_cases hemp : flattenT t = []
  · obtain ⟨hroot, hh⟩ := WFb_empty_shape hwf hemp
    have hfl := @FL_empty _ _ cmp _ hroot hh
    refine ⟨?_, ?_, ?_⟩
    · rw [forwardList, searchForward, hfl KeyMin KeyMax]
      simp only [Option.bind_eq_bind, Option.some_bind]
      rw [hemp]
      rfl
    · rw [backwardList, searchBackward, hfl KeyMin KeyMax]
      simp only [Option.bind_eq_bind, Option.some_bind]
      rw [hemp]
      rfl
    · intro hN2
      rw [hemp] at hN2
      simp at hN2
  · obtain ⟨lpL, sL, recs0, recsL, hFL, hg0, hlen0, hlpLeq, hgetL, hlenL,
        hsLeq⟩ := FL_minmax hc hwf hemp
    have hlneAll := WFb_leaves_ne hwf hemp
    have hN1 : 1 ≤ (flattenT t).length := by
      have := List.length_pos.mpr hemp
      omega
    have hLpos : lpL < (leavesOf t.root).length :=
      (List.get?_eq_some.mp hgetL).1
    have hbL : leavesBefore (leavesOf t.root) lpL + sL =
        (flattenT t).length - 1 := by
      have hsucc := leavesBefore_succ hgetL
      have hfull : leavesBefore (leavesOf t.root)
          (leavesOf t.root).length = (flattenT t).length := by
        rw [leavesBefore_full, flattenT_as_flatten]
      have hL1 : lpL + 1 = (leavesOf t.root).length := by omega
      rw [hL1] at hsucc
      omega
    have hslice := iterListF_slice (leavesOf t.root) hlneAll
      ((flattenT t).length - 1) ((flattenT t).length + 2) 0 0 0 lpL sL
      recs0 recsL hg0 hlen0 (by simp [leavesBefore]) hgetL (by omega)
      (by omega) (by omega)
    have hsliceB := iterListB_slice (leavesOf t.root) hlneAll
      ((flattenT t).length - 1) ((flattenT t).length + 2) 0 0 0 lpL sL
      recs0 recsL hg0 hlen0 (by simp [leavesBefore]) hgetL (by omega)
      (by omega) (by omega)
    have hmass : ((leavesOf t.root).flatten.drop 0).take
        ((flattenT t).length - 1 + 1) = flattenT t := by
      rw [List.drop_zero, show (flattenT t).length - 1 + 1 =
        (flattenT t).length by omega, flattenT_as_flatten,
        List.take_length]
    rw [hmass] at hslice hsliceB
    refine ⟨?_, ?_, ?_⟩
    · rw [forwardList, searchForward, hKM, hKX, hFL]
      simp only [Option.bind_eq_bind, Option.some_bind]
      exact hslice
    · rw [backwardList, searchBackward, hKM, hKX, hFL]
      simp only [Option.bind_eq_bind, Option.some_bind]
      exact hsliceB
    · intro hN2
      obtain ⟨res, hres, himp⟩ := FL_maxmin hc hwf hemp
      rw [backwardList, searchBackward, hKX, hKM, hres, himp hN2]
      simp only [Option.bind_eq_bind, Option.some_bind]
      rfl

theorem C2_amended_minmax_enumeration_witness :
    WFb intCmp (⟨5, BNode.lf [⟨GKey.ord 10, 1⟩, ⟨GKey.ord 20, 2⟩], 1⟩ :
      BPT Int Int) = true ∧
    (forwardList intCmp
        (⟨5, BNode.lf [⟨GKey.ord 10, 1⟩, ⟨GKey.ord 20, 2⟩], 1⟩ :
          BPT Int Int) KeyMin KeyMax =
      some ((flattenT (⟨5, BNode.lf [⟨GKey.ord 10, 1⟩, ⟨GKey.ord 20, 2⟩],
        1⟩ : BPT Int Int)).map fun r => (r.key, r.val)) ∧
    backwardList intCmp
        (⟨5, BNode.lf [⟨GKey.ord 10, 1⟩, ⟨GKey.ord 20, 2⟩], 1⟩ :
          BPT Int Int) KeyMin KeyMax =
      some (((flattenT (⟨5, BNode.lf [⟨GKey.ord 10, 1⟩, ⟨GKey.ord 20, 2⟩],
        1⟩ : BPT Int Int)).map fun r => (r.key, r.val)).reverse) ∧
    (2 ≤ (flattenT (⟨5, BNode.lf [⟨GKey.ord 10, 1⟩, ⟨GKey.ord 20, 2⟩], 1⟩ :
        BPT Int Int)).length →
      backwardList intCmp
        (⟨5, BNode.lf [⟨GKey.ord 10, 1⟩, ⟨GKey.ord 20, 2⟩], 1⟩ :
          BPT Int Int) KeyMax KeyMin = some [])) :=
  ⟨by decide,
   C2_amended_minmax_enumeration intCmp intCmp_lawful
     (⟨5, BNode.lf [⟨GKey.ord 10, 1⟩, ⟨GKey.ord 20, 2⟩], 1⟩ : BPT Int Int)
     (by decide)⟩

theorem notLt_propagate {K : Type} [LinearOrder K] {V : Type}
    {cmp : K → K → Int} (hc : LawCmp cmp) {r y : Rec K V} {x z lo : K}
    (hx : r.key = GKey.ord x) (hnlt : ¬ cmp x lo < 0)
    (hlt : recLt cmp r y = true) (hz : y.key = GKey.ord z) :
    ¬ cmp z lo < 0 := by
  rw [recLt, hx, hz] at hlt
  simp only [decide_eq_true_eq] at hlt
  have hxz : x < z := (hc.lt_iff x z).mp hlt
  have hxlo : lo ≤ x := by
    by_contra hcon
    push_neg at hcon
    exact hnlt ((hc.lt_iff x lo).mpr hcon)
  intro hcon
  have hzlo := (hc.lt_iff z lo).mp hcon
  have : x < lo := lt_trans hxz hzlo
  exact absurd this (not_lt.mpr hxlo)

theorem filter_eq_slice {K : Type} [LinearOrder K] {V : Type}
    {cmp : K → K → Int} (hc : LawCmp cmp) {lo hi : K}
    (hlohi : cmp lo hi ≤ 0) :
    ∀ F : List (Rec K V),
      List.Chain' (fun a b => recLt cmp a b = true) F →
      keysOrdb F = true →
      F.filter (recInClosed cmp lo hi) =
        (F.drop (countLt cmp F lo)).take
          (countLE cmp F hi - countLt cmp F lo)
  | [], _, _ => rfl
  | r :: F', hch, hord => by
    have hch' : List.Chain' (fun a b => recLt cmp a b = true) F' :=
      (List.chain'_cons'.mp hch).2
    have hord' : keysOrdb F' = true := by
      rw [keysOrdb, List.all_eq_true] at hord ⊢
      intro x hx
      exact hord x (List.mem_cons_of_mem r hx)
    have hheadrel : ∀ y ∈ F', recLt cmp r y = true := by
      intro y hy
      exact List.rel_of_pairwise_cons (sorted_pairwise hc hch) hy
    obtain ⟨x, hx⟩ := keysOrdb_mem hord (List.mem_cons_self r F')
    have hih := filter_eq_slice hc hlohi F' hch' hord'
    have hlohi' : lo ≤ hi := by
      rcases lt_or_eq_of_le hlohi with h | h
      · exact le_of_lt ((hc.lt_iff lo hi).mp h)
      · exact le_of_eq ((hc.eq_iff lo hi).mp h)
    by_cases hrlo : cmp x lo < 0
    · -- r < lo: head dropped, all counts shift by one
      have hltb : recKeyLtb cmp r lo = true := by
        rw [recKeyLtb, hx]
        simpa using hrlo
      have hleb : recKeyLEb cmp r hi = true := by
        rw [recKeyLEb, hx]
        simp only [decide_eq_true_eq]
        have h1 : x < lo := (hc.lt_iff x lo).mp hrlo
        have h2 : x < hi := lt_of_lt_of_le h1 hlohi'
        have := (hc.lt_iff x hi).mpr h2
        omega
      have hinc : recInClosed cmp lo hi r = false := by
        rw [recInClosed, hx]
        simp only [Bool.and_eq_false_iff, decide_eq_false_iff_not, not_le]
        left
        have h1 : x < lo := (hc.lt_iff x lo).mp hrlo
        exact (hc.gt_iff lo x).mpr h1
      have hclt : countLt cmp (r :: F') lo = countLt cmp F' lo + 1 := by
        rw [countLt, countLt, List.countP_cons, hltb]
        simp
      have hcle : countLE cmp (r :: F') hi = countLE cmp F' hi + 1 := by
        rw [countLE, countLE, List.countP_cons, hleb]
        simp
      rw [List.filter_cons, hinc]
      simp only [Bool.false_eq_true, if_false]
      rw [hclt, hcle, List.drop_succ_cons]
      rw [show countLE cmp F' hi + 1 - (countLt cmp F' lo + 1) =
        countLE cmp F' hi - countLt cmp F' lo by omega]
      exact hih
    · -- lo ≤ r: nothing before the head is dropped
      have hclt0 : countLt cmp F' lo = 0 := by
        rw [countLt, List.countP_eq_zero]
        intro y hy
        obtain ⟨z, hz⟩ := keysOrdb_mem hord' hy
        rw [recKeyLtb, hz]
        simp only [decide_eq_true_eq]
        exact notLt_propagate hc hx hrlo (hheadrel y hy) hz
      have hcltc : countLt cmp (r :: F') lo = 0 := by
        rw [countLt, List.countP_cons, ← countLt, hclt0]
        have : recKeyLtb cmp r lo = false := by
          rw [recKeyLtb, hx]
          simpa using hrlo
        rw [this]
        simp
      rw [hcltc, List.drop_zero, Nat.sub_zero]
      by_cases hrhi : cmp x hi ≤ 0
      · -- head in range
        have hleb : recKeyLEb cmp r hi = true := by
          rw [recKeyLEb, hx]
          simpa using hrhi
        have hinc : recInClosed cmp lo hi r = true := by
          rw [recInClosed, hx]
          simp only [Bool.and_eq_true, decide_eq_true_eq]
          refine ⟨?_, hrhi⟩
          have hlx : lo ≤ x := by
            by_contra hcon
            push_neg at hcon
            exact hrlo ((hc.lt_iff x lo).mpr hcon)
          rcases lt_or_eq_of_le hlx with h | h
          · have := (hc.lt_iff lo x).mpr h
            omega
          · have := (hc.eq_iff lo x).mpr h
            omega
        have hcle : countLE cmp (r :: F') hi = countLE cmp F' hi + 1 := by
          rw [countLE, countLE, List.countP_cons, hleb]
          simp
        rw [List.filter_cons, hinc]
        simp only [if_true]
        rw [hcle, show countLE cmp F' hi + 1 = (countLE cmp F' hi) + 1
          from rfl, List.take_succ_cons]
        rw [hih, hclt0, List.drop_zero, Nat.sub_zero]
      · -- head above hi: everything above too
        have hgt : 0 < cmp x hi := by omega
        have hinc : recInClosed cmp lo hi r = false := by
          rw [recInClosed, hx]
          simp only [Bool.and_eq_false_iff, decide_eq_false_iff_not, not_le]
          right
          omega
        have hcle0 : countLE cmp F' hi = 0 := by
          rw [countLE, List.countP_eq_zero]
          intro y hy
          obtain ⟨z, hz⟩ := keysOrdb_mem hord' hy
          have := gt_propagate hc hx hgt (Or.inr (hheadrel y hy)) hz
          rw [recKeyLEb, hz]
          simp only [decide_eq_true_eq]
          omega
        have hclec : countLE cmp (r :: F') hi = 0 := by
          rw [countLE, List.countP_cons, ← countLE, hcle0]
          have : recKeyLEb cmp r hi = false := by
            rw [recKeyLEb, hx]
            simpa using hrhi
          rw [this]
          simp
        rw [List.filter_cons, hinc]
        simp only [Bool.false_eq_true, if_false]
        rw [hclec]
        simp only [List.take_zero]
        rw [List.filter_eq_nil]
        intro y hy
        obtain ⟨z, hz⟩ := keysOrdb_mem hord' hy
        have := gt_propagate hc hx hgt (Or.inr (hheadrel y hy)) hz
        rw [recInClosed, hz]
        simp only [Bool.and_eq_false_iff, decide_eq_false_iff_not, not_le,
          Bool.not_eq_true]
        right
        omega

/-- C3, amended: both searches treat their first parameter as the low bound
despite the documented order: for ordinary keys with `compare(lo, hi) < 0`,
`SearchForward(lo, hi)` enumerates exactly the records with keys in
`[lo, hi]` in ascending order and `SearchBackward(lo, hi)` enumerates them
in descending order, while passing the bounds in the documented order
(`hi` first) yields an empty iteration. -/
theorem C3_amended_range_enumeration {K V : Type} [LinearOrder K]
    (cmp : K → K → Int) (hc : LawCmp cmp) (t : BPT K V)
    (hwf : WFb cmp t = true) (lo hi : K) :
    (cmp lo hi < 0 →
      forwardList cmp t (GKey.ord lo) (GKey.ord hi) =
        some (((flattenT t).filter (recInClosed cmp lo hi)).map
          fun r => (r.key, r.val)) ∧
      backwardList cmp t (GKey.ord lo) (GKey.ord hi) =
        some ((((flattenT t).filter (recInClosed cmp lo hi)).map
          fun r => (r.key, r.val)).reverse)) ∧
    (0 < cmp lo hi →
      forwardList cmp t (GKey.ord lo) (GKey.ord hi) = some [] ∧
      backwardList cmp t (GKey.ord lo) (GKey.ord hi) = some []) := by
  obtain ⟨hd3, hsh, hsep, hocc, hord, hchB⟩ := WFb_parts hwf
  have hch := (chainLt_iff cmp _).mp hchB
  by_cases hemp : flattenT t = []
  · obtain ⟨hroot, hh⟩ := WFb_empty_shape hwf hemp
    have hfl := @FL_empty _ _ cmp _ hroot hh (GKey.ord lo) (GKey.ord hi)
    have hfwd : forwardList cmp t (GKey.ord lo) (GKey.ord hi) = some [] := by
      rw [forwardList, searchForward, hfl]
      simp only [Option.bind_eq_bind, Option.some_bind]
      rw [hemp]
      rfl
    have hbwd : backwardList cmp t (GKey.ord lo) (GKey.ord hi) =
        some [] := by
      rw [backwardList, searchBackward, hfl]
      simp only [Option.bind_eq_bind, Option.some_bind]
      rw [hemp]
      rfl
    refine ⟨fun _ => ⟨?_, ?_⟩, fun _ => ⟨hfwd, hbwd⟩⟩
    · rw [hfwd, hemp]
      rfl
    · rw [hbwd, hemp]
      rfl
  · have hlneAll := WFb_leaves_ne hwf hemp
    obtain ⟨res, hres, hgtC, hTailC, hEqC, hEmptyC, hRangeC⟩ :=
      FL_ordord hc hwf hemp lo hi
    have hleN : countLE cmp (flattenT t) hi ≤ (flattenT t).length :=
      List.countP_le_length _
    refine ⟨fun hlt => ?_, fun hgt => ?_⟩
    · have hfilter := filter_eq_slice hc (le_of_lt hlt) (flattenT t)
        hch hord
      rcases Nat.lt_or_ge (countLt cmp (flattenT t) lo)
          (countLE cmp (flattenT t) hi) with hrange | hempty
      · obtain ⟨l1, s1, recs1, l2, s2, recs2, hresE, hget1, hs1, hb1,
          hget2, hs2, hb2⟩ := hRangeC hlt hrange
        subst hresE
        have hb2' : leavesBefore (leavesOf t.root) l2 + s2 =
            countLt cmp (flattenT t) lo +
              (countLE cmp (flattenT t) hi - 1 -
                countLt cmp (flattenT t) lo) := by
          rw [hb2]
          exact (Nat.add_sub_cancel' (Nat.le_sub_one_of_lt hrange)).symm
        have hfuel : (countLE cmp (flattenT t) hi - 1 -
            countLt cmp (flattenT t) lo) + 2 ≤
            (flattenT t).length + 2 :=
          Nat.add_le_add_right
            (le_trans (Nat.sub_le _ _) (le_trans (Nat.sub_le _ _) hleN)) 2
        have hsliceF := iterListF_slice (leavesOf t.root) hlneAll
          (countLE cmp (flattenT t) hi - 1 - countLt cmp (flattenT t) lo)
          ((flattenT t).length + 2) (countLt cmp (flattenT t) lo)
          l1 s1 l2 s2 recs1 recs2 hget1 hs1 hb1 hget2 hs2 hb2' hfuel
        have hsliceB := iterListB_slice (leavesOf t.root) hlneAll
          (countLE cmp (flattenT t) hi - 1 - countLt cmp (flattenT t) lo)
          ((flattenT t).length + 2) (countLt cmp (flattenT t) lo)
          l1 s1 l2 s2 recs1 recs2 hget1 hs1 hb1 hget2 hs2 hb2' hfuel
        have hmass : ((leavesOf t.root).flatten.drop
            (countLt cmp (flattenT t) lo)).take
            (countLE cmp (flattenT t) hi - 1 -
              countLt cmp (flattenT t) lo + 1) =
            (flattenT t).filter (recInClosed cmp lo hi) := by
          rw [hfilter, flattenT_as_flatten]
          congr 1
          omega
        rw [hmass] at hsliceF hsliceB
        constructor
        · rw [forwardList, searchForward, hres]
          simp only [Option.bind_eq_bind, Option.some_bind]
          exact hsliceF
        · rw [backwardList, searchBackward, hres]
          simp only [Option.bind_eq_bind, Option.some_bind]
          exact hsliceB
      · have hresE := hEmptyC hlt hempty
        subst hresE
        have hfe : (flattenT t).filter (recInClosed cmp lo hi) = [] := by
          rw [hfilter, show countLE cmp (flattenT t) hi -
            countLt cmp (flattenT t) lo = 0 by omega]
          simp
        constructor
        · rw [forwardList, searchForward, hres]
          simp only [Option.bind_eq_bind, Option.some_bind]
          rw [hfe]
          rfl
        · rw [backwardList, searchBackward, hres]
          simp only [Option.bind_eq_bind, Option.some_bind]
          rw [hfe]
          rfl
    · have hresE := hgtC hgt
      subst hresE
      constructor
      · rw [forwardList, searchForward, hres]
        simp only [Option.bind_eq_bind, Option.some_bind]
        rfl
      · rw [backwardList, searchBackward, hres]
        simp only [Option.bind_eq_bind, Option.some_bind]
        rfl

theorem C3_amended_range_enumeration_witness :
    (intCmp 15 25 < 0 ∧ 0 < intCmp 25 15) ∧
    WFb intCmp (⟨5, BNode.lf [⟨GKey.ord 10, 1⟩, ⟨GKey.ord 20, 2⟩,
      ⟨GKey.ord 30, 3⟩], 1⟩ : BPT Int Int) = true ∧
    ((intCmp 15 25 < 0 →
      forwardList intCmp (⟨5, BNode.lf [⟨GKey.ord 10, 1⟩, ⟨GKey.ord 20, 2⟩,
          ⟨GKey.ord 30, 3⟩], 1⟩ : BPT Int Int) (GKey.ord 15)
          (GKey.ord 25) =
        some (((flattenT (⟨5, BNode.lf [⟨GKey.ord 10, 1⟩, ⟨GKey.ord 20, 2⟩,
          ⟨GKey.ord 30, 3⟩], 1⟩ : BPT Int Int)).filter
            (recInClosed intCmp 15 25)).map fun r => (r.key, r.val)) ∧
      backwardList intCmp (⟨5, BNode.lf [⟨GKey.ord 10, 1⟩,
          ⟨GKey.ord 20, 2⟩, ⟨GKey.ord 30, 3⟩], 1⟩ : BPT Int Int)
          (GKey.ord 15) (GKey.ord 25) =
        some ((((flattenT (⟨5, BNode.lf [⟨GKey.ord 10, 1⟩,
          ⟨GKey.ord 20, 2⟩, ⟨GKey.ord 30, 3⟩], 1⟩ : BPT Int Int)).filter
            (recInClosed intCmp 15 25)).map
              fun r => (r.key, r.val)).reverse)) ∧
    (0 < intCmp 15 25 →
      forwardList intCmp (⟨5, BNode.lf [⟨GKey.ord 10, 1⟩, ⟨GKey.ord 20, 2⟩,
          ⟨GKey.ord 30, 3⟩], 1⟩ : BPT Int Int) (GKey.ord 15)
          (GKey.ord 25) = some [] ∧
      backwardList intCmp (⟨5, BNode.lf [⟨GKey.ord 10, 1⟩,
          ⟨GKey.ord 20, 2⟩, ⟨GKey.ord 30, 3⟩], 1⟩ : BPT Int Int)
          (GKey.ord 15) (GKey.ord 25) = some [])) :=
  ⟨by decide, by decide,
   C3_amended_range_enumeration intCmp intCmp_lawful
     (⟨5, BNode.lf [⟨GKey.ord 10, 1⟩, ⟨GKey.ord 20, 2⟩, ⟨GKey.ord 30, 3⟩],
       1⟩ : BPT Int Int) (by decide) 15 25⟩

/-- C7 counterexample: on the tree `{10, 30}` the search with the equal
ordinary bounds `(20, 20)` — an interval containing no record — returns an
iterator that is not at its end and enumerates the record `30`, outside the
interval. -/
theorem C7_counterexample_equal_bounds_quirk :
    ((BPT.Init Int Int 5).bind fun t0 =>
      (runOps intCmp t0 [.add (.ord 10) 1, .add (.ord 30) 3]).bind fun t =>
        (searchForward intCmp t (.ord 20) (.ord 20)).map
          fun it => it.isAtEnd) = some false ∧
    ((BPT.Init Int Int 5).bind fun t0 =>
      (runOps intCmp t0 [.add (.ord 10) 1, .add (.ord 30) 3]).bind fun t =>
        forwardList intCmp t (.ord 20) (.ord 20)) =
      some [(GKey.ord 30, 3)] := by
  exact ⟨rfl, rfl⟩

/-- C7, amended: on a tree satisfying the §8 invariants every search with
ordinary-or-sentinel bounds completes without failure (no record access is
out of range; in particular the decremented high-bound slot is never
dereferenced at `-1`); the iterator starts at its end on the empty tree,
when the ordinary bounds are passed reversed, and when no record lies in
`[lo, hi]` for strictly ordered ordinary bounds — the one exception being
equal ordinary bounds on an absent key, where the iterator can start on
the record at the key's insertion position. -/
theorem C7_amended_search_safety {K V : Type} [LinearOrder K]
    (cmp : K → K → Int) (hc : LawCmp cmp) (t : BPT K V)
    (hwf : WFb cmp t = true) :
    (∀ a b : GKey K,
      (a = GKey.sent (-1) ∨ a = GKey.sent 1 ∨ ∃ k, a = GKey.ord k) →
      (b = GKey.sent (-1) ∨ b = GKey.sent 1 ∨ ∃ k, b = GKey.ord k) →
      (searchForward cmp t a b).isSome = true ∧
      (searchBackward cmp t a b).isSome = true) ∧
    (flattenT t = [] → ∀ a b : GKey K,
      searchForward cmp t a b = some ⟨0, 0, 0, 0, true⟩ ∧
      searchBackward cmp t a b = some ⟨0, 0, 0, 0, true⟩) ∧
    (∀ lo hi : K, 0 < cmp lo hi →
      searchForward cmp t (GKey.ord lo) (GKey.ord hi) =
        some ⟨0, 0, 0, 0, true⟩ ∧
      searchBackward cmp t (GKey.ord lo) (GKey.ord hi) =
        some ⟨0, 0, 0, 0, true⟩) ∧
    (∀ lo hi : K, cmp lo hi < 0 →
      ((flattenT t).all fun r => !recInClosed cmp lo hi r) = true →
      ∃ it1 it2,
        searchForward cmp t (GKey.ord lo) (GKey.ord hi) = some it1 ∧
        it1.isAtEnd = true ∧
        searchBackward cmp t (GKey.ord lo) (GKey.ord hi) = some it2 ∧
        it2.isAtEnd = true) := by
  obtain ⟨hd3, hsh, hsep, hocc, hord, hchB⟩ := WFb_parts hwf
  have hch := (chainLt_iff cmp _).mp hchB
  have hsome : ∀ (a b : GKey K) (res : Nat × Nat × Nat × Nat × Bool),
      findAndLocateRecords cmp t a b = some res →
      (searchForward cmp t a b).isSome = true ∧
      (searchBackward cmp t a b).isSome = true := by
    intro a b res h
    constructor
    · rw [searchForward, h]
      rfl
    · rw [searchBackward, h]
      rfl
  have hfalse_res : ∀ (a b : GKey K),
      findAndLocateRecords cmp t a b = some (0, 0, 0, 0, false) →
      searchForward cmp t a b = some ⟨0, 0, 0, 0, true⟩ ∧
      searchBackward cmp t a b = some ⟨0, 0, 0, 0, true⟩ := by
    intro a b h
    constructor
    · rw [searchForward, h]
      rfl
    · rw [searchBackward, h]
      rfl
  by_cases hemp : flattenT t = []
  · obtain ⟨hroot, hh⟩ := WFb_empty_shape hwf hemp
    have hfl := @FL_empty _ _ cmp _ hroot hh
    refine ⟨?_, ?_, ?_, ?_⟩
    · intro a b _ _
      exact hsome a b _ (hfl a b)
    · intro _ a b
      exact hfalse_res a b (hfl a b)
    · intro lo hi _
      exact hfalse_res _ _ (hfl _ _)
    · intro lo hi _ _
      obtain ⟨h1, h2⟩ := hfalse_res _ _ (hfl (GKey.ord lo) (GKey.ord hi))
      exact ⟨⟨0, 0, 0, 0, true⟩, ⟨0, 0, 0, 0, true⟩, h1, rfl, h2, rfl⟩
  · refine ⟨?_, ?_, ?_, ?_⟩
    · intro a b ha hb
      rcases ha with rfl | rfl | ⟨ka, rfl⟩
      · rcases hb with rfl | rfl | ⟨kb, rfl⟩
        · exact hsome _ _ _ (FL_minmin hwf hemp)
        · obtain ⟨_, _, _, _, hFL, _⟩ := FL_minmax hc hwf hemp
          exact hsome _ _ _ hFL
        · obtain ⟨res, hFL⟩ := FL_min_ord hc hwf hemp kb
          exact hsome _ _ _ hFL
      · rcases hb with rfl | rfl | ⟨kb, rfl⟩
        · obtain ⟨res, hFL, -⟩ := FL_maxmin hc hwf hemp
          exact hsome _ _ _ hFL
        · obtain ⟨_, _, _, hFL, _⟩ := FL_maxmax hwf hemp
          exact hsome _ _ _ hFL
        · obtain ⟨res, hFL⟩ := FL_max_ord hc hwf hemp kb
          exact hsome _ _ _ hFL
      · rcases hb with rfl | rfl | ⟨kb, rfl⟩
        · obtain ⟨res, hFL⟩ := FL_ord_sent hc hwf hemp ka (-1) (Or.inl rfl)
          exact hsome _ _ _ hFL
        · obtain ⟨res, hFL⟩ := FL_ord_sent hc hwf hemp ka 1 (Or.inr rfl)
          exact hsome _ _ _ hFL
        · obtain ⟨res, hFL, -⟩ := FL_ordord hc hwf hemp ka kb
          exact hsome _ _ _ hFL
    · intro h
      exact absurd h hemp
    · intro lo hi hgt
      obtain ⟨res, hFL, hgtC, -⟩ := FL_ordord hc hwf hemp lo hi
      rw [hgtC hgt] at hFL
      exact hfalse_res _ _ hFL
    · intro lo hi hlt hall
      obtain ⟨res, hFL, -, -, -, hEmptyC, -⟩ := FL_ordord hc hwf hemp lo hi
      have hempty : countLE cmp (flattenT t) hi ≤
          countLt cmp (flattenT t) lo := by
        by_contra hcon
        push_neg at hcon
        obtain ⟨rM, hrM⟩ : ∃ rM, (flattenT t).get?
            (countLE cmp (flattenT t) hi - 1) = some rM := by
          have hlen : countLE cmp (flattenT t) hi - 1 <
              (flattenT t).length := by
            have h0 : countLE cmp (flattenT t) hi ≤
                (flattenT t).length := by
              rw [countLE]
              exact List.countP_le_length _
            omega
          cases hx : (flattenT t).get?
              (countLE cmp (flattenT t) hi - 1) with
          | none => rw [List.get?_eq_none] at hx; omega
          | some r => exact ⟨r, rfl⟩
        obtain ⟨kM, hkM⟩ := keysOrdb_mem hord (List.get?_mem hrM)
        have hpw := sorted_pairwise hc hch
        have hLE : recKeyLEb cmp rM hi = true :=
          (sorted_le_iff_pos hc hpw hrM).mpr (by omega)
        have hnLT : recKeyLtb cmp rM lo = false := by
          cases hx : recKeyLtb cmp rM lo with
          | false => rfl
          | true =>
            have := (sorted_lt_iff_pos hc hpw hrM).mp hx
            omega
        have hin : recInClosed cmp lo hi rM = true := by
          rw [recInClosed, hkM]
          rw [recKeyLEb, hkM] at hLE
          rw [recKeyLtb, hkM] at hnLT
          simp only [decide_eq_true_eq] at hLE
          simp only [decide_eq_false_iff_not, not_lt] at hnLT
          simp only [Bool.and_eq_true, decide_eq_true_eq]
          have hlokM : lo ≤ kM := by
            by_contra hcon2
            push_neg at hcon2
            have := (hc.lt_iff kM lo).mpr hcon2
            omega
          exact ⟨(hc.le_iff lo kM).mpr hlokM, hLE⟩
        rw [List.all_eq_true] at hall
        have := hall rM (List.get?_mem hrM)
        rw [hin] at this
        cases this
      rw [hEmptyC hlt hempty] at hFL
      obtain ⟨h1, h2⟩ := hfalse_res _ _ hFL
      exact ⟨⟨0, 0, 0, 0, true⟩, ⟨0, 0, 0, 0, true⟩, h1, rfl, h2, rfl⟩

theorem C7_amended_search_safety_witness :
    WFb intCmp (⟨5, BNode.lf [⟨GKey.ord 10, 1⟩, ⟨GKey.ord 30, 3⟩], 1⟩ :
      BPT Int Int) = true ∧
    ((searchForward intCmp (⟨5, BNode.lf [⟨GKey.ord 10, 1⟩,
        ⟨GKey.ord 30, 3⟩], 1⟩ : BPT Int Int) KeyMin
        (GKey.ord 20)).isSome = true ∧
      (searchBackward intCmp (⟨5, BNode.lf [⟨GKey.ord 10, 1⟩,
        ⟨GKey.ord 30, 3⟩], 1⟩ : BPT Int Int) KeyMin
        (GKey.ord 20)).isSome = true) ∧
    (∃ it1 it2,
      searchForward intCmp (⟨5, BNode.lf [⟨GKey.ord 10, 1⟩,
        ⟨GKey.ord 30, 3⟩], 1⟩ : BPT Int Int) (GKey.ord 15)
        (GKey.ord 25) = some it1 ∧ it1.isAtEnd = true ∧
      searchBackward intCmp (⟨5, BNode.lf [⟨GKey.ord 10, 1⟩,
        ⟨GKey.ord 30, 3⟩], 1⟩ : BPT Int Int) (GKey.ord 15)
        (GKey.ord 25) = some it2 ∧ it2.isAtEnd = true) := by
  have h := C7_amended_search_safety intCmp intCmp_lawful
    (⟨5, BNode.lf [⟨GKey.ord 10, 1⟩, ⟨GKey.ord 30, 3⟩], 1⟩ : BPT Int Int)
    (by decide)
  exact ⟨by decide,
    h.1 KeyMin (GKey.ord 20) (Or.inl rfl) (Or.inr (Or.inr ⟨20, rfl⟩)),
    h.2.2.2 15 25 (by decide) (by decide)⟩

theorem replicate_get? {α : Type} (a : α) :
    ∀ (n j : Nat), j < n → (List.replicate n a).get? j = some a
  | 0, j, h => by omega
  | n + 1, 0, _ => by rw [List.replicate_succ]; rfl
  | n + 1, j + 1, h => by
    rw [List.replicate_succ, List.get?_cons_succ]
    exact replicate_get? a n j (by omega)

theorem syncWalk_zeros {K V : Type} (h : Nat) (k0 : GKey K) :
    ∀ (j : Nat) (st : BPT K V), j ≤ h →
      syncWalk (List.replicate h 0) k0 j st = some st
  | 0, st, _ => rfl
  | j + 1, st, hj => by
    rw [syncWalk, replicate_get? 0 h j (by omega)]
    simp only [Option.bind_eq_bind, Option.some_bind]
    rw [if_neg (by omega)]
    exact syncWalk_zeros h k0 j st (by omega)

theorem leavesOfL_append {K V : Type} :
    ∀ (x y : List (Option (GKey K) × BNode K V)),
      leavesOfL (x ++ y) = leavesOfL x ++ leavesOfL y
  | [], y => by rw [List.nil_append, leavesOfL_nil, List.nil_append]
  | c :: x, y => by
    rw [List.cons_append, leavesOfL, leavesOfL, leavesOfL_append x y,
      List.append_assoc]

theorem set_append_mid {α : Type} (A B C : List α) {m : Nat} (x : α)
    (hm : m < B.length) :
    (A ++ B ++ C).set (A.length + m) x = A ++ B.set m x ++ C := by
  rw [List.append_assoc, List.set_append_right _ _ (Nat.le_add_right _ _),
    Nat.add_sub_cancel_left, List.append_assoc]
  congr 1
  rw [List.set_append_left _ _ hm]

theorem getNode_leafPos_consistent {K V : Type} :
    ∀ (p : List Nat) (n : BNode K V) (rs : List (Rec K V)) (lp : Nat),
      getNode n p = some (BNode.lf rs) → leafPos n p = some lp →
      (leavesOf n).get? lp = some rs
  | [], n, rs, lp, hg, hl => by
    rw [getNode] at hg
    simp only [Option.some.injEq] at hg
    subst hg
    rw [leafPos] at hl
    simp only [Option.some.injEq] at hl
    subst hl
    rfl
  | ix :: p, n, rs, lp, hg, hl => by
    cases n with
    | lf rs0 => rw [getNode] at hg; cases hg
    | nl cs =>
      rw [getNode] at hg
      cases hcx : cs.get? ix with
      | none => rw [hcx] at hg; cases hg
      | some c =>
        rw [hcx] at hg
        rw [leafPos, hcx] at hl
        simp only [Option.bind_eq_bind, Option.some_bind] at hl
        cases hlp' : leafPos c.2 p with
        | none => rw [hlp'] at hl; cases hl
        | some lp' =>
          rw [hlp'] at hl
          simp only [Option.some_bind, Option.some.injEq] at hl
          subst hl
          have hih := getNode_leafPos_consistent p c.2 rs lp' hg hlp'
          have hlp'len : lp' < (leavesOf c.2).length :=
            (List.get?_eq_some.mp hih).1
          rw [leavesOf_nl_split hcx]
          have hlen1 : (leavesOfL (cs.take ix)).length =
              (leavesOfL (cs.take ix)).length := rfl
          rw [get?_append_mid _ _ _ hlp'len]
          exact hih

theorem setNode_leaf_update {K V : Type} (rs' : List (Rec K V)) :
    ∀ (p : List Nat) (n : BNode K V) (rs : List (Rec K V)) (lp : Nat),
      getNode n p = some (BNode.lf rs) → leafPos n p = some lp →
      ∃ n', setNode n p (BNode.lf rs') = some n' ∧
        getNode n' p = some (BNode.lf rs') ∧
        leavesOf n' = (leavesOf n).set lp rs'
  | [], n, rs, lp, hg, hl => by
    rw [getNode] at hg
    simp only [Option.some.injEq] at hg
    subst hg
    rw [leafPos] at hl
    simp only [Option.some.injEq] at hl
    subst hl
    exact ⟨BNode.lf rs', rfl, rfl, rfl⟩
  | ix :: p, n, rs, lp, hg, hl => by
    cases n with
    | lf rs0 => rw [getNode] at hg; cases hg
    | nl cs =>
      rw [getNode] at hg
      cases hcx : cs.get? ix with
      | none => rw [hcx] at hg; cases hg
      | some c =>
        rw [hcx] at hg
        rw [leafPos, hcx] at hl
        simp only [Option.bind_eq_bind, Option.some_bind] at hl
        cases hlp' : leafPos c.2 p with
        | none => rw [hlp'] at hl; cases hl
        | some lp' =>
          rw [hlp'] at hl
          simp only [Option.some_bind, Option.some.injEq] at hl
          subst hl
          obtain ⟨sub', hset', hget', hleaves'⟩ :=
            setNode_leaf_update rs' p c.2 rs lp' hg hlp'
          have hcons := getNode_leafPos_consistent p c.2 rs lp' hg hlp'
          have hlp'len : lp' < (leavesOf c.2).length :=
            (List.get?_eq_some.mp hcons).1
          have hixlen : ix < cs.length := (List.get?_eq_some.mp hcx).1
          refine ⟨BNode.nl (cs.set ix (c.1, sub')), ?_, ?_, ?_⟩
          · rw [setNode, hcx]
            simp only []
            rw [hset']
          · rw [getNode]
            have hgx : (cs.set ix (c.1, sub')).get? ix =
                some (c.1, sub') := by
              rw [List.get?_set_eq]
              simp [hixlen]
            rw [hgx]
            exact hget'
          · have hsplit : cs.set ix (c.1, sub') =
                cs.take ix ++ (c.1, sub') :: cs.drop (ix + 1) := by
              rw [List.set_eq_take_append_cons_drop, if_pos hixlen]
            rw [hsplit, leavesOf_nl, List.map_append, List.flatten_append,
              List.map_cons, List.flatten_cons]
            rw [leavesOf_nl_split hcx, hleaves']
            rw [set_append_mid _ _ _ _ hlp'len]
            rw [← leavesOfL_eq, ← leavesOfL_eq, List.append_assoc]

theorem shape_one_leaf {K V : Type} {n : BNode K V}
    (hsh : shapeOKb 1 n = true) : ∃ rs, n = BNode.lf rs := by
  cases n with
  | lf rs => exact ⟨rs, rfl⟩
  | nl cs => simp [shapeOKb] at hsh

theorem occ_leaf_nonroot {K V : Type} {d : Nat} {rs : List (Rec K V)}
    (hocc : occOKb d 1 false (BNode.lf rs) = true) :
    recsIsSparse rs.length d = false ∧ recsIsFull rs.length d = false := by
  rw [occOKb] at hocc
  simp only [Bool.false_eq_true, if_false, Bool.and_eq_true,
    Bool.not_eq_true'] at hocc
  exact hocc

theorem occ_nl_nonroot {K V : Type} {d h : Nat}
    {cs : List (Option (GKey K) × BNode K V)}
    (hocc : occOKb d (h + 2) false (BNode.nl cs) = true) :
    childrenIsSparse cs.length d = false ∧
    childrenIsFull cs.length d = false := by
  have h1 := (occ_nl_parts hocc).1
  rw [if_neg (by simp)] at h1
  exact ⟨Bool.not_eq_true _ ▸ (by simpa using h1.1),
    Bool.not_eq_true _ ▸ (by simpa using h1.2)⟩

theorem zeros_tower {K V : Type} (d : Nat) :
    ∀ (j h : Nat) (n : BNode K V) (ir : Bool),
      1 ≤ j → j < h → shapeOKb h n = true → occOKb d h ir n = true →
      ∃ m, getNode n (List.replicate j 0) = some m ∧
        shapeOKb (h - j) m = true ∧ occOKb d (h - j) false m = true
  | 0, h, n, ir => by intro h1; omega
  | j + 1, h, n, ir => by
    intro h1 hjh hsh hocc
    have hhe : ∃ h'', h = h'' + 2 := by
      cases h with
      | zero => omega
      | succ h' =>
        cases h' with
        | zero => omega
        | succ h'' => exact ⟨h'', rfl⟩
    obtain ⟨h'', rfl⟩ := hhe
    cases n with
    | lf rs => simp [shapeOKb] at hsh
    | nl cs =>
      obtain ⟨hne, hchsh⟩ := shape_nl_parts hsh
      obtain ⟨-, hchocc⟩ := occ_nl_parts hocc
      cases hcs : cs with
      | nil => exact absurd hcs hne
      | cons c0 rest =>
        subst hcs
        have hmem : c0 ∈ c0 :: rest := by simp
        have hgn : getNode (BNode.nl (c0 :: rest))
            (List.replicate (j + 1) 0) = getNode c0.2 (List.replicate j 0) := by
          rw [List.replicate_succ, getNode]
          rfl
        cases hj : j with
        | zero =>
          rw [hj] at hgn
          refine ⟨c0.2, ?_, ?_, ?_⟩
          · rw [hgn, List.replicate_zero, getNode]
          · have : h'' + 2 - 1 = h'' + 1 := by omega
            rw [this]; exact hchsh c0 hmem
          · have : h'' + 2 - 1 = h'' + 1 := by omega
            rw [this]; exact hchocc c0 hmem
        | succ j' =>
          subst hj
          obtain ⟨m, hm, hmsh, hmocc⟩ :=
            zeros_tower d (j' + 1) (h'' + 1) c0.2 false (by omega) (by omega)
              (hchsh c0 hmem) (hchocc c0 hmem)
          have heq : h'' + 2 - (j' + 1 + 1) = h'' + 1 - (j' + 1) := by omega
          exact ⟨m, by rw [hgn]; exact hm, by rw [heq]; exact hmsh,
            by rw [heq]; exact hmocc⟩

theorem tail_append_of_ne_nil {α : Type} (x y : List α) (hx : x ≠ []) :
    (x ++ y).tail = x.tail ++ y := by
  cases x with
  | nil => exact absurd rfl hx
  | cons a x' => rfl

theorem dropLast_append_ne {α : Type} :
    ∀ (x y : List α), y ≠ [] → (x ++ y).dropLast = x ++ y.dropLast
  | [], y, _ => by simp
  | a :: x', y, hy => by
    rw [List.cons_append, dropLast_cons_ne (by simp [hy]),
      dropLast_append_ne x' y hy]
    rfl

theorem set_last_append {α : Type} :
    ∀ (A : List α) (x y : α), (A ++ [x]).set A.length y = A ++ [y]
  | [], x, y => rfl
  | a :: A', x, y => by
    rw [List.cons_append, List.length_cons, List.set_cons_succ,
      set_last_append A' x y]
    rfl

theorem findLoop_max_frames {K V : Type} (cmp : K → K → Int) (d : Nat) :
    ∀ (fuel h : Nat) (n : BNode K V) (ir : Bool) (H : Nat) (path0 : List Nat),
      1 ≤ h → h ≤ fuel → shapeOKb h n = true → occOKb d h ir n = true →
      leavesNEb h false n = true → H = path0.length + h →
      ∃ sub,
        findRecordLoop cmp H (GKey.sent 1) fuel n path0 =
          some (path0 ++ sub, true) ∧
        sub.length = h ∧
        ∀ j, 1 ≤ j → j < h → ∃ m, getNode n (sub.take j) = some m ∧
          shapeOKb (h - j) m = true ∧ occOKb d (h - j) false m = true
  | 0, h, n, ir, H, path0 => by
    intro h1 hf
    omega
  | fuel + 1, h, n, ir, H, path0 => by
    intro h1 hf hsh hocc hnel hH
    cases n with
    | lf rs =>
      have hh1 : h = 1 := by
        cases h with
        | zero => omega
        | succ h' =>
          cases h' with
          | zero => rfl
          | succ h'' => simp [shapeOKb] at hsh
      subst hh1
      have hrsne : rs ≠ [] := by
        rw [leavesNEb] at hnel
        simp only [Bool.false_or, Bool.not_eq_true'] at hnel
        exact fun hcon => by rw [hcon] at hnel; simp at hnel
      refine ⟨[rs.length - 1], ?_, rfl, ?_⟩
      · rw [findRecordLoop, if_pos (by omega), locateRecord]
        rw [if_neg (by simpa using hrsne)]
        simp only [Option.bind_eq_bind, Option.some_bind,
          if_neg (show ¬(1 : Int) = -1 by decide)]
      · intro j hj1 hj2
        omega
    | nl cs =>
      have hhe : ∃ h'', h = h'' + 2 := by
        cases h with
        | zero => omega
        | succ h' =>
          cases h' with
          | zero => simp [shapeOKb] at hsh
          | succ h'' => exact ⟨h'', rfl⟩
      obtain ⟨h'', rfl⟩ := hhe
      obtain ⟨hne, hchsh⟩ := shape_nl_parts hsh
      obtain ⟨-, hchocc⟩ := occ_nl_parts hocc
      have hchne := leavesNE_nl_parts hnel
      have hlen1 : 1 ≤ cs.length := by
        cases cs with
        | nil => exact absurd rfl hne
        | cons a t => simp
      cases hgl : cs.get? (cs.length - 1) with
      | none =>
        rw [List.get?_eq_none] at hgl
        omega
      | some cl =>
        have hmemL : cl ∈ cs := List.get?_mem hgl
        obtain ⟨sub', hrun', hlen', hframes'⟩ :=
          findLoop_max_frames cmp d fuel (h'' + 1) cl.2 false H
            (path0 ++ [cs.length - 1]) (by omega) (by omega)
            (hchsh cl hmemL) (hchocc cl hmemL) (hchne cl hmemL)
            (by rw [hH, List.length_append]; simp; omega)
        refine ⟨(cs.length - 1) :: sub', ?_, by simp [hlen'], ?_⟩
        · rw [findRecordLoop, if_neg (by omega), locateNodeChild]
          simp only [if_neg (show ¬(1 : Int) = -1 by decide),
            Option.bind_eq_bind, Option.some_bind, if_true]
          rw [hgl]
          simp only [Option.some_bind]
          rw [hrun']
          simp [List.append_assoc]
        · intro j hj1 hj2
          obtain ⟨j', rfl⟩ : ∃ j', j = j' + 1 := ⟨j - 1, by omega⟩
          have hgn : getNode (BNode.nl cs)
              (((cs.length - 1) :: sub').take (j' + 1)) =
              getNode cl.2 (sub'.take j') := by
            rw [List.take_succ_cons, getNode, hgl]
          cases j' with
          | zero =>
            refine ⟨cl.2, ?_, ?_, ?_⟩
            · rw [hgn, List.take_zero, getNode]
            · have he : h'' + 2 - 1 = h'' + 1 := by omega
              rw [he]
              exact hchsh cl hmemL
            · have he : h'' + 2 - 1 = h'' + 1 := by omega
              rw [he]
              exact hchocc cl hmemL
          | succ j'' =>
            obtain ⟨m, hm, hmsh, hmocc⟩ :=
              hframes' (j'' + 1) (by omega) (by omega)
            have he : h'' + 2 - (j'' + 1 + 1) = h'' + 1 - (j'' + 1) := by
              omega
            exact ⟨m, by rw [hgn]; exact hm, by rw [he]; exact hmsh,
              by rw [he]; exact hmocc⟩

theorem tryMergeLeaf_skip {K V : Type} (st : BPT K V) (path : List Nat)
    (i : Nat) (rs : List (Rec K V)) (ix : Nat)
    (hget : getNode st.root (path.take i) = some (BNode.lf rs))
    (hix : path.get? i = some ix)
    (hsp : recsIsSparse rs.length st.maxDegree = false) :
    tryMergeLeaf st path i = some (st, path, i) := by
  rw [tryMergeLeaf, hget]
  simp only [Option.bind_eq_bind, Option.some_bind]
  rw [hix]
  simp only [Option.some_bind]
  rw [hsp]
  simp only [Bool.false_eq_true, if_false]

theorem tryMergeNonLeaf_skip {K V : Type} (st : BPT K V) (path : List Nat)
    (i : Nat) (cs0 : List (Option (GKey K) × BNode K V)) (ix : Nat)
    (hget : getNode st.root (path.take i) = some (BNode.nl cs0))
    (hix : path.get? i = some ix)
    (hsp : childrenIsSparse cs0.length st.maxDegree = false) :
    tryMergeNonLeaf st path i = some (st, path, i) := by
  rw [tryMergeNonLeaf, hget]
  simp only [Option.bind_eq_bind, Option.some_bind]
  rw [hix]
  simp only [Option.some_bind]
  rw [hsp]
  simp only [Bool.false_eq_true, if_false]

theorem removeLoop_noop {K V : Type} :
    ∀ (fuel : Nat) (st : BPT K V) (path : List Nat) (i : Nat),
      1 ≤ i → path.length - i < fuel →
      (∀ j, i ≤ j → j + 1 < path.length → ∃ cs0,
        getNode st.root (path.take j) = some (BNode.nl cs0) ∧
        childrenIsSparse cs0.length st.maxDegree = false) →
      (i + 1 ≤ path.length → ∃ rs,
        getNode st.root (path.take (path.length - 1)) =
          some (BNode.lf rs) ∧
        recsIsSparse rs.length st.maxDegree = false) →
      removeLoop fuel st path i = some (st, path)
  | 0, st, path, i => by
    intro h1 hfuel
    omega
  | fuel + 1, st, path, i => by
    intro h1 hfuel hnl hlf
    rw [removeLoop]
    by_cases hi : i ≥ path.length
    · rw [if_pos hi]
    · rw [if_neg hi]
      have hilen : i < path.length := by omega
      cases hix : path.get? i with
      | none =>
        rw [List.get?_eq_none] at hix
        omega
      | some ix =>
        by_cases hil : i = path.length - 1
        · obtain ⟨rs, hget, hsp⟩ := hlf (by omega)
          rw [← hil] at hget
          rw [if_pos hil, tryMergeLeaf_skip st path i rs ix hget hix hsp]
          simp only [Option.bind_eq_bind, Option.some_bind]
          exact removeLoop_noop fuel st path (i + 1) (by omega) (by omega)
            (fun j hj hjl => hnl j (by omega) hjl)
            (fun hle => hlf (by omega))
        · obtain ⟨cs0, hget, hsp⟩ := hnl i (by omega) (by omega)
          rw [if_neg hil, tryMergeNonLeaf_skip st path i cs0 ix hget hix hsp]
          simp only [Option.bind_eq_bind, Option.some_bind]
          exact removeLoop_noop fuel st path (i + 1) (by omega) (by omega)
            (fun j hj hjl => hnl j (by omega) hjl)
            (fun hle => hlf (by omega))

theorem minSide_all {K V : Type} [LinearOrder K] {cmp : K → K → Int}
    {t : BPT K V} (hwf : WFb cmp t = true) (hne : flattenT t ≠ []) :
    ∃ (rF : Rec K V) (t' : BPT K V),
      (flattenT t).head? = some rF ∧
      hasRecord cmp t KeyMin = some (some rF.val, true) ∧
      deleteRecord cmp t KeyMin = some (t', some rF.val, true) ∧
      flattenT t' = (flattenT t).tail := by
  obtain ⟨hd3, hsh, -, hocc, -, -⟩ := WFb_parts hwf
  have h1 := shape_height_pos hsh
  obtain ⟨recs0, hget0, hne0, hhead0, hfr, hlp⟩ := findRecord_min hwf hne
  -- the leaf at the all-zeros path, and the frame facts for the merge walk
  have hgl : getNode t.root (List.replicate (t.height - 1) 0) =
      some (BNode.lf recs0) := by
    by_cases hh2 : 2 ≤ t.height
    · obtain ⟨m, hm, hmsh, hmocc⟩ :=
        zeros_tower t.maxDegree (t.height - 1) t.height t.root true
          (by omega) (by omega) hsh hocc
      have he1 : t.height - (t.height - 1) = 1 := by omega
      rw [he1] at hmsh
      obtain ⟨rs0, rfl⟩ := shape_one_leaf hmsh
      have := getNode_leafPos_consistent _ _ _ _ hm hlp
      rw [hget0] at this
      simp only [Option.some.injEq] at this
      rw [this]
      exact hm
    · have hh1 : t.height = 1 := by omega
      rw [hh1]
      simp only [Nat.sub_self, List.replicate_zero]
      rw [hh1] at hsh
      obtain ⟨rs, hroot⟩ := shape_one_leaf hsh
      have : (leavesOf t.root).get? 0 = some rs := by
        rw [hroot, leavesOf]
        rfl
      rw [hget0] at this
      simp only [Option.some.injEq] at this
      rw [hroot, getNode, this]
  have hsp0 : 2 ≤ t.height →
      recsIsSparse recs0.length t.maxDegree = false := by
    intro hh2
    obtain ⟨m, hm, hmsh, hmocc⟩ :=
      zeros_tower t.maxDegree (t.height - 1) t.height t.root true
        (by omega) (by omega) hsh hocc
    rw [hgl] at hm
    simp only [Option.some.injEq] at hm
    have he1 : t.height - (t.height - 1) = 1 := by omega
    rw [he1] at hmocc
    rw [← hm] at hmocc
    exact (occ_leaf_nonroot hmocc).1
  have hframes : ∀ j, 1 ≤ j → j + 1 < t.height →
      ∃ cs0, getNode t.root (List.replicate j 0) = some (BNode.nl cs0) ∧
        childrenIsSparse cs0.length t.maxDegree = false := by
    intro j hj1 hj2
    obtain ⟨m, hm, hmsh, hmocc⟩ :=
      zeros_tower t.maxDegree j t.height t.root true hj1 (by omega) hsh hocc
    obtain ⟨k, hk⟩ : ∃ k, t.height - j = k + 2 := ⟨t.height - j - 2, by omega⟩
    rw [hk] at hmsh hmocc
    cases m with
    | lf rs => simp [shapeOKb] at hmsh
    | nl cs0 => exact ⟨cs0, hm, (occ_nl_nonroot hmocc).1⟩
  -- the head record
  cases hrecs0 : recs0 with
  | nil => exact absurd hrecs0 hne0
  | cons r0 rest0 =>
    subst hrecs0
    have hFhead : (flattenT t).head? = some r0 := by
      rw [← hhead0]
      rfl
    -- pathRecord at the all-zeros path
    have hpr : pathRecord t (List.replicate t.height 0) = some r0 := by
      rw [pathRecord, replicate_dropLast, hgl]
      simp only [Option.bind_eq_bind, Option.some_bind]
      rw [replicate_getLast 0 t.height h1]
      simp only [Option.some_bind]
      rfl
    -- the merge walk is a no-op
    have hrl : removeLoop ((List.replicate t.height 0).length + 3) t
        (List.replicate t.height 0) 1 =
        some (t, List.replicate t.height 0) := by
      apply removeLoop_noop
      · omega
      · simp only [List.length_replicate]
        omega
      · intro j hj hjl
        simp only [List.length_replicate] at hjl
        obtain ⟨cs0, hg, hs⟩ := hframes j hj hjl
        refine ⟨cs0, ?_, hs⟩
        rw [List.take_replicate, Nat.min_eq_left (by omega)]
        exact hg
      · intro hle
        simp only [List.length_replicate] at hle ⊢
        refine ⟨r0 :: rest0, ?_, hsp0 (by omega)⟩
        rw [List.take_replicate, Nat.min_eq_left (by omega)]
        exact hgl
    -- removal of the head record and the sync fix-up
    obtain ⟨root', hset, hget', hleaves'⟩ :=
      setNode_leaf_update rest0 (List.replicate (t.height - 1) 0) t.root
        (r0 :: rest0) 0 hgl hlp
    have hrr : removeRecord t (List.replicate t.height 0) =
        some ⟨t.maxDegree, root', t.height⟩ := by
      rw [removeRecord, hrl]
      simp only [Option.bind_eq_bind, Option.some_bind]
      rw [replicate_dropLast, hgl]
      simp only [Option.some_bind]
      rw [replicate_getLast 0 t.height h1]
      simp only [Option.some_bind]
      rw [if_pos (by simp)]
      have hnew : (r0 :: rest0).take 0 ++ (r0 :: rest0).drop (0 + 1) =
          rest0 := rfl
      rw [hnew, hset]
      simp only [Option.some_bind]
      rw [trySyncKey]
      have hdl : (List.replicate t.height 0).dropLast =
          List.replicate (t.height - 1) 0 := replicate_dropLast 0 t.height
      rw [hdl]
      have hgr : (⟨t.maxDegree, root', t.height⟩ : BPT K V).root = root' :=
        rfl
      rw [hgr, hget']
      simp only [Option.bind_eq_bind, Option.some_bind]
      rw [replicate_getLast 0 t.height h1]
      simp only [Option.some_bind]
      cases rest0 with
      | nil => rw [if_neg (by simp)]
      | cons r1 rest1 =>
        rw [if_pos (by simp)]
        simp only [List.head?_cons]
        rw [List.length_replicate]
        exact syncWalk_zeros t.height r1.key (t.height - 1)
          ⟨t.maxDegree, root', t.height⟩ (by omega)
    -- content of the new tree
    have hflat' : flattenT (⟨t.maxDegree, root', t.height⟩ : BPT K V) =
        (flattenT t).tail := by
      rw [flattenT]
      have hgr : (⟨t.maxDegree, root', t.height⟩ : BPT K V).root = root' :=
        rfl
      rw [hgr, hleaves']
      cases hlv : leavesOf t.root with
      | nil => rw [hlv] at hget0; cases hget0
      | cons l0 ltail =>
        rw [hlv] at hget0
        simp only [List.get?_cons_zero, Option.some.injEq] at hget0
        rw [List.set_cons_zero, List.flatten_cons, flattenT, hlv, hget0,
          List.flatten_cons, List.cons_append, List.tail_cons]
    refine ⟨r0, ⟨t.maxDegree, root', t.height⟩, hFhead, ?_, ?_, hflat'⟩
    · rw [hasRecord, hfr]
      simp only [Option.bind_eq_bind, Option.some_bind]
      rw [if_pos trivial, hpr]
      simp only [Option.some_bind]
    · rw [deleteRecord, hfr]
      simp only [Option.bind_eq_bind, Option.some_bind]
      rw [if_pos trivial, hpr]
      simp only [Option.some_bind]
      rw [hrr]
      simp only [Option.some_bind]

theorem maxSide_all {K V : Type} [LinearOrder K] {cmp : K → K → Int}
    {t : BPT K V} (hwf : WFb cmp t = true) (hne : flattenT t ≠ []) :
    ∃ (rL : Rec K V) (t' : BPT K V),
      (flattenT t).getLast? = some rL ∧
      hasRecord cmp t KeyMax = some (some rL.val, true) ∧
      deleteRecord cmp t KeyMax = some (t', some rL.val, true) ∧
      flattenT t' = (flattenT t).dropLast := by
  obtain ⟨hd3, hsh, -, hocc, -, -⟩ := WFb_parts hwf
  have h1 := shape_height_pos hsh
  obtain ⟨sub, lp, s, recsL, hfr, hlen, hlpos, hlast, hlpeq, hget, hnr,
      hseq, hglF⟩ := findRecord_max hwf hne
  obtain ⟨subB, hrunB, hlenB, hframesB⟩ :=
    findLoop_max_frames cmp t.maxDegree (t.height + 1) t.height t.root true
      t.height [] h1 (by omega) hsh hocc (WFb_leavesNE hwf hne) (by simp)
  have hfrRaw : findRecordLoop cmp t.height (GKey.sent 1) (t.height + 1)
      t.root [] = some (sub, true) := by
    rw [findRecord, show (KeyMax : GKey K) = GKey.sent 1 from rfl] at hfr
    exact hfr
  have hsubEq : subB = sub := by
    rw [hfrRaw, List.nil_append] at hrunB
    simp only [Option.some.injEq, Prod.mk.injEq] at hrunB
    exact hrunB.1.symm
  subst hsubEq
  have hLpos : 1 ≤ recsL.length := List.length_pos.mpr hnr
  -- the leaf at the end of the path
  have hgleaf : getNode t.root subB.dropLast = some (BNode.lf recsL) := by
    by_cases hh2 : 2 ≤ t.height
    · obtain ⟨m, hm, hmsh, hmocc⟩ := hframesB (t.height - 1) (by omega)
        (by omega)
      have he1 : t.height - (t.height - 1) = 1 := by omega
      rw [he1] at hmsh
      obtain ⟨rs0, rfl⟩ := shape_one_leaf hmsh
      have hdl : subB.dropLast = subB.take (t.height - 1) := by
        rw [List.dropLast_eq_take, hlen]
      rw [hdl]
      have := getNode_leafPos_consistent _ _ _ _ hm (by rw [← hdl]; exact hlpos)
      rw [hget] at this
      simp only [Option.some.injEq] at this
      rw [this]
      exact hm
    · have hh1 : t.height = 1 := by omega
      obtain ⟨x, rfl⟩ : ∃ x, subB = [x] := by
        rw [hh1] at hlen
        cases subB with
        | nil => simp at hlen
        | cons a l =>
          cases l with
          | nil => exact ⟨a, rfl⟩
          | cons b l' => simp at hlen
      rw [hh1] at hsh
      obtain ⟨rs, hroot⟩ := shape_one_leaf hsh
      have hlp0 : leafPos t.root ([x] : List Nat).dropLast = some 0 := by
        rw [hroot]
        rfl
      rw [hlpos] at hlp0
      simp only [Option.some.injEq] at hlp0
      have hrs : (leavesOf t.root).get? lp = some rs := by
        rw [hroot, leavesOf, hlp0]
        rfl
      rw [hget] at hrs
      simp only [Option.some.injEq] at hrs
      rw [hroot, hrs]
      rfl
  have hspL : 2 ≤ t.height →
      recsIsSparse recsL.length t.maxDegree = false := by
    intro hh2
    obtain ⟨m, hm, hmsh, hmocc⟩ := hframesB (t.height - 1) (by omega)
      (by omega)
    have hdl : subB.dropLast = subB.take (t.height - 1) := by
      rw [List.dropLast_eq_take, hlen]
    rw [← hdl, hgleaf] at hm
    simp only [Option.some.injEq] at hm
    have he1 : t.height - (t.height - 1) = 1 := by omega
    rw [he1] at hmocc
    rw [← hm] at hmocc
    exact (occ_leaf_nonroot hmocc).1
  -- the last record
  cases hx : recsL.getLast? with
  | none =>
    rw [List.getLast?_eq_none_iff] at hx
    exact absurd hx hnr
  | some rL =>
    have hFlast : (flattenT t).getLast? = some rL := by
      rw [← hglF, hx]
    have hgetS : recsL.get? s = some rL := by
      rw [hseq, get?_last_eq_getLast recsL hnr, hx]
    -- pathRecord at the max path
    have hpr : pathRecord t subB = some rL := by
      rw [pathRecord, hgleaf]
      simp only [Option.bind_eq_bind, Option.some_bind]
      rw [hlast]
      simp only [Option.some_bind]
      exact hgetS
    -- the merge walk is a no-op
    have hrl : removeLoop (subB.length + 3) t subB 1 = some (t, subB) := by
      apply removeLoop_noop
      · omega
      · omega
      · intro j hj hjl
        rw [hlen] at hjl
        obtain ⟨m, hm, hmsh, hmocc⟩ := hframesB j hj (by omega)
        obtain ⟨k, hk⟩ : ∃ k, t.height - j = k + 2 :=
          ⟨t.height - j - 2, by omega⟩
        rw [hk] at hmsh hmocc
        cases m with
        | lf rs => simp [shapeOKb] at hmsh
        | nl cs0 => exact ⟨cs0, hm, (occ_nl_nonroot hmocc).1⟩
      · intro hle
        rw [hlen] at hle ⊢
        refine ⟨recsL, ?_, hspL (by omega)⟩
        rw [← hlen, ← List.dropLast_eq_take]
        exact hgleaf
    -- removal of the last record and the sync fix-up
    obtain ⟨root', hset, hget', hleaves'⟩ :=
      setNode_leaf_update recsL.dropLast subB.dropLast t.root recsL lp
        hgleaf hlpos
    have hrr : removeRecord t subB =
        some ⟨t.maxDegree, root', t.height⟩ := by
      rw [removeRecord, hrl]
      simp only [Option.bind_eq_bind, Option.some_bind]
      rw [hgleaf]
      simp only [Option.some_bind]
      rw [hlast]
      simp only [Option.some_bind]
      rw [if_pos (by omega)]
      have hnew : recsL.take s ++ recsL.drop (s + 1) = recsL.dropLast := by
        rw [hseq, ← List.dropLast_eq_take,
          show recsL.length - 1 + 1 = recsL.length by omega,
          List.drop_length, List.append_nil]
      rw [hnew, hset]
      simp only [Option.some_bind]
      rw [trySyncKey]
      have hgr : (⟨t.maxDegree, root', t.height⟩ : BPT K V).root = root' :=
        rfl
      rw [hgr, hget']
      simp only [Option.bind_eq_bind, Option.some_bind]
      rw [hlast]
      simp only [Option.some_bind]
      rw [if_neg ?hcond]
      case hcond =>
        rintro ⟨ha, hb⟩
        rw [List.length_dropLast] at hb
        omega
    -- content of the new tree
    have hLVne : leavesOf t.root ≠ [] := by
      intro hcon
      rw [hcon] at hget
      simp at hget
    have hLVlast : (leavesOf t.root).getLast? = some recsL := by
      rw [← hget, hlpeq]
      exact (get?_last_eq_getLast _ hLVne).symm
    have hLVsplit : (leavesOf t.root).dropLast ++ [recsL] =
        leavesOf t.root := by
      have hgl2 := List.getLast?_eq_getLast (leavesOf t.root) hLVne
      rw [hgl2] at hLVlast
      simp only [Option.some.injEq] at hLVlast
      rw [← hLVlast]
      exact List.dropLast_append_getLast hLVne
    have hFsplit : flattenT t =
        ((leavesOf t.root).dropLast).flatten ++ recsL := by
      rw [flattenT]
      conv_lhs => rw [← hLVsplit]
      rw [List.flatten_append]
      simp only [List.flatten_cons, List.flatten_nil, List.append_nil]
    have hflat' : flattenT (⟨t.maxDegree, root', t.height⟩ : BPT K V) =
        (flattenT t).dropLast := by
      rw [flattenT]
      have hgr : (⟨t.maxDegree, root', t.height⟩ : BPT K V).root = root' :=
        rfl
      rw [hgr, hleaves']
      have hlpA : lp = ((leavesOf t.root).dropLast).length := by
        rw [List.length_dropLast, hlpeq]
      rw [← hLVsplit, hlpA, set_last_append]
      rw [List.flatten_append]
      simp only [List.flatten_cons, List.flatten_nil, List.append_nil]
      rw [hFsplit, dropLast_append_ne _ _ hnr]
    refine ⟨rL, ⟨t.maxDegree, root', t.height⟩, hFlast, ?_, ?_, hflat'⟩
    · rw [hasRecord, hfr]
      simp only [Option.bind_eq_bind, Option.some_bind]
      rw [if_pos trivial, hpr]
      simp only [Option.some_bind]
    · rw [deleteRecord, hfr]
      simp only [Option.bind_eq_bind, Option.some_bind]
      rw [if_pos trivial, hpr]
      simp only [Option.some_bind]
      rw [hrr]
      simp only [Option.some_bind]

theorem empty_sentinel_ops {K V : Type} [DecidableEq K] (cmp : K → K → Int)
    {t : BPT K V} (hwf : WFb cmp t = true) (hemp : flattenT t = [])
    (key : GKey K) :
    hasRecord cmp t key = some (none, false) ∧
    deleteRecord cmp t key = some (t, none, false) := by
  obtain ⟨hroot, hh⟩ := WFb_empty_shape hwf hemp
  have hfr : findRecord cmp t key = some ([0], false) := by
    rw [findRecord, hroot, hh]
    rfl
  constructor
  · rw [hasRecord, hfr]
    simp only [Option.bind_eq_bind, Option.some_bind, Bool.false_eq_true,
      if_false]
  · rw [deleteRecord, hfr]
    simp only [Option.bind_eq_bind, Option.some_bind, Bool.false_eq_true,
      if_false]

/-- C10: on a well-formed tree, the point operations accept the sentinels
and act on the extrema: on a non-empty tree `HasRecord(KEY_MIN)` returns the
value of the record with the smallest key (the first record in key order)
with `true` and `HasRecord(KEY_MAX)` the value of the record with the
largest key with `true`; `DeleteRecord(KEY_MIN)` (resp. `KEY_MAX`) removes
exactly that first (resp. last) record and returns its value with `true`;
on the empty tree all four return the nil value with `false` and leave the
tree unchanged. -/
theorem C10_sentinel_point_ops {K V : Type} [LinearOrder K]
    (cmp : K → K → Int) (t : BPT K V) (hwf : WFb cmp t = true) :
    (flattenT t = [] →
      hasRecord cmp t KeyMin = some (none, false) ∧
      hasRecord cmp t KeyMax = some (none, false) ∧
      deleteRecord cmp t KeyMin = some (t, none, false) ∧
      deleteRecord cmp t KeyMax = some (t, none, false)) ∧
    (flattenT t ≠ [] →
      (∃ rF t', (flattenT t).head? = some rF ∧
        hasRecord cmp t KeyMin = some (some rF.val, true) ∧
        deleteRecord cmp t KeyMin = some (t', some rF.val, true) ∧
        flattenT t' = (flattenT t).tail) ∧
      (∃ rL t', (flattenT t).getLast? = some rL ∧
        hasRecord cmp t KeyMax = some (some rL.val, true) ∧
        deleteRecord cmp t KeyMax = some (t', some rL.val, true) ∧
        flattenT t' = (flattenT t).dropLast)) := by
  constructor
  · intro hemp
    obtain ⟨h1, h2⟩ := empty_sentinel_ops cmp hwf hemp KeyMin
    obtain ⟨h3, h4⟩ := empty_sentinel_ops cmp hwf hemp KeyMax
    exact ⟨h1, h3, h2, h4⟩
  · intro hne
    constructor
    · obtain ⟨rF, t', hh, hhas, hdel, hfl⟩ := minSide_all hwf hne
      exact ⟨rF, t', hh, hhas, hdel, hfl⟩
    · obtain ⟨rL, t', hh, hhas, hdel, hfl⟩ := maxSide_all hwf hne
      exact ⟨rL, t', hh, hhas, hdel, hfl⟩

/-- Witness for C10 at the two-record tree `{10 ↦ 1, 20 ↦ 2}` with
`maxDegree = 5`. -/
theorem C10_sentinel_point_ops_witness :
    WFb intCmp (⟨5, BNode.lf [⟨GKey.ord 10, 1⟩, ⟨GKey.ord 20, 2⟩], 1⟩ :
      BPT Int Int) = true ∧
    ((flattenT (⟨5, BNode.lf [⟨GKey.ord 10, 1⟩, ⟨GKey.ord 20, 2⟩], 1⟩ :
        BPT Int Int) = [] →
      hasRecord intCmp (⟨5, BNode.lf [⟨GKey.ord 10, 1⟩, ⟨GKey.ord 20, 2⟩],
        1⟩ : BPT Int Int) KeyMin = some (none, false) ∧
      hasRecord intCmp (⟨5, BNode.lf [⟨GKey.ord 10, 1⟩, ⟨GKey.ord 20, 2⟩],
        1⟩ : BPT Int Int) KeyMax = some (none, false) ∧
      deleteRecord intCmp (⟨5, BNode.lf [⟨GKey.ord 10, 1⟩,
        ⟨GKey.ord 20, 2⟩], 1⟩ : BPT Int Int) KeyMin =
        some (⟨5, BNode.lf [⟨GKey.ord 10, 1⟩, ⟨GKey.ord 20, 2⟩], 1⟩,
          none, false) ∧
      deleteRecord intCmp (⟨5, BNode.lf [⟨GKey.ord 10, 1⟩,
        ⟨GKey.ord 20, 2⟩], 1⟩ : BPT Int Int) KeyMax =
        some (⟨5, BNode.lf [⟨GKey.ord 10, 1⟩, ⟨GKey.ord 20, 2⟩], 1⟩,
          none, false)) ∧
    (flattenT (⟨5, BNode.lf [⟨GKey.ord 10, 1⟩, ⟨GKey.ord 20, 2⟩], 1⟩ :
        BPT Int Int) ≠ [] →
      (∃ rF t', (flattenT (⟨5, BNode.lf [⟨GKey.ord 10, 1⟩,
          ⟨GKey.ord 20, 2⟩], 1⟩ : BPT Int Int)).head? = some rF ∧
        hasRecord intCmp (⟨5, BNode.lf [⟨GKey.ord 10, 1⟩,
          ⟨GKey.ord 20, 2⟩], 1⟩ : BPT Int Int) KeyMin =
          some (some rF.val, true) ∧
        deleteRecord intCmp (⟨5, BNode.lf [⟨GKey.ord 10, 1⟩,
          ⟨GKey.ord 20, 2⟩], 1⟩ : BPT Int Int) KeyMin =
          some (t', some rF.val, true) ∧
        flattenT t' = (flattenT (⟨5, BNode.lf [⟨GKey.ord 10, 1⟩,
          ⟨GKey.ord 20, 2⟩], 1⟩ : BPT Int Int)).tail) ∧
      (∃ rL t', (flattenT (⟨5, BNode.lf [⟨GKey.ord 10, 1⟩,
          ⟨GKey.ord 20, 2⟩], 1⟩ : BPT Int Int)).getLast? = some rL ∧
        hasRecord intCmp (⟨5, BNode.lf [⟨GKey.ord 10, 1⟩,
          ⟨GKey.ord 20, 2⟩], 1⟩ : BPT Int Int) KeyMax =
          some (some rL.val, true) ∧
        deleteRecord intCmp (⟨5, BNode.lf [⟨GKey.ord 10, 1⟩,
          ⟨GKey.ord 20, 2⟩], 1⟩ : BPT Int Int) KeyMax =
          some (t', some rL.val, true) ∧
        flattenT t' = (flattenT (⟨5, BNode.lf [⟨GKey.ord 10, 1⟩,
          ⟨GKey.ord 20, 2⟩], 1⟩ : BPT Int Int)).dropLast))) :=
  ⟨by decide,
   C10_sentinel_point_ops intCmp
     (⟨5, BNode.lf [⟨GKey.ord 10, 1⟩, ⟨GKey.ord 20, 2⟩], 1⟩ : BPT Int Int)
     (by decide)⟩

theorem setNode_of_getNode {K V : Type} :
    ∀ (p : List Nat) (n m new : BNode K V),
      getNode n p = some m → ∃ n', setNode n p new = some n'
  | [], n, m, new, _ => by cases n <;> exact ⟨new, rfl⟩
  | ix :: p, n, m, new, hg => by
    cases n with
    | lf rs => rw [getNode] at hg; cases hg
    | nl cs =>
      rw [getNode] at hg
      cases hcx : cs.get? ix with
      | none => rw [hcx] at hg; cases hg
      | some c =>
        rw [hcx] at hg
        obtain ⟨sub', hsub'⟩ := setNode_of_getNode p c.2 m new hg
        refine ⟨BNode.nl (cs.set ix (c.1, sub')), ?_⟩
        rw [setNode, hcx]
        simp only []
        rw [hsub']

/-- C6 (amended): whenever `trySplitNonLeaf` actually splits — the internal
node at frame `i ≥ 1` of the record path is full — the left node keeps
exactly `k = (maxDegree − 1) / 2` child entries (without the `+ 1` claimed
by the spec) and the right sibling receives the remaining `n − k`; the
right sibling's first separator key `r0.1` is promoted into the parent's
new entry for it, and the right sibling's own slot-0 separator is cleared
to the dummy value `none`. -/
theorem C6_amended_internal_split {K V : Type} (st : BPT K V)
    (path : List Nat) (i : Nat)
    (cs0 pcs : List (Option (GKey K) × BNode K V))
    (childIndex idx : Nat) (entry : Option (GKey K) × BNode K V)
    (hd3 : 3 ≤ st.maxDegree) (hi1 : 1 ≤ i)
    (hget : getNode st.root (path.take i) = some (BNode.nl cs0))
    (hci : path.get? i = some childIndex)
    (hfull : cs0.length = st.maxDegree)
    (hpar : getNode st.root (path.take (i - 1)) = some (BNode.nl pcs))
    (hidx : path.get? (i - 1) = some idx)
    (hent : pcs.get? idx = some entry) :
    ∃ r0 root',
      (cs0.drop ((st.maxDegree - 1) / 2)).head? = some r0 ∧
      setNode st.root (path.take (i - 1))
        (BNode.nl (pcs.take idx ++
          [(entry.1, BNode.nl (cs0.take ((st.maxDegree - 1) / 2))),
           (r0.1, BNode.nl ((none, r0.2) ::
             (cs0.drop ((st.maxDegree - 1) / 2)).tail))] ++
          pcs.drop (idx + 1))) = some root' ∧
      trySplitNonLeaf st path i =
        some (⟨st.maxDegree, root', st.height⟩,
          (if childIndex ≥ (st.maxDegree - 1) / 2 then
            (path.set i (childIndex - (st.maxDegree - 1) / 2)).set (i - 1)
              (idx + 1)
          else path), i) ∧
      (cs0.take ((st.maxDegree - 1) / 2)).length =
        (st.maxDegree - 1) / 2 ∧
      ((none, r0.2) :: (cs0.drop ((st.maxDegree - 1) / 2)).tail).length =
        cs0.length - (st.maxDegree - 1) / 2 := by
  have hklt : (st.maxDegree - 1) / 2 < cs0.length := by omega
  cases hr0 : (cs0.drop ((st.maxDegree - 1) / 2)).head? with
  | none =>
    rw [List.head?_eq_none_iff, List.drop_eq_nil_iff_le] at hr0
    omega
  | some r0 =>
    obtain ⟨root', hset⟩ := setNode_of_getNode (path.take (i - 1)) st.root
      (BNode.nl pcs)
      (BNode.nl (pcs.take idx ++
        [(entry.1, BNode.nl (cs0.take ((st.maxDegree - 1) / 2))),
         (r0.1, BNode.nl ((none, r0.2) ::
           (cs0.drop ((st.maxDegree - 1) / 2)).tail))] ++
        pcs.drop (idx + 1))) hpar
    refine ⟨r0, root', rfl, hset, ?_, ?_, ?_⟩
    · rw [trySplitNonLeaf, hget]
      simp only [Option.bind_eq_bind, Option.some_bind]
      rw [hci]
      simp only [Option.some_bind]
      rw [show childrenIsFull cs0.length st.maxDegree = true by
        rw [childrenIsFull]; simp [hfull]]
      simp only [if_true]
      rw [if_neg (by omega)]
      simp only []
      rw [hpar]
      simp only [Option.some_bind]
      rw [hidx]
      simp only [Option.some_bind]
      rw [hent]
      simp only [Option.some_bind]
      rw [hr0]
      simp only []
      rw [hset]
      simp only [Option.some_bind]
      by_cases hcx : childIndex ≥ (st.maxDegree - 1) / 2
      · rw [if_pos hcx, if_pos hcx]
      · rw [if_neg hcx, if_neg hcx]
    · rw [List.length_take]
      omega
    · rw [List.length_cons, List.length_tail, List.length_drop]
      omega

/-- Witness for C6: a full 5-entry internal node below the root is split
at `maxDegree = 5`; the left node keeps `(5 − 1) / 2 = 2` entries, the
right sibling gets the other 3, its first separator (key 30) is promoted
and its slot-0 separator cleared. -/
theorem C6_amended_internal_split_witness :
    3 ≤ (5 : Nat) ∧
    ∃ (r0 : Option (GKey Int) × BNode Int Int) (root' : BNode Int Int),
      ([((none : Option (GKey Int)), (BNode.lf [] : BNode Int Int)),
        (some (GKey.ord 20), BNode.lf []), (some (GKey.ord 30), BNode.lf []),
        (some (GKey.ord 40), BNode.lf []),
        (some (GKey.ord 50), BNode.lf [])].drop 2).head? = some r0 ∧
      setNode (BNode.nl [((none : Option (GKey Int)), BNode.nl
          [(none, BNode.lf []), (some (GKey.ord 20), BNode.lf []),
           (some (GKey.ord 30), BNode.lf []),
           (some (GKey.ord 40), BNode.lf []),
           (some (GKey.ord 50), BNode.lf [])])]) []
        (BNode.nl [(none, BNode.nl [(none, BNode.lf []),
            (some (GKey.ord 20), BNode.lf [])]),
          (r0.1, BNode.nl ((none, r0.2) ::
            [(some (GKey.ord 40), BNode.lf []),
             (some (GKey.ord 50), BNode.lf [])]))]) = some root' ∧
      trySplitNonLeaf (⟨5, BNode.nl [(none, BNode.nl
          [(none, BNode.lf []), (some (GKey.ord 20), BNode.lf []),
           (some (GKey.ord 30), BNode.lf []),
           (some (GKey.ord 40), BNode.lf []),
           (some (GKey.ord 50), BNode.lf [])])], 3⟩ : BPT Int Int)
        [0, 3] 1 = some (⟨5, root', 3⟩, [1, 1], 1) ∧
      (2 : Nat) = 2 ∧ (3 : Nat) = 3 :=
  ⟨by decide,
   C6_amended_internal_split
     (⟨5, BNode.nl [(none, BNode.nl
        [(none, BNode.lf []), (some (GKey.ord 20), BNode.lf []),
         (some (GKey.ord 30), BNode.lf []), (some (GKey.ord 40), BNode.lf []),
         (some (GKey.ord 50), BNode.lf [])])], 3⟩ : BPT Int Int)
     [0, 3] 1
     [(none, BNode.lf []), (some (GKey.ord 20), BNode.lf []),
      (some (GKey.ord 30), BNode.lf []), (some (GKey.ord 40), BNode.lf []),
      (some (GKey.ord 50), BNode.lf [])]
     [(none, BNode.nl
        [(none, BNode.lf []), (some (GKey.ord 20), BNode.lf []),
         (some (GKey.ord 30), BNode.lf []), (some (GKey.ord 40), BNode.lf []),
         (some (GKey.ord 50), BNode.lf [])])]
     3 0
     (none, BNode.nl
        [(none, BNode.lf []), (some (GKey.ord 20), BNode.lf []),
         (some (GKey.ord 30), BNode.lf []), (some (GKey.ord 40), BNode.lf []),
         (some (GKey.ord 50), BNode.lf [])])
     (by decide) (by decide) rfl rfl rfl rfl rfl rfl⟩
